import Mathlib

/-!
Verification development for the workout-log plugin's core
(`src/parser/exercise.ts`, the progression module, and `resetWorkout`
in the plugin main file).

Modelling conventions:
* JavaScript strings are modelled as `List Char`.
* JavaScript numbers are modelled as `ℚ`; `NaN` is modelled by `Option ℚ`
  being `none` (`parseFloat` returns `none` where JS returns `NaN`).
  All call sites modelled here only ever stringify rationals whose
  denominator divides a power of 10 (values are rounded to hundredths),
  where the decimal rendering below agrees with JS `Number.toString`.
* `undefined` optional fields are `Option` `none`; JS truthiness of an
  optional string (`undefined` and `""` are falsy) is `strTruthy`.
-/

set_option maxRecDepth 100000

/- The Batteries rational operations are `@[irreducible]`, which blocks
`decide` on the concrete scenario claims; restore reducibility for this
development. -/
attribute [local semireducible] Rat.add Rat.mul Rat.inv Rat.sub Rat.ofScientific

namespace WorkoutLog

/-- JS whitespace class (`\s`); used by `trim`, `\s*` and `split(/\s+/)`. -/
def jsIsWs (c : Char) : Bool :=
  c = ' ' || c = '\t' || c = '\n' || c = '\r' ||
  c.toNat = 0xb || c.toNat = 0xc || c.toNat = 0xa0 || c.toNat = 0x1680 ||
  (0x2000 ≤ c.toNat && c.toNat ≤ 0x200a) || c.toNat = 0x2028 ||
  c.toNat = 0x2029 || c.toNat = 0x202f || c.toNat = 0x205f ||
  c.toNat = 0x3000 || c.toNat = 0xfeff

/-- JS line terminators, the characters the regex `.` does not match. -/
def isLineTerm (c : Char) : Bool :=
  c = '\n' || c = '\r' || c.toNat = 0x2028 || c.toNat = 0x2029

/-- No line terminator occurs in the string (so `.`-based regex parts can
match it). -/
def noLT (l : List Char) : Bool := l.all (fun c => !isLineTerm c)

/-- Drop trailing whitespace. -/
def dropTrailWs (l : List Char) : List Char :=
  (l.reverse.dropWhile jsIsWs).reverse

/-- JS `String.prototype.trim`. -/
def jsTrim (l : List Char) : List Char :=
  dropTrailWs (l.dropWhile jsIsWs)

/-- Split at the first occurrence of `c`: returns the part before and the
part after (separator dropped), or `none` if `c` does not occur.
Models `indexOf` + `substring`, and the regex idiom `([^c]*)c`. -/
def splitFirst (c : Char) : List Char → Option (List Char × List Char)
  | [] => none
  | x :: xs =>
    if x = c then some ([], xs)
    else match splitFirst c xs with
      | some (a, b) => some (x :: a, b)
      | none => none

/-- JS `String.prototype.split` with a single-character separator. -/
def splitOnChar (c : Char) : List Char → List (List Char)
  | [] => [[]]
  | x :: xs =>
    if x = c then [] :: splitOnChar c xs
    else match splitOnChar c xs with
      | [] => [[x]]
      | a :: rest => (x :: a) :: rest

/-- Worker for `jsSplitWs`: `some cur` is a field under construction
(reversed); `none` means the scanner is inside a whitespace run whose
preceding field has been emitted. -/
def jsSplitWsGo : Option (List Char) → List Char → List (List Char)
  | some cur, [] => [cur.reverse]
  | none, [] => [[]]
  | some cur, c :: rest =>
    if jsIsWs c then cur.reverse :: jsSplitWsGo none rest
    else jsSplitWsGo (some (c :: cur)) rest
  | none, c :: rest =>
    if jsIsWs c then jsSplitWsGo none rest
    else jsSplitWsGo (some [c]) rest

/-- JS `String.prototype.split(/\s+/)`: fields between maximal whitespace
runs (an empty field at an end when the string starts/ends with
whitespace; `[""]` for the empty string). -/
def jsSplitWs (l : List Char) : List (List Char) :=
  jsSplitWsGo (some []) l

/-- `Array.prototype.join(' ')`. -/
def joinSpace : List (List Char) → List Char
  | [] => []
  | [w] => w
  | w :: ws => w ++ ' ' :: joinSpace ws

/-- JS truthiness of an optional string: `undefined` and `""` are falsy. -/
def strTruthy : Option (List Char) → Bool
  | none => false
  | some s => !s.isEmpty

/-- `a || b` for an optional string `a` and a string default `b`. -/
def jsOr (a : Option (List Char)) (b : List Char) : List Char :=
  if strTruthy a then a.getD [] else b

/-- `s || undefined`: an empty string collapses to `undefined`. -/
def jsOrU (s : List Char) : Option (List Char) :=
  if s.isEmpty then none else some s

/-- Decimal digits to a natural number (`parseInt` on an all-digit string). -/
def digitsToNat (l : List Char) : Nat :=
  l.foldl (fun acc c => acc * 10 + (c.toNat - '0'.toNat)) 0

/-- Digits of `n` in base 10, most significant first (JS `Number.toString`
for a nonnegative integer). -/
def natToDecimal (n : Nat) : List Char :=
  Nat.toDigits 10 n

/-- The string is a nonempty run of decimal digits (regex `^\d+$`). -/
def isDigits (l : List Char) : Bool := !l.isEmpty && l.all Char.isDigit

/-- Exponent part of a float literal after `e`/`E`: optional sign and
digits; when no digits follow, `parseFloat` stops before the `e` and the
exponent is 0. -/
def parseExpPart (l : List Char) : ℤ :=
  let sg : ℤ := match l.head? with
    | some '-' => -1
    | _ => 1
  let r := match l.head? with
    | some '-' => l.tail
    | some '+' => l.tail
    | _ => l
  let ds := r.takeWhile Char.isDigit
  if ds.isEmpty then 0 else sg * (digitsToNat ds : ℤ)

/-- JS `parseFloat`: skip leading whitespace, parse the longest prefix of
the form `[+-]?digits[.digits][eE[+-]digits]` (or `.digits`), ignore the
rest; `none` models `NaN`. (The `Infinity` literal is not modelled; no
modelled call site feeds it.) -/
def parseFloatQ (s : List Char) : Option ℚ :=
  let s1 := s.dropWhile jsIsWs
  let sign : ℚ := match s1.head? with
    | some '-' => -1
    | _ => 1
  let s2 := match s1.head? with
    | some '-' => s1.tail
    | some '+' => s1.tail
    | _ => s1
  let intD := s2.takeWhile Char.isDigit
  let r1 := s2.dropWhile Char.isDigit
  let fracD := match r1.head? with
    | some '.' => r1.tail.takeWhile Char.isDigit
    | _ => []
  let r2 := match r1.head? with
    | some '.' => r1.tail.dropWhile Char.isDigit
    | _ => r1
  if intD.isEmpty && fracD.isEmpty then none
  else
    let mantissa : ℚ :=
      (digitsToNat intD : ℚ) + (digitsToNat fracD : ℚ) / (10 : ℚ) ^ fracD.length
    let expo : ℤ := match r2.head? with
      | some 'e' => parseExpPart r2.tail
      | some 'E' => parseExpPart r2.tail
      | _ => 0
    some (sign * mantissa * (10 : ℚ) ^ expo)

/-- JS `Math.round`: round half toward positive infinity. -/
def jsRound (q : ℚ) : ℤ := ⌊q + 1 / 2⌋

/-- `Math.round(x * 100) / 100`, the two-decimal rounding used by the
progression engine. -/
def roundHundredths (q : ℚ) : ℚ := (jsRound (q * 100) : ℚ) / 100

/-- Count how many times `p` divides `n` (with fuel), returning the count
and the remaining cofactor. -/
def stripCount (p : Nat) : Nat → Nat → Nat × Nat
  | 0, n => (0, n)
  | fuel + 1, n =>
    if 2 ≤ p && n ≠ 0 && n % p = 0 then
      let r := stripCount p fuel (n / p)
      (r.1 + 1, r.2)
    else (0, n)

/-- Smallest `k` with `d ∣ 10^k`, when `d` is of the form `2^a * 5^b`. -/
def decExp (d : Nat) : Option Nat :=
  let r2 := stripCount 2 d d
  let r5 := stripCount 5 r2.2 r2.2
  if r5.2 = 1 then some (max r2.1 r5.1) else none

/-- Left-pad with `'0'` to width `k`. -/
def padZeros (k : Nat) (l : List Char) : List Char :=
  List.replicate (k - l.length) '0' ++ l

/-- Decimal rendering of the nonnegative rational `n / d` (in lowest
terms). For a denominator of the form `2^a * 5^b` this is the exact
finite decimal with no trailing zeros, which agrees with JS
`Number.toString` on such values; other denominators (JS would print a
shortest-round-trip double) do not arise at the modelled call sites and
get a 20-digit truncation. -/
def qToStringNN (n d : Nat) : List Char :=
  match decExp d with
  | some k =>
    if k = 0 then natToDecimal n
    else
      let scaled := n * (10 ^ k / d)
      natToDecimal (scaled / 10 ^ k) ++ '.' :: padZeros k (natToDecimal (scaled % 10 ^ k))
  | none =>
      let scaled := n * 10 ^ 20 / d
      natToDecimal (scaled / 10 ^ 20) ++ '.' :: padZeros 20 (natToDecimal (scaled % 10 ^ 20))

/-- JS `Number.prototype.toString` on the modelled number domain. -/
def qToString (q : ℚ) : List Char :=
  if q < 0 then '-' :: qToStringNN (-q).num.natAbs (-q).den
  else qToStringNN q.num.natAbs q.den

/-- Regex `^(\d+)s$` of `parseDurationToSeconds`. -/
def matchSecondsForm (l : List Char) : Option Nat :=
  match l.reverse with
  | 's' :: rev =>
    let ds := rev.reverse
    if isDigits ds then some (digitsToNat ds) else none
  | _ => none

/-- Regex `^(\d+):(\d{2})$` of `parseDurationToSeconds`. -/
def matchColonForm (l : List Char) : Option Nat :=
  match splitFirst ':' l with
  | some (a, b) =>
    if isDigits a && b.length = 2 && b.all Char.isDigit then
      some (digitsToNat a * 60 + digitsToNat b)
    else none
  | none => none

/-- Regex `^(\d+)m\s*(\d+)?s?$` of `parseDurationToSeconds`; a missing
seconds group counts as 0. -/
def matchMinSecForm (l : List Char) : Option Nat :=
  let ds := l.takeWhile Char.isDigit
  let r1 := l.dropWhile Char.isDigit
  if ds.isEmpty then none
  else match r1 with
    | 'm' :: r2 =>
      let r3 := r2.dropWhile jsIsWs
      let ds2 := r3.takeWhile Char.isDigit
      let r4 := r3.dropWhile Char.isDigit
      match r4 with
      | [] => some (digitsToNat ds * 60 + digitsToNat ds2)
      | ['s'] => some (digitsToNat ds * 60 + digitsToNat ds2)
      | _ => none
    | _ => none

/-- `parseDurationToSeconds` from `src/parser/exercise.ts`: accepts
`"60s"`, `"1:30"`, `"1m 30s"`/`"1m30s"`/`"1m"`, or a bare number;
anything else yields 0. -/
def parseDurationToSeconds (durationStr : List Char) : Nat :=
  let str := jsTrim durationStr
  match matchSecondsForm str with
  | some n => n
  | none =>
    match matchColonForm str with
    | some n => n
    | none =>
      match matchMinSecForm str with
      | some n => n
      | none => if isDigits str then digitsToNat str else 0

/-! ### Formula evaluator

`evaluateProgressionFormula` in the source first replaces every `^` by
`**`, then for each entry of the variables record replaces the
whole-word occurrences of the name (regex `\b<name>\b`, global) by
`value.toString()`, and evaluates the resulting text with
`new Function('return <expr>')()`; it throws when construction or
evaluation throws (a syntax error in the substituted text, an
undefined identifier) or when the result is not a finite number. The
model below performs the same textual pipeline and then lexes and
parses the substituted text with the arithmetic fragment of the JS
expression grammar that formulas reach: decimal numeric literals (with
optional fraction and exponent), identifiers, the operators `+ - * / %`
and `**`, parentheses and whitespace. As in JS, `**` is lexed by
maximal munch and its base must not be a bare sign-prefixed operand;
adjacent `--`/`++` lex as the decrement/increment punctuators — they
can arise from substituting a negative value, e.g. `2-w` with `w = -5`
becomes `2--5` — and never produce a value under `return`, so the
lexer rejects them. Identifiers surviving substitution resolve against
nothing (the constructed function has no bindings in scope; JS host
globals are not modelled), so they fail as undefined. Out of the
modelled scope are line terminators inside a formula (the `.`-based
capture regexes that produce formulas exclude them; in JS they would
trigger automatic semicolon insertion), variable names that are empty
or contain non-word characters (the engine passes single lowercased
letters), non-arithmetic JS operators, and IEEE-754 rounding/overflow:
arithmetic here is exact rational arithmetic, and a fractional
exponent of a positive base — where JS computes an
implementation-approximated finite double — is modelled by the floor
of the exact root at nine decimal digits. -/

/-- Failure causes of formula evaluation: a malformed (substituted)
expression, an undefined identifier, or a non-finite result. -/
inductive EvalErr
  | malformed
  | undefinedVariable
  | nonFinite
deriving DecidableEq, Repr

/-- Regex word characters (`\w`), which decide the `\b` boundaries of
the substitution regexes. -/
def isWordChar (c : Char) : Bool := c.isAlphanum || c = '_'

/-- Wordness of an optional character (`none` is a string edge). -/
def isWordEdge : Option Char → Bool
  | some c => isWordChar c
  | none => false

/-- A `\b` word boundary lies between two adjacent positions exactly
when their wordness differs. -/
def wordBoundary (l r : Option Char) : Bool := isWordEdge l != isWordEdge r

/-- One left-to-right pass of `String.replace` with the global regex
`\b<name>\b`: at each position, a whole-word occurrence of `name` is
replaced by `val` and scanning resumes after the match. The fuel is
the input length, enough since every step consumes input. -/
def replaceWordGo (name val : List Char) : Nat → Option Char → List Char →
    List Char
  | 0, _, s => s
  | _ + 1, _, [] => []
  | fuel + 1, prev, c :: cs =>
    if name.isPrefixOf (c :: cs) && wordBoundary prev (some c) &&
        wordBoundary name.getLast? ((c :: cs).drop name.length).head? then
      val ++ replaceWordGo name val fuel name.getLast?
        ((c :: cs).drop name.length)
    else c :: replaceWordGo name val fuel (some c) cs

/-- `expression.replace(new RegExp('\\b' + name + '\\b', 'g'), val)`
for a nonempty word name (the modelled scope; the engine passes single
letters). -/
def replaceWord (name val s : List Char) : List Char :=
  if name.isEmpty then s else replaceWordGo name val (s.length + 1) none s

/-- The `^` → `**` rewrite the source applies before substituting. -/
def caretToStarStar : List Char → List Char
  | [] => []
  | c :: cs =>
    if c = '^' then '*' :: '*' :: caretToStarStar cs
    else c :: caretToStarStar cs

/-- Substitute every variable value (rendered by `toString`) into the
expression text, in record entry order. -/
def substVars (vars : List (List Char × ℚ)) (s : List Char) : List Char :=
  vars.foldl (fun acc p => replaceWord p.1 (qToString p.2) acc) s

/-- The text `evaluateProgressionFormula` actually evaluates: `^`
rewritten to `**`, then all variables substituted. -/
def substExpr (formula : List Char) (vars : List (List Char × ℚ)) :
    List Char :=
  substVars vars (caretToStarStar formula)

/-- Formula tokens. -/
inductive FTok
  | num (q : ℚ)
  | ident (s : List Char)
  | plus
  | minus
  | star
  | starstar
  | slash
  | percent
  | lparen
  | rparen
deriving DecidableEq, Repr

/-- First character of a JS identifier. -/
def isIdentStart (c : Char) : Bool := c.isAlpha || c = '_' || c = '$'

/-- Subsequent character of a JS identifier. -/
def isIdentChar (c : Char) : Bool := c.isAlphanum || c = '_' || c = '$'

/-- Optional exponent part of a JS numeric literal: `e`/`E`, an
optional sign and mandatory digits; `none` is the syntax error of a
dangling exponent marker. -/
def expPart (mant : ℚ) (s : List Char) : Option (ℚ × List Char) :=
  match s with
  | 'e' :: r | 'E' :: r =>
    let sr : Bool × List Char :=
      match r with
      | '+' :: r2 => (false, r2)
      | '-' :: r2 => (true, r2)
      | _ => (false, r)
    let expD := sr.2.takeWhile Char.isDigit
    if expD.isEmpty then none
    else
      some ((if sr.1 then mant / (10 : ℚ) ^ digitsToNat expD
             else mant * (10 : ℚ) ^ digitsToNat expD),
        sr.2.dropWhile Char.isDigit)
  | _ => some (mant, s)

/-- Tokenizer for the modelled fragment of the JS lexer (fuel-driven;
the fuel passed by `tokenize` always suffices since every step
consumes a character). `**` is lexed by maximal munch; adjacent
`--`/`++` lex as the decrement/increment punctuators, which never
yield a value in a `return` expression and are rejected here; a raw
`^` never occurs in the evaluated text (the source rewrites every `^`
before evaluating) and is rejected. -/
def tokenizeGo : Nat → List Char → Option (List FTok)
  | 0, _ => none
  | _ + 1, [] => some []
  | fuel + 1, c :: rest =>
    if jsIsWs c then tokenizeGo fuel rest
    else if c = '+' then
      match rest.head? with
      | some '+' => none
      | _ => (tokenizeGo fuel rest).map (FTok.plus :: ·)
    else if c = '-' then
      match rest.head? with
      | some '-' => none
      | _ => (tokenizeGo fuel rest).map (FTok.minus :: ·)
    else if c = '*' then
      match rest with
      | '*' :: rest2 => (tokenizeGo fuel rest2).map (FTok.starstar :: ·)
      | _ => (tokenizeGo fuel rest).map (FTok.star :: ·)
    else if c = '/' then (tokenizeGo fuel rest).map (FTok.slash :: ·)
    else if c = '%' then (tokenizeGo fuel rest).map (FTok.percent :: ·)
    else if c = '(' then (tokenizeGo fuel rest).map (FTok.lparen :: ·)
    else if c = ')' then (tokenizeGo fuel rest).map (FTok.rparen :: ·)
    else if c.isDigit || c = '.' then
      let intD := (c :: rest).takeWhile Char.isDigit
      let r1 := (c :: rest).dropWhile Char.isDigit
      match r1.head? with
      | some '.' =>
        let fracD := r1.tail.takeWhile Char.isDigit
        let r2 := r1.tail.dropWhile Char.isDigit
        if intD.isEmpty && fracD.isEmpty then none
        else
          match expPart ((digitsToNat intD : ℚ) +
              (digitsToNat fracD : ℚ) / (10 : ℚ) ^ fracD.length) r2 with
          | none => none
          | some (q, r3) => (tokenizeGo fuel r3).map (FTok.num q :: ·)
      | _ =>
        match expPart (digitsToNat intD : ℚ) r1 with
        | none => none
        | some (q, r3) => (tokenizeGo fuel r3).map (FTok.num q :: ·)
    else if isIdentStart c then
      let idn := (c :: rest).takeWhile isIdentChar
      let r1 := (c :: rest).dropWhile isIdentChar
      (tokenizeGo fuel r1).map (FTok.ident idn :: ·)
    else none

/-- Tokenize an expression string; `none` is a lexing failure. -/
def tokenize (l : List Char) : Option (List FTok) :=
  tokenizeGo (l.length + 1) l

/-- Abstract syntax of the evaluated expressions. -/
inductive FExpr
  | num (q : ℚ)
  | var (s : List Char)
  | neg (e : FExpr)
  | add (a b : FExpr)
  | sub (a b : FExpr)
  | mul (a b : FExpr)
  | div (a b : FExpr)
  | mod (a b : FExpr)
  | pow (a b : FExpr)
deriving DecidableEq, Repr

/-- Parse modes of the recursive-descent expression grammar:
`Expr := Term (('+'|'-') Term)*`, `Term := Factor (('*'|'/'|'%')
Factor)*`, `Factor := '-' Signed | '+' Signed | Pow` (as in JS, a
sign-prefixed operand cannot be the base of `**`), `Signed := '-'
Signed | '+' Signed | Atom`, `Pow := Atom ('**' Factor)?`
(right-associative), `Atom := number | identifier | '(' Expr ')'`. The
tail modes carry the left-associated accumulator. -/
inductive PMode
  | expr
  | exprTail (acc : FExpr)
  | term
  | termTail (acc : FExpr)
  | factor
  | signed
  | pw
  | atom

/-- Fuel-driven descent over the grammar in `PMode`; the fuel passed by
`parseFormula` always suffices. -/
def parseGo : Nat → PMode → List FTok → Option (FExpr × List FTok)
  | 0, _, _ => none
  | fuel + 1, .expr, toks =>
    match parseGo fuel .term toks with
    | none => none
    | some (e, rest) => parseGo fuel (.exprTail e) rest
  | fuel + 1, .exprTail acc, toks =>
    match toks with
    | FTok.plus :: rest =>
      match parseGo fuel .term rest with
      | none => none
      | some (e, rest') => parseGo fuel (.exprTail (FExpr.add acc e)) rest'
    | FTok.minus :: rest =>
      match parseGo fuel .term rest with
      | none => none
      | some (e, rest') => parseGo fuel (.exprTail (FExpr.sub acc e)) rest'
    | _ => some (acc, toks)
  | fuel + 1, .term, toks =>
    match parseGo fuel .factor toks with
    | none => none
    | some (e, rest) => parseGo fuel (.termTail e) rest
  | fuel + 1, .termTail acc, toks =>
    match toks with
    | FTok.star :: rest =>
      match parseGo fuel .factor rest with
      | none => none
      | some (e, rest') => parseGo fuel (.termTail (FExpr.mul acc e)) rest'
    | FTok.slash :: rest =>
      match parseGo fuel .factor rest with
      | none => none
      | some (e, rest') => parseGo fuel (.termTail (FExpr.div acc e)) rest'
    | FTok.percent :: rest =>
      match parseGo fuel .factor rest with
      | none => none
      | some (e, rest') => parseGo fuel (.termTail (FExpr.mod acc e)) rest'
    | _ => some (acc, toks)
  | fuel + 1, .factor, toks =>
    match toks with
    | FTok.minus :: rest =>
      match parseGo fuel .signed rest with
      | none => none
      | some (e, rest') => some (FExpr.neg e, rest')
    | FTok.plus :: rest => parseGo fuel .signed rest
    | _ => parseGo fuel .pw toks
  | fuel + 1, .signed, toks =>
    match toks with
    | FTok.minus :: rest =>
      match parseGo fuel .signed rest with
      | none => none
      | some (e, rest') => some (FExpr.neg e, rest')
    | FTok.plus :: rest => parseGo fuel .signed rest
    | _ => parseGo fuel .atom toks
  | fuel + 1, .pw, toks =>
    match parseGo fuel .atom toks with
    | none => none
    | some (a, rest) =>
      match rest with
      | FTok.starstar :: rest' =>
        match parseGo fuel .factor rest' with
        | none => none
        | some (b, rest'') => some (FExpr.pow a b, rest'')
      | _ => some (a, rest)
  | fuel + 1, .atom, toks =>
    match toks with
    | FTok.num q :: rest => some (FExpr.num q, rest)
    | FTok.ident s :: rest => some (FExpr.var s, rest)
    | FTok.lparen :: rest =>
      match parseGo fuel .expr rest with
      | none => none
      | some (e, rest') =>
        match rest' with
        | FTok.rparen :: rest'' => some (e, rest'')
        | _ => none
    | _ => none


/-- Parse a token stream as a complete expression. -/
def parseFormula (toks : List FTok) : Option FExpr :=
  match parseGo (8 * toks.length + 8) PMode.expr toks with
  | some (e, []) => some e
  | _ => none

/-- Variable environments, modelling the `Record<string, number>` of
variable names to values. -/
def lookupVar (env : List (List Char × ℚ)) (x : List Char) : Option ℚ :=
  (env.find? (fun p => p.1 == x)).map (·.2)

/-- Insert or overwrite a binding (JS object property assignment). -/
def setVar (env : List (List Char × ℚ)) (x : List Char) (v : ℚ) :
    List (List Char × ℚ) :=
  if env.any (fun p => p.1 == x) then
    env.map (fun p => if p.1 == x then (x, v) else p)
  else env ++ [(x, v)]

/-- Truncation toward zero (the integer part JS `%` uses). -/
def truncQ (q : ℚ) : ℤ := if q < 0 then -⌊-q⌋ else ⌊q⌋

/-- JS `%` on the modelled domain: truncated remainder; a zero divisor
gives `NaN` (non-finite). -/
def jsModQ (a b : ℚ) : Except EvalErr ℚ :=
  if b = 0 then .error .nonFinite else .ok (a - b * (truncQ (a / b) : ℚ))

/-- Bisection step for the integer root: `lo ^ q ≤ n < hi ^ q` is the
loop invariant. -/
def iRootGo (q n : Nat) : Nat → Nat → Nat → Nat
  | 0, lo, _ => lo
  | fuel + 1, lo, hi =>
    let mid := (lo + hi) / 2
    if mid = lo then lo
    else if mid ^ q ≤ n then iRootGo q n fuel mid hi
    else iRootGo q n fuel lo mid

/-- The integer `q`-th root `⌊n ^ (1/q)⌋` by bisection. -/
def iRoot (q n : Nat) : Nat := iRootGo q n (n + 2) 0 (n + 1)

/-- JS `**` on the modelled domain: an integer exponent computes the
exact rational power (zero to a negative power is `Infinity`,
non-finite); with a fractional exponent, a negative base is `NaN` and
a zero base with a negative exponent is `Infinity` (both non-finite),
as in JS, while for a positive base JS computes an
implementation-approximated finite double (ECMA leaves `Math.pow`
implementation-approximated), modelled as the floor of the exact root
at nine decimal digits — exact on exactly representable results such
as `4 ** 0.5 = 2`. -/
def jsPowQ (a b : ℚ) : Except EvalErr ℚ :=
  if b.den = 1 then
    if 0 ≤ b.num then .ok (a ^ b.num.toNat)
    else if a = 0 then .error .nonFinite
    else .ok ((a ^ (-b.num).toNat)⁻¹)
  else if a < 0 then .error .nonFinite
  else if a = 0 then
    if 0 ≤ b.num then .ok 0 else .error .nonFinite
  else
    let z : ℚ := if 0 ≤ b.num then a ^ b.num.toNat
      else (a ^ (-b.num).toNat)⁻¹
    .ok ((iRoot b.den (z.num.toNat * 10 ^ (9 * b.den) / z.den) : ℚ) / 10 ^ 9)

/-- Evaluate an expression over an environment. -/
def evalExpr : FExpr → List (List Char × ℚ) → Except EvalErr ℚ
  | .num q, _ => .ok q
  | .var x, env =>
    match lookupVar env x with
    | some v => .ok v
    | none => .error .undefinedVariable
  | .neg e, env => (evalExpr e env).map (fun v => -v)
  | .add a b, env => do
    let x ← evalExpr a env
    let y ← evalExpr b env
    pure (x + y)
  | .sub a b, env => do
    let x ← evalExpr a env
    let y ← evalExpr b env
    pure (x - y)
  | .mul a b, env => do
    let x ← evalExpr a env
    let y ← evalExpr b env
    pure (x * y)
  | .div a b, env => do
    let x ← evalExpr a env
    let y ← evalExpr b env
    if y = 0 then .error .nonFinite else pure (x / y)
  | .mod a b, env => do
    let x ← evalExpr a env
    let y ← evalExpr b env
    jsModQ x y
  | .pow a b, env => do
    let x ← evalExpr a env
    let y ← evalExpr b env
    jsPowQ x y

/-- `evaluateProgressionFormula` from the progression module: rewrite
`^` to `**`, substitute the variable values textually, then evaluate
the substituted expression with no bindings in scope; errors are a
malformed substituted expression, an identifier left after
substitution (undefined at evaluation), and a non-finite result. -/
def evaluateProgressionFormula (formula : List Char)
    (vars : List (List Char × ℚ)) : Except EvalErr ℚ :=
  match tokenize (substExpr formula vars) with
  | none => .error .malformed
  | some toks =>
    match parseFormula toks with
    | none => .error .malformed
    | some e => evalExpr e []

/-- The identifiers referenced by a formula. -/
def exprVars : FExpr → List (List Char)
  | .num _ => []
  | .var s => [s]
  | .neg e => exprVars e
  | .add a b => exprVars a ++ exprVars b
  | .sub a b => exprVars a ++ exprVars b
  | .mul a b => exprVars a ++ exprVars b
  | .div a b => exprVars a ++ exprVars b
  | .mod a b => exprVars a ++ exprVars b
  | .pow a b => exprVars a ++ exprVars b

/-! ### Progression value codec -/

/-- Result record of `parseProgressionValue`. -/
structure PVParts where
  value : List Char
  progressionFormula : Option (List Char) := none
  initialValue : Option (List Char) := none
  maxValue : Option (List Char) := none
deriving DecidableEq, Repr

/-- The depth-counting scan of `parseProgressionValue`: index of the
closing parenthesis that returns the running depth to zero. -/
def findClose : List Char → Nat → ℤ → Option Nat
  | [], _, _ => none
  | c :: rest, i, depth =>
    let depth' : ℤ :=
      if c = '(' then depth + 1 else if c = ')' then depth - 1 else depth
    if c = ')' && depth' = 0 then some i
    else findClose rest (i + 1) depth'

/-- Regex `^\{([^,]*),([^\}]*)\}(.+)$`: a bounds block `{initial,max}`
followed by a nonempty value (the initial part runs to the first comma,
the max part to the first closing brace after it; the value part may not
contain a line terminator and must be nonempty). Returns the three raw
captures. -/
def matchBounds : List Char → Option (List Char × List Char × List Char)
  | '{' :: rest =>
    match splitFirst ',' rest with
    | none => none
    | some (iRaw, rest2) =>
      match splitFirst '}' rest2 with
      | none => none
      | some (mRaw, vRaw) =>
        if !vRaw.isEmpty && noLT vRaw then some (iRaw, mRaw, vRaw) else none
  | _ => none

/-- `parseProgressionValue` from `src/progression.ts`: parse
`(formula){initial,max}value`, `(formula)value`, `{initial,max}value`,
or a plain value. Empty (after trimming) bounds collapse to `none`;
an empty formula is kept as `some ""`. -/
def parseProgressionValue (valueStr : List Char) : PVParts :=
  if valueStr.head? = some '(' then
    match findClose valueStr 0 0 with
    | some formulaEnd =>
      if formulaEnd > 0 then
        let formula := jsTrim ((valueStr.drop 1).take (formulaEnd - 1))
        let remainder := valueStr.drop (formulaEnd + 1)
        match matchBounds remainder with
        | some (iRaw, mRaw, vRaw) =>
          { value := jsTrim vRaw
            progressionFormula := some formula
            initialValue := jsOrU (jsTrim iRaw)
            maxValue := jsOrU (jsTrim mRaw) }
        | none => { value := jsTrim remainder, progressionFormula := some formula }
      else
        match matchBounds valueStr with
        | some (iRaw, mRaw, vRaw) =>
          { value := jsTrim vRaw
            initialValue := jsOrU (jsTrim iRaw)
            maxValue := jsOrU (jsTrim mRaw) }
        | none => { value := valueStr }
    | none =>
      match matchBounds valueStr with
      | some (iRaw, mRaw, vRaw) =>
        { value := jsTrim vRaw
          initialValue := jsOrU (jsTrim iRaw)
          maxValue := jsOrU (jsTrim mRaw) }
      | none => { value := valueStr }
  else
    match matchBounds valueStr with
    | some (iRaw, mRaw, vRaw) =>
      { value := jsTrim vRaw
        initialValue := jsOrU (jsTrim iRaw)
        maxValue := jsOrU (jsTrim mRaw) }
    | none => { value := valueStr }

/-- `formatProgressionValue` from `src/progression.ts`: emit
`{initial,max}` (empty string for an absent side) when either bound is
present, then wrap in `(formula)` when the formula is truthy. -/
def formatProgressionValue (value : List Char) (formula : Option (List Char))
    (initialValue : Option (List Char)) (maxValue : Option (List Char)) :
    List Char :=
  let result := value
  let result :=
    if initialValue ≠ none || maxValue ≠ none then
      '{' :: initialValue.getD [] ++ ',' :: maxValue.getD [] ++ '}' :: result
    else result
  if strTruthy formula then '(' :: formula.getD [] ++ ')' :: result
  else result

/-! ### Progression engine -/

/-- One exercise parameter (`ExerciseParam` in `src/types.ts`). -/
structure ExerciseParam where
  key : List Char
  value : List Char
  editable : Bool
  unit : Option (List Char) := none
  progressionFormula : Option (List Char) := none
  initialValue : Option (List Char) := none
  maxValue : Option (List Char) := none
  locked : Option Bool := none
deriving DecidableEq, Repr

/-- Result of `applyProgression`. -/
structure ProgressionResult where
  params : List ExerciseParam
  shouldAddSet : Bool
deriving DecidableEq, Repr

/-- `"duration"` as a character list. -/
def kwDuration : List Char := "duration".toList

/-- `"weight"` as a character list. -/
def kwWeight : List Char := "weight".toList

/-- `"reps"` as a character list. -/
def kwReps : List Char := "reps".toList

/-- `"rest"` as a character list. -/
def kwRest : List Char := "rest".toList

/-- `key.toLowerCase()`. -/
def lowerStr (l : List Char) : List Char := l.map Char.toLower

/-- `key.charAt(0).toLowerCase()`: the variable name derived from a
parameter key. -/
def varNameOf (key : List Char) : List Char := (key.take 1).map Char.toLower

/-- The initial variable map of `applyProgression`: every non-Duration
parameter whose value parses as a number binds its key's first letter. -/
def buildVariables (params : List ExerciseParam) : List (List Char × ℚ) :=
  params.foldl
    (fun vars param =>
      if lowerStr param.key = kwDuration then vars
      else
        match parseFloatQ param.value with
        | some v => setVar vars (varNameOf param.key) v
        | none => vars)
    []

/-- `current >= max` on possibly-NaN values (`NaN` compares false). -/
def optGE (a b : Option ℚ) : Bool :=
  match a, b with
  | some x, some y => x ≥ y
  | _, _ => false

/-- `!isNaN(max) && rounded > max`. -/
def gtMax (rounded : ℚ) (m : Option ℚ) : Bool :=
  match m with
  | some mv => rounded > mv
  | none => false

/-- Mutable state threaded through the first pass of `applyProgression`:
the variable map, the set of wrapped (overflowed) parameter keys, and
the reps-wrapped flag. -/
structure Pass1State where
  varMap : List (List Char × ℚ)
  overflowedParams : List (List Char)
  repsWrapped : Bool
deriving Repr

/-- `Set.add` (only emptiness of the set is ever observed). -/
def addKey (s : List (List Char)) (k : List Char) : List (List Char) :=
  if s.contains k then s else s ++ [k]

/-- One step of the first pass of `applyProgression`: progress a
non-weight parameter that has both a formula and a max, wrapping to the
initial value when the rounded result exceeds max while the current
value is already at or beyond max, capping at max otherwise. -/
def pass1Step (st : Pass1State) (param : ExerciseParam) :
    ExerciseParam × Pass1State :=
  if !strTruthy param.progressionFormula then (param, st)
  else if !strTruthy param.maxValue then (param, st)
  else
    let currentVal := parseFloatQ param.value
    let maxVal := parseFloatQ (param.maxValue.getD [])
    if lowerStr param.key = kwWeight then (param, st)
    else
      match evaluateProgressionFormula (param.progressionFormula.getD [])
          st.varMap with
      | .error _ => (param, st)
      | .ok newValue =>
        let roundedValue := roundHundredths newValue
        if gtMax roundedValue maxVal then
          if optGE currentVal maxVal then
            let overflowed' := addKey st.overflowedParams param.key
            let resetValue := jsOr param.initialValue param.value
            let repsWrapped' :=
              st.repsWrapped || (lowerStr param.key = kwReps)
            let variables' :=
              match parseFloatQ resetValue with
              | some v => setVar st.varMap (varNameOf param.key) v
              | none => st.varMap
            ({ param with value := resetValue },
             ⟨variables', overflowed', repsWrapped'⟩)
          else
            let m := maxVal.getD 0
            ({ param with value := qToString m },
             ⟨setVar st.varMap (varNameOf param.key) m,
              st.overflowedParams, st.repsWrapped⟩)
        else
          ({ param with value := qToString roundedValue },
           ⟨setVar st.varMap (varNameOf param.key) roundedValue,
            st.overflowedParams, st.repsWrapped⟩)

/-- The first pass (`params.map` with the closure state threaded left to
right). -/
def pass1Go (st : Pass1State) : List ExerciseParam →
    List ExerciseParam × Pass1State
  | [] => ([], st)
  | p :: rest =>
    let r := pass1Step st p
    let rr := pass1Go r.2 rest
    (r.1 :: rr.1, rr.2)

/-- One step of the second pass: progress the weight-keyed parameter and
parameters without a max, using the pass-1-updated variables; weight
with a max is capped or wrapped by the same rule as pass 1. The boolean
is the `weightWrapped` flag. -/
def pass2Step (vars : List (List Char × ℚ)) (wW : Bool)
    (param : ExerciseParam) : ExerciseParam × Bool :=
  if strTruthy param.maxValue && lowerStr param.key ≠ kwWeight then (param, wW)
  else if !strTruthy param.progressionFormula then (param, wW)
  else
    match evaluateProgressionFormula (param.progressionFormula.getD []) vars with
    | .error _ => (param, wW)
    | .ok newValue =>
      let roundedValue := roundHundredths newValue
      if lowerStr param.key = kwWeight && strTruthy param.maxValue then
        let currentVal := parseFloatQ param.value
        let maxVal := parseFloatQ (param.maxValue.getD [])
        if gtMax roundedValue maxVal then
          if optGE currentVal maxVal then
            ({ param with value := jsOr param.initialValue param.value }, true)
          else
            ({ param with value := qToString (maxVal.getD 0) }, wW)
        else
          ({ param with value := qToString roundedValue }, wW)
      else
        ({ param with value := qToString roundedValue }, wW)

/-- The second pass over the pass-1 output. -/
def pass2Go (vars : List (List Char × ℚ)) (wW : Bool) :
    List ExerciseParam → List ExerciseParam × Bool
  | [] => ([], wW)
  | p :: rest =>
    let r := pass2Step vars wW p
    let rr := pass2Go vars r.2 rest
    (r.1 :: rr.1, rr.2)

/-- `applyProgression` from `src/progression.ts`: build the variable
map, run pass 1 over bounded non-weight parameters, run pass 2 (weight
and unbounded parameters) only when some pass-1 parameter wrapped, and
request a new set exactly when reps wrapped and weight wrapped or no
weight parameter exists. -/
def applyProgression (params : List ExerciseParam) : ProgressionResult :=
  let vars0 := buildVariables params
  let r1 := pass1Go ⟨vars0, [], false⟩ params
  let firstPassParams := r1.1
  let st := r1.2
  let hasWeightParam := params.any (fun p => lowerStr p.key = kwWeight)
  if !st.overflowedParams.isEmpty then
    let r2 := pass2Go st.varMap false firstPassParams
    { params := r2.1
      shouldAddSet := st.repsWrapped && (r2.2 || !hasWeightParam) }
  else
    { params := firstPassParams
      shouldAddSet := st.repsWrapped && (false || !hasWeightParam) }

/-! ### Exercise line parser and serializer -/

/-- Exercise states (checkbox-driven). -/
inductive ExerciseState
  | pending
  | inProgress
  | completed
  | skipped
deriving DecidableEq, Repr

/-- `STATE_MAP[stateChar] ?? 'pending'`. -/
def stateOfChar (c : Char) : ExerciseState :=
  if c = ' ' then .pending
  else if c = '\\' then .inProgress
  else if c = 'x' then .completed
  else if c = '-' then .skipped
  else .pending

/-- `STATE_CHAR_MAP`. -/
def getStateChar : ExerciseState → Char
  | .pending => ' '
  | .inProgress => '\\'
  | .completed => 'x'
  | .skipped => '-'

/-- One parsed exercise line (`Exercise` in `src/types.ts`). -/
structure Exercise where
  state : ExerciseState
  name : List Char
  params : List ExerciseParam
  targetDuration : Option Nat := none
  recordedDuration : Option (List Char) := none
  restAfter : Option Nat := none
  lineIndex : Nat := 0
deriving DecidableEq, Repr

/-- `parseParam` from `src/parser/exercise.ts`: split at the first colon;
a bracketed value (editable, regex `^\[([^\]]*)\](.*)$`) takes the
bracket content through the progression codec with the trimmed tail as
unit; otherwise the first whitespace-separated word goes through the
codec and the remaining words joined by single spaces form the unit. -/
def parseParam (paramStr : List Char) : Option ExerciseParam :=
  match splitFirst ':' paramStr with
  | none => none
  | some (before, after) =>
    let key := jsTrim before
    let rest := jsTrim after
    let bracket : Option (List Char × List Char) :=
      match rest with
      | '[' :: r =>
        match splitFirst ']' r with
        | some (content, afterBr) =>
          if noLT afterBr then some (content, afterBr) else none
        | none => none
      | _ => none
    match bracket with
    | some (content, afterBr) =>
      let pv := parseProgressionValue content
      some { key := key, value := pv.value, editable := true
             unit := jsOrU (jsTrim afterBr)
             progressionFormula := pv.progressionFormula
             initialValue := pv.initialValue, maxValue := pv.maxValue }
    | none =>
      let parts := jsSplitWs rest
      let firstPart := parts.headD []
      let pv := parseProgressionValue firstPart
      some { key := key, value := pv.value, editable := false
             unit := jsOrU (joinSpace parts.tail)
             progressionFormula := pv.progressionFormula
             initialValue := pv.initialValue, maxValue := pv.maxValue }

/-- Accumulator of the parameter loop in `parseExercise`. -/
structure ExAcc where
  params : List ExerciseParam := []
  targetDuration : Option Nat := none
  recordedDuration : Option (List Char) := none
  restAfter : Option Nat := none
deriving DecidableEq, Repr

/-- One iteration of the parameter loop in `parseExercise`: `Rest:`
segments (editable, nonempty) set `restAfter` and are not stored;
`Duration:` segments set `targetDuration` (editable) or
`recordedDuration` (locked); everything else is appended to `params`. -/
def exFoldStep (acc : ExAcc) (paramStr : List Char) : ExAcc :=
  match parseParam paramStr with
  | none => acc
  | some param =>
    if lowerStr param.key = kwRest then
      if param.editable && !param.value.isEmpty then
        { acc with restAfter := some (parseDurationToSeconds param.value) }
      else acc
    else
      let acc1 := { acc with params := acc.params ++ [param] }
      if lowerStr param.key = kwDuration then
        if param.editable then
          { acc1 with targetDuration := some (parseDurationToSeconds param.value) }
        else
          let rd := param.value ++
            (if strTruthy param.unit then ' ' :: param.unit.getD [] else [])
          { acc1 with recordedDuration := some rd }
      else acc1

/-- The `\s*(.+)$` tail of `EXERCISE_PATTERN`, with the regex backtracking
semantics: drop leading whitespace; the remainder must be nonempty and
line-terminator-free; when everything is whitespace, backtracking leaves
the last character as the match (if it is not a line terminator). -/
def matchLineRest (r : List Char) : Option (List Char) :=
  let t := r.dropWhile jsIsWs
  if !t.isEmpty then
    if noLT t then some t else none
  else
    match r.reverse.head? with
    | some c => if isLineTerm c then none else some [c]
    | none => none

/-- The `EXERCISE_PATTERN` regex `^-\s*\[(.)\]\s*(.+)$`: returns the
state character and the rest of the line. -/
def lineMatch (line : List Char) : Option (Char × List Char) :=
  match line with
  | '-' :: r1 =>
    match r1.dropWhile jsIsWs with
    | '[' :: c :: ']' :: r3 =>
      if isLineTerm c then none
      else
        match matchLineRest r3 with
        | none => none
        | some rest => some (c, rest)
    | _ => none
  | _ => none

/-- `parseExercise` from `src/parser/exercise.ts`: match
`EXERCISE_PATTERN`, split the rest on `|` (trimming each part), take the
first part as the name and run the parameter loop on the others. -/
def parseExercise (line : List Char) (lineIndex : Nat) : Option Exercise :=
  match lineMatch line with
  | none => none
  | some (c, rest) =>
    let parts := (splitOnChar '|' rest).map jsTrim
    let name := parts.headD []
    let acc := (parts.tail).foldl exFoldStep {}
    some { state := stateOfChar c, name := name, params := acc.params
           targetDuration := acc.targetDuration
           recordedDuration := acc.recordedDuration
           restAfter := acc.restAfter, lineIndex := lineIndex }

/-- One step of the rest-duration scan the amended C9 compares against. -/
def restStep (acc : Option Nat) (s : List Char) : Option Nat :=
  match parseParam s with
  | some param =>
    if lowerStr param.key = kwRest && param.editable && !param.value.isEmpty
    then some (parseDurationToSeconds param.value)
    else acc
  | none => acc

/-- The rest-duration scan the amended C9 compares against: the parsed
seconds of the last `Rest:` segment that is editable with a nonempty
value, `none` when there is no such segment. -/
def restScan (segs : List (List Char)) : Option Nat :=
  segs.foldl restStep none

/-- One ` | Key: value unit` segment of `serializeExercise` (without the
leading ` | `). -/
def serializeParamSeg (param : ExerciseParam) : List Char :=
  let fv := formatProgressionValue param.value param.progressionFormula
    param.initialValue param.maxValue
  param.key ++ ':' :: ' ' ::
    (if param.editable then '[' :: fv ++ [']'] else fv) ++
    (if strTruthy param.unit then ' ' :: param.unit.getD [] else [])

/-- `serializeExercise` from `src/parser/exercise.ts`. -/
def serializeExercise (exercise : Exercise) : List Char :=
  '-' :: ' ' :: '[' :: getStateChar exercise.state :: ']' :: ' ' ::
  exercise.name ++
  (exercise.params.map (fun p => ' ' :: '|' :: ' ' :: serializeParamSeg p)).flatten ++
  (match exercise.restAfter with
   | some n =>
     ' ' :: '|' :: ' ' :: ("Rest: [".toList) ++ natToDecimal n ++ ("s]".toList)
   | none => [])

/-! ### Workout reset (progression application on completion) -/

/-- Workout metadata (the fields `resetWorkout` touches). -/
structure WorkoutMetadata where
  title : List Char := []
  state : List Char := []
  startDate : Option (List Char) := none
  duration : Option (List Char) := none
  restDuration : Option Nat := none
deriving DecidableEq, Repr

/-- A parsed workout code block. -/
structure ParsedWorkout where
  metadata : WorkoutMetadata
  exercises : List Exercise
deriving DecidableEq, Repr

/-- JS truthiness of an optional number (`undefined` and `0` are falsy). -/
def natOptTruthy : Option Nat → Bool
  | none => false
  | some n => n ≠ 0

/-- `removeRecordedDurations`: drop locked Duration parameters of
exercises without a (truthy) target duration. -/
def removeRecordedDurations (exercise : Exercise) : List ExerciseParam :=
  exercise.params.filter (fun param =>
    !(lowerStr param.key = kwDuration && !param.editable &&
      !natOptTruthy exercise.targetDuration))

/-- `Map.set`: overwrite in place or append. -/
def mapSet (m : List (List Char × Nat)) (k : List Char) (v : Nat) :
    List (List Char × Nat) :=
  if m.any (fun p => p.1 == k) then
    m.map (fun p => if p.1 == k then (k, v) else p)
  else m ++ [(k, v)]

/-- The per-exercise parameter reset applied by `resetWorkout` after
progression: unlock every parameter and make Duration editable again
when the exercise has a target duration. -/
def resetExerciseParams (ps : List ExerciseParam) (ex : Exercise) :
    List ExerciseParam :=
  ps.map (fun param =>
    { param with
      locked := some false
      editable := param.editable ||
        (lowerStr param.key = kwDuration && ex.targetDuration ≠ none) })

/-- The exercise map of `resetWorkout`: apply progression (unless the
exercise name had a skipped set), reset state and recorded duration,
and record the last index of every exercise name whose progression
requested a new set. -/
def resetPhase1Go (skipped : List (List Char)) :
    Nat → List Exercise → List (List Char × Nat) →
    List Exercise × List (List Char × Nat)
  | _, [], adds => ([], adds)
  | i, ex :: rest, adds =>
    let filteredParams := removeRecordedDurations ex
    let result :=
      if skipped.contains ex.name then
        ProgressionResult.mk filteredParams false
      else applyProgression filteredParams
    let resetEx :=
      { ex with state := ExerciseState.pending, recordedDuration := none
                params := resetExerciseParams result.params ex }
    let adds' := if result.shouldAddSet then mapSet adds ex.name i else adds
    let r := resetPhase1Go skipped (i + 1) rest adds'
    (resetEx :: r.1, r.2)

/-- `resetParamForNewSet`: when a new set is added, reps resets to its
initial value, weight wraps to its initial value or is capped at max. -/
def resetParamForNewSet (param : ExerciseParam) : ExerciseParam :=
  let key := lowerStr param.key
  if key = kwReps && param.initialValue ≠ none && param.maxValue ≠ none then
    { param with value := param.initialValue.getD [] }
  else if key = kwWeight then
    if param.initialValue ≠ none && param.initialValue ≠ some [] then
      { param with value := param.initialValue.getD [] }
    else if param.maxValue ≠ none then
      match parseFloatQ param.value, parseFloatQ (param.maxValue.getD []) with
      | some c, some m => if c > m then { param with value := qToString m } else param
      | _, _ => param
    else param
  else param

/-- Stable insertion (descending by index) for the sort in
`addNewSetsAndReset`. -/
def insDesc (x : List Char × Nat) : List (List Char × Nat) →
    List (List Char × Nat)
  | [] => [x]
  | y :: ys => if y.2 ≥ x.2 then y :: insDesc x ys else x :: y :: ys

/-- `entries().sort((a, b) => b[1] - a[1])` (a stable descending sort). -/
def sortDescBySnd (l : List (List Char × Nat)) : List (List Char × Nat) :=
  l.foldl (fun acc x => insDesc x acc) []

/-- One splice of `addNewSetsAndReset`: duplicate the exercise at
`lastIndex` right after itself (as a fresh pending set) and shift the
line indices of everything after it. -/
def addOneSet (exs : List Exercise) (entry : List Char × Nat) :
    List Exercise :=
  let lastIndex := entry.2
  match exs[lastIndex]? with
  | none => exs
  | some exercise =>
    let newExercise :=
      { exercise with state := ExerciseState.pending
                      recordedDuration := none
                      lineIndex := exercise.lineIndex + 1 }
    let exs' := exs.insertIdx (lastIndex + 1) newExercise
    exs'.mapIdx (fun i e =>
      if lastIndex + 2 ≤ i then { e with lineIndex := e.lineIndex + 1 } else e)

/-- `addNewSetsAndReset`: add one new set per recorded exercise name
(processing larger indices first) and reset reps/weight on every set of
those names. -/
def addNewSetsAndReset (w : ParsedWorkout)
    (setAdditionMap : List (List Char × Nat)) : ParsedWorkout :=
  let sortedEntries := sortDescBySnd setAdditionMap
  let exs := sortedEntries.foldl addOneSet w.exercises
  let names := setAdditionMap.map (fun p => p.1)
  { w with exercises :=
      exs.map (fun ex =>
        if names.contains ex.name then
          { ex with params := ex.params.map resetParamForNewSet }
        else ex) }

/-- `resetWorkout` from the plugin main file: return the metadata to
`planned`, collect the names of skipped exercises, run the per-exercise
reset/progression map, and add new sets where requested. -/
def resetWorkout (workout : ParsedWorkout) : ParsedWorkout :=
  let metadata :=
    { workout.metadata with state := ("planned".toList)
                            startDate := none, duration := none }
  let skippedExercises :=
    (workout.exercises.filter
      (fun e => e.state == ExerciseState.skipped)).map (fun e => e.name)
  let r := resetPhase1Go skippedExercises 0 workout.exercises []
  let w1 : ParsedWorkout := { metadata := metadata, exercises := r.1 }
  if !r.2.isEmpty then addNewSetsAndReset w1 r.2 else w1

/-! ### Grammar predicates for the progression-value round trip -/

/-- Parenthesis weight of one character. -/
def pdelta (c : Char) : ℤ :=
  if c = '(' then 1 else if c = ')' then -1 else 0

/-- Parenthesis balance of a string. -/
def parenBal (l : List Char) : ℤ := (l.map pdelta).sum

/-- Depth scan: every running depth stays nonnegative and the final
depth is zero. -/
def balGo : List Char → ℤ → Bool
  | [], d => decide (d = 0)
  | c :: r, d =>
    let d' := d + pdelta c
    decide (0 ≤ d') && balGo r d'

/-- The string has depth-matched parentheses. -/
def balancedBool (l : List Char) : Bool := balGo l 0

/-- Render a progression value from its grammar parts: an optional
parenthesized formula, an optional `{initial,max}` bounds block (raw
sides), then the value. -/
def renderRaw (f : Option (List Char)) (b : Option (List Char × List Char))
    (v : List Char) : List Char :=
  (match f with
   | some x => '(' :: x ++ [')']
   | none => []) ++
  (match b with
   | some im => '{' :: im.1 ++ ',' :: im.2 ++ ['}']
   | none => []) ++ v

/-- Well-formed formula: nonempty, trim-invariant, depth-matched. -/
def wfFormula (f : List Char) : Bool :=
  !f.isEmpty && (jsTrim f == f) && balancedBool f

/-- Well-formed raw bounds block: the initial side has no comma, the max
side no closing brace, both are trim-invariant, and they are not both
empty (the codec result of an all-empty block drops the block). -/
def wfBounds (i m : List Char) : Bool :=
  !(i.contains ',') && (jsTrim i == i) &&
  !(m.contains '}') && (jsTrim m == m) && !(i.isEmpty && m.isEmpty)

/-- Well-formed value part, knowing whether a bounds block (`bp`) or a
formula (`fp`) precedes it: nonempty, trim-invariant, free of line
terminators, and not starting a fake bounds or formula block. -/
def wfValue (bp fp : Bool) (v : List Char) : Bool :=
  !v.isEmpty && (jsTrim v == v) && noLT v &&
  (bp || !(v.head? == some '{')) &&
  (bp || fp || !(v.head? == some '('))

/-- Well-formed grammar parts for the render direction. -/
def wfRender (f : Option (List Char)) (b : Option (List Char × List Char))
    (v : List Char) : Bool :=
  (match f with
   | some x => wfFormula x
   | none => true) &&
  (match b with
   | some im => wfBounds im.1 im.2
   | none => true) &&
  wfValue b.isSome f.isSome v

/-- Well-formed codec-result fields for the parse-after-format
direction. -/
def wfParts (v : List Char) (f i m : Option (List Char)) : Bool :=
  (match f with
   | some x => wfFormula x
   | none => true) &&
  (match i with
   | some x => !x.isEmpty && (jsTrim x == x) && !(x.contains ',')
   | none => true) &&
  (match m with
   | some x => !x.isEmpty && (jsTrim x == x) && !(x.contains '}')
   | none => true) &&
  wfValue (i.isSome || m.isSome) f.isSome v

/-! ### Auxiliary notions for the line round trip -/

/-- The serialized progression value of a parameter. -/
def fvOf (p : ExerciseParam) : List Char :=
  formatProgressionValue p.value p.progressionFormula p.initialValue
    p.maxValue

/-- All characters of the four codec fields of a parameter. -/
def fieldChars (p : ExerciseParam) : List Char :=
  p.value ++ p.progressionFormula.getD [] ++ p.initialValue.getD [] ++
    p.maxValue.getD []

/-- Structural invariants `parseParam` guarantees about its output on a
trimmed, pipe-free, line-terminator-free segment. -/
structure ParamInv (p : ExerciseParam) : Prop where
  key_trim : jsTrim p.key = p.key
  key_colon : ':' ∉ p.key
  key_pipe : '|' ∉ p.key
  key_lt : noLT p.key = true
  locked_none : p.locked = none
  unit_ok : ∀ u, p.unit = some u →
    u.isEmpty = false ∧ jsTrim u = u ∧ noLT u = true ∧ '|' ∉ u
  fields_pipe : '|' ∉ fieldChars p
  fields_lt : noLT (fieldChars p) = true
  ed_nobr : p.editable = true → ']' ∉ fieldChars p
  ned_ws : p.editable = false → ∀ c ∈ fieldChars p, jsIsWs c = false
  ned_unit : p.editable = false → ∀ u, p.unit = some u →
    (jsSplitWs u).all (fun w => !w.isEmpty) = true ∧
      joinSpace (jsSplitWs u) = u
  ned_empty : p.editable = false → p.value = [] →
    p.progressionFormula = none → p.unit = none

/-- All characters of the four fields of a codec result. -/
def pvChars (pv : PVParts) : List Char :=
  pv.value ++ pv.progressionFormula.getD [] ++ pv.initialValue.getD [] ++
    pv.maxValue.getD []

/-- The parameter `parseParam` builds in its word (non-bracketed)
branch. -/
def wordsParam (before after : List Char) : ExerciseParam :=
  let parts := jsSplitWs (jsTrim after)
  let firstPart := parts.headD []
  let pv := parseProgressionValue firstPart
  { key := jsTrim before, value := pv.value, editable := false
    unit := jsOrU (joinSpace parts.tail)
    progressionFormula := pv.progressionFormula
    initialValue := pv.initialValue, maxValue := pv.maxValue }

/-- The parameter `parseParam` builds in its bracketed branch. -/
def bracketParam (before content afterBr : List Char) : ExerciseParam :=
  let pv := parseProgressionValue content
  { key := jsTrim before, value := pv.value, editable := true
    unit := jsOrU (jsTrim afterBr)
    progressionFormula := pv.progressionFormula
    initialValue := pv.initialValue, maxValue := pv.maxValue }

/-- The parameter a segment contributes to the stored list (`Rest:`
segments and unparsable segments contribute nothing). -/
def storedOf (seg : List Char) : Option ExerciseParam :=
  match parseParam seg with
  | some p => if lowerStr p.key = kwRest then none else some p
  | none => none

/-- The stored parameters of a segment list, in order. -/
def storedParams (segs : List (List Char)) : List ExerciseParam :=
  segs.filterMap storedOf

/-- The effect of one stored parameter on the duration fields of the
parameter-loop accumulator. -/
def durStep (t : Option Nat × Option (List Char)) (p : ExerciseParam) :
    Option Nat × Option (List Char) :=
  if lowerStr p.key = kwDuration then
    if p.editable then (some (parseDurationToSeconds p.value), t.2)
    else (t.1, some (p.value ++
      (if strTruthy p.unit then ' ' :: p.unit.getD [] else [])))
  else t

/-- The fields produced by splitting a name-prefixed run of
pipe-separated segments. -/
def pipeSplit : List Char → List (List Char) → List (List Char)
  | pre, [] => [pre]
  | pre, b :: bs => (pre ++ [' ']) :: pipeSplit (' ' :: b) bs

/-- Invariants `parseExercise` guarantees about its output. -/
structure ExInv (e : Exercise) : Prop where
  name_trim : jsTrim e.name = e.name
  name_pipe : '|' ∉ e.name
  name_lt : noLT e.name = true
  params_inv : ∀ p ∈ e.params, ParamInv p
  params_notrest : ∀ p ∈ e.params, lowerStr p.key ≠ kwRest
  dur_eq : (e.targetDuration, e.recordedDuration) =
    e.params.foldl durStep (none, none)

/-- The `Rest` segment body `serializeExercise` emits. -/
def restBody (n : Nat) : List Char :=
  ("Rest: [".toList) ++ natToDecimal n ++ ("s]".toList)

/-- The parameter the emitted `Rest` segment parses to. -/
def restBodyParam (n : Nat) : ExerciseParam :=
  { key := ("Rest".toList), value := natToDecimal n ++ ['s']
    editable := true, unit := none }

/-- The pipe-segment bodies `serializeExercise` renders after the name. -/
def serBodies (e : Exercise) : List (List Char) :=
  e.params.map serializeParamSeg ++
    (match e.restAfter with
     | some n => [restBody n]
     | none => [])

/-! ### Concrete parameter fixtures used by the scenario claims -/

/-- The exercise parsed from the C6 witness line
`- [x] Squat | Reps: [(r+1){8,12}8] kg | Rest: [90s]` at index 3. -/
def ex6 : Exercise :=
  { state := ExerciseState.completed
    name := "Squat".toList
    params := [{ key := "Reps".toList
                 value := ['8']
                 editable := true
                 unit := some ("kg".toList)
                 progressionFormula := some ("r+1".toList)
                 initialValue := some ['8']
                 maxValue := some ("12".toList)
                 locked := none }]
    restAfter := some 90
    lineIndex := 3 }

/-- `Reps: [(r+1){8,12}v]`. -/
def repsParam (v : List Char) : ExerciseParam :=
  { key := ("Reps".toList), value := v, editable := true
    progressionFormula := some ("r+1".toList)
    initialValue := some ("8".toList), maxValue := some ("12".toList) }

/-- `Weight: [(w+2.5){60,80}v]`. -/
def weightParam (v : List Char) : ExerciseParam :=
  { key := ("Weight".toList), value := v, editable := true
    progressionFormula := some ("w+2.5".toList)
    initialValue := some ("60".toList), maxValue := some ("80".toList) }

/-- `Reps: (r+1){,12}15` — a bounded parameter beyond its max with no
initial value. -/
def bareReps15 : ExerciseParam :=
  { key := ("Reps".toList), value := ("15".toList), editable := true
    progressionFormula := some ("r+1".toList)
    maxValue := some ("12".toList) }

/-- A workout with a skipped and a completed `Squat` set, both at max
reps (used by the C8 witness). -/
def squatWorkout : ParsedWorkout :=
  { metadata := {}
    exercises :=
      [{ state := ExerciseState.skipped, name := ("Squat".toList)
         params := [repsParam ("12".toList)] },
       { state := ExerciseState.completed, name := ("Squat".toList)
         params := [repsParam ("12".toList)] }] }

/-- Observer: the (key, value) pairs of an exercise's parameters. -/
def paramKVs (e : Exercise) : List (List Char × List Char) :=
  e.params.map (fun p => (p.key, p.value))

/-! ## Theorems -/

/-- **C1.** For the input `[Reps (r+1){8,12} at 12, Weight (w+2.5){60,80}
at 80]`, `applyProgression` wraps reps to `8`, wraps weight to `60`, and
requests a new set. -/
theorem applyProgression_full_double_wrap :
    applyProgression [repsParam ("12".toList), weightParam ("80".toList)] =
      { params := [repsParam ("8".toList), weightParam ("60".toList)]
        shouldAddSet := true } := by
  decide

/-- **C2.** For the input `[Reps (r+1){8,12} at 12, Weight (w+2.5){60,80}
at 70]`, `applyProgression` wraps reps to `8`, progresses weight to
`72.5` (not wrapped), and does not request a new set. -/
theorem applyProgression_reps_wrap_weight_progress :
    applyProgression [repsParam ("12".toList), weightParam ("70".toList)] =
      { params := [repsParam ("8".toList), weightParam ("72.5".toList)]
        shouldAddSet := false } := by
  decide

/-- Pass 1 leaves a parameter untouched when it is weight-keyed or has no
(truthy) max value (such parameters belong to pass 2). -/
theorem pass1Step_skips_pass2_params (st : Pass1State) (p : ExerciseParam)
    (hp : lowerStr p.key = kwWeight ∨ strTruthy p.maxValue = false) :
    (pass1Step st p).1 = p := by
  unfold pass1Step
  rcases hp with hw | hm
  · cases hf : strTruthy p.progressionFormula
    · simp [hf]
    · cases hm : strTruthy p.maxValue
      · simp [hf, hm]
      · simp [hf, hm, hw]
  · cases hf : strTruthy p.progressionFormula
    · simp [hf]
    · simp [hf, hm]

/-- Indexwise: pass 1 preserves every pass-2 parameter. -/
theorem pass1Go_getElem_skips_pass2 (ps : List ExerciseParam) :
    ∀ (st : Pass1State) (i : Nat),
      (∀ p, ps[i]? = some p →
        lowerStr p.key = kwWeight ∨ strTruthy p.maxValue = false) →
      ((pass1Go st ps).1)[i]? = ps[i]? := by
  induction ps with
  | nil => intro st i _; rfl
  | cons p rest ih =>
    intro st i hp
    cases i with
    | zero =>
      simp only [pass1Go, List.getElem?_cons_zero]
      exact congrArg some (pass1Step_skips_pass2_params st p
        (hp p (by simp)))
    | succ n =>
      simp only [pass1Go, List.getElem?_cons_succ]
      exact ih (pass1Step st p).2 n (fun q hq => hp q (by simpa using hq))

/-- **C3.** When no pass-1 parameter wraps (the overflowed set stays
empty), `applyProgression` returns every pass-2 parameter — the
weight-keyed one and every parameter without a max value — exactly as it
was passed in. -/
theorem applyProgression_no_wrap_frames_pass2 (ps : List ExerciseParam)
    (h : (pass1Go ⟨buildVariables ps, [], false⟩ ps).2.overflowedParams = [])
    (i : Nat)
    (hp : ∀ p, ps[i]? = some p →
      lowerStr p.key = kwWeight ∨ strTruthy p.maxValue = false) :
    (applyProgression ps).params[i]? = ps[i]? := by
  unfold applyProgression
  simp only [h, List.isEmpty_nil, Bool.not_true, Bool.false_eq_true,
    if_false]
  exact pass1Go_getElem_skips_pass2 ps _ i hp

/-- Witness for C3: with `Reps` progressing from 10 (no wrap) the
`Weight` parameter is returned untouched. -/
theorem applyProgression_no_wrap_frames_pass2_witness :
    (applyProgression [repsParam ("10".toList), weightParam ("70".toList)]).params[1]? =
      some (weightParam ("70".toList)) :=
  applyProgression_no_wrap_frames_pass2
    [repsParam ("10".toList), weightParam ("70".toList)]
    (by decide) 1 (by decide)

/-- A pass-1 step can set `repsWrapped` only starting from an already-set
flag or by wrapping a reps-keyed parameter that has a truthy formula and
max and whose current value is at or beyond its max. -/
theorem pass1Step_repsWrapped_cases (st : Pass1State) (p : ExerciseParam)
    (h : (pass1Step st p).2.repsWrapped = true) :
    st.repsWrapped = true ∨
      (lowerStr p.key = kwReps ∧ strTruthy p.progressionFormula = true ∧
        strTruthy p.maxValue = true ∧
        optGE (parseFloatQ p.value) (parseFloatQ (p.maxValue.getD [])) = true) := by
  unfold pass1Step at h
  cases hf : strTruthy p.progressionFormula
  · simp [hf] at h; exact Or.inl h
  · cases hm : strTruthy p.maxValue
    · simp [hf, hm] at h; exact Or.inl h
    · cases hw : decide (lowerStr p.key = kwWeight)
      · simp only [hf, hm, Bool.not_true, Bool.false_eq_true, if_false,
          decide_eq_false_iff_not] at h hw
        simp only [if_neg hw] at h
        cases hev : evaluateProgressionFormula (p.progressionFormula.getD [])
            st.varMap with
        | error e => rw [hev] at h; exact Or.inl h
        | ok v =>
          rw [hev] at h
          simp only at h
          cases hgt : gtMax (roundHundredths v) (parseFloatQ (p.maxValue.getD []))
          · rw [if_neg (by simp [hgt])] at h
            exact Or.inl h
          · rw [if_pos hgt] at h
            cases hge : optGE (parseFloatQ p.value) (parseFloatQ (p.maxValue.getD []))
            · rw [if_neg (by simp [hge])] at h
              exact Or.inl h
            · rw [if_pos hge] at h
              simp only [Bool.or_eq_true, decide_eq_true_eq] at h
              rcases h with h | h
              · exact Or.inl h
              · exact Or.inr ⟨h, rfl, rfl, rfl⟩
      · simp only [decide_eq_true_eq] at hw
        simp [hf, hm, hw] at h
        exact Or.inl h

/-- Lifting `pass1Step_repsWrapped_cases` through the pass-1 fold. -/
theorem pass1Go_repsWrapped_cases (ps : List ExerciseParam) :
    ∀ st : Pass1State, (pass1Go st ps).2.repsWrapped = true →
      st.repsWrapped = true ∨
        ∃ p ∈ ps, lowerStr p.key = kwReps ∧
          strTruthy p.progressionFormula = true ∧
          strTruthy p.maxValue = true ∧
          optGE (parseFloatQ p.value) (parseFloatQ (p.maxValue.getD [])) = true := by
  induction ps with
  | nil => intro st h; exact Or.inl h
  | cons p rest ih =>
    intro st h
    simp only [pass1Go] at h
    rcases ih (pass1Step st p).2 h with h2 | h2
    · rcases pass1Step_repsWrapped_cases st p h2 with h3 | h3
      · exact Or.inl h3
      · exact Or.inr ⟨p, List.mem_cons_self p rest, h3⟩
    · rcases h2 with ⟨q, hq, hprop⟩
      exact Or.inr ⟨q, List.mem_cons_of_mem p hq, hprop⟩

/-- **C10.** `applyProgression` requests a new set only when the input
contains a parameter whose key lowercases to `"reps"` that wrapped in
pass 1 (truthy formula and max, current value at or beyond max); a
bounded parameter under any other key can never trigger set addition. -/
theorem shouldAddSet_requires_reps_wrap (ps : List ExerciseParam)
    (h : (applyProgression ps).shouldAddSet = true) :
    ∃ p ∈ ps, lowerStr p.key = kwReps ∧
      strTruthy p.progressionFormula = true ∧
      strTruthy p.maxValue = true ∧
      optGE (parseFloatQ p.value) (parseFloatQ (p.maxValue.getD [])) = true := by
  unfold applyProgression at h
  have hr : (pass1Go ⟨buildVariables ps, [], false⟩ ps).2.repsWrapped = true := by
    by_cases hov :
        (pass1Go ⟨buildVariables ps, [], false⟩ ps).2.overflowedParams.isEmpty
    · simp only [hov, Bool.not_true, Bool.false_eq_true, if_false] at h
      exact (Bool.and_eq_true_iff.mp h).1
    · simp only [Bool.not_eq_true] at hov
      simp only [hov, Bool.not_false, if_true] at h
      exact (Bool.and_eq_true_iff.mp h).1
  rcases pass1Go_repsWrapped_cases ps ⟨buildVariables ps, [], false⟩ hr with h2 | h2
  · exact absurd h2 (by simp)
  · exact h2

/-- Witness for C10: the full-double-wrap scenario has a wrapping reps
parameter. -/
theorem shouldAddSet_requires_reps_wrap_witness :
    ∃ p ∈ [repsParam ("12".toList), weightParam ("80".toList)],
      lowerStr p.key = kwReps ∧
      strTruthy p.progressionFormula = true ∧
      strTruthy p.maxValue = true ∧
      optGE (parseFloatQ p.value) (parseFloatQ (p.maxValue.getD [])) = true :=
  shouldAddSet_requires_reps_wrap
    [repsParam ("12".toList), weightParam ("80".toList)] (by decide)

/-- **C4 counterexample.** A bounded reps parameter with no initial value
and current value 15 beyond its max 12 wraps (it alone triggers set
addition), yet its new value is `"15"` — the old current value — not the
max value `"12"` that the claim's clamp-to-max reading predicts. -/
theorem wrap_without_initial_clamp_counterexample :
    (applyProgression [bareReps15]).shouldAddSet = true ∧
    (applyProgression [bareReps15]).params.map (fun p => p.value) =
      [("15".toList)] ∧
    ("15".toList) ≠ ("12".toList) := by
  decide

/-- **C4 (amended).** When a parameter with a truthy max and a falsy
(absent or empty) initial value wraps — in pass 1 for a non-weight key,
or in pass 2 for the weight key — its value is left unchanged at the
current value (which is at or beyond max), not reset and not set to the
max value. -/
theorem wrap_without_initial_keeps_current_value :
    (∀ (st : Pass1State) (p : ExerciseParam) (v : ℚ),
      strTruthy p.initialValue = false →
      lowerStr p.key ≠ kwWeight →
      evaluateProgressionFormula (p.progressionFormula.getD []) st.varMap =
        .ok v →
      gtMax (roundHundredths v) (parseFloatQ (p.maxValue.getD [])) = true →
      optGE (parseFloatQ p.value) (parseFloatQ (p.maxValue.getD [])) = true →
      (pass1Step st p).1.value = p.value) ∧
    (∀ (vars : List (List Char × ℚ)) (wW : Bool) (p : ExerciseParam) (v : ℚ),
      strTruthy p.initialValue = false →
      strTruthy p.progressionFormula = true →
      lowerStr p.key = kwWeight →
      strTruthy p.maxValue = true →
      evaluateProgressionFormula (p.progressionFormula.getD []) vars = .ok v →
      gtMax (roundHundredths v) (parseFloatQ (p.maxValue.getD [])) = true →
      optGE (parseFloatQ p.value) (parseFloatQ (p.maxValue.getD [])) = true →
      (pass2Step vars wW p).1.value = p.value) := by
  constructor
  · intro st p v hinit hw hev hgt hge
    unfold pass1Step
    cases hf : strTruthy p.progressionFormula
    · simp [hf]
    · cases hm : strTruthy p.maxValue
      · simp [hf, hm]
      · simp only [hf, hm, Bool.not_true, Bool.false_eq_true, if_false]
        rw [if_neg hw, hev]
        simp only [hgt, if_true, hge, if_true]
        simp [jsOr, hinit]
  · intro vars wW p v hinit hf hw hm hev hgt hge
    unfold pass2Step
    rw [if_neg (by simp [hw]), if_neg (by simp [hf]), hev]
    simp only [hw, hm]
    rw [if_pos (by simp [hw, hm]), if_pos hgt, if_pos hge]
    simp [jsOr, hinit]

/-- Witness for the amended C4: the counterexample parameter satisfies
the pass-1 wrap hypotheses and keeps its value. -/
theorem wrap_without_initial_keeps_current_value_witness :
    (pass1Step ⟨[(['r'], 15)], [], false⟩ bareReps15).1.value =
      ("15".toList) :=
  wrap_without_initial_keeps_current_value.1
    ⟨[(['r'], 15)], [], false⟩ bareReps15 16
    (by decide) (by decide) (by rfl) (by decide) (by decide)

/-- Unfolding lemma: binding a success in `Except`. -/
theorem ebind_ok {α β : Type} (a : α) (f : α → Except EvalErr β) :
    (do let x ← Except.ok a; f x) = f a := rfl

/-- Unfolding lemma: binding a failure in `Except`. -/
theorem ebind_error {α β : Type} (e : EvalErr) (f : α → Except EvalErr β) :
    (do let x ← Except.error e; f x) = Except.error e := rfl

/-- Unfolding lemma: mapping over a success in `Except`. -/
theorem emap_ok {α β : Type} (a : α) (f : α → β) :
    Except.map f (Except.ok a : Except EvalErr α) = Except.ok (f a) := rfl

/-- Unfolding lemma: mapping over a failure in `Except`. -/
theorem emap_error {α β : Type} (e : EvalErr) (f : α → β) :
    Except.map f (Except.error e : Except EvalErr α) = Except.error e := rfl

/-- `jsPowQ` either succeeds or reports a non-finite result. -/
theorem jsPowQ_ok_or_nonFinite (a b : ℚ) :
    (∃ v, jsPowQ a b = .ok v) ∨ jsPowQ a b = .error .nonFinite := by
  unfold jsPowQ
  by_cases h1 : b.den = 1
  · by_cases h2 : 0 ≤ b.num
    · exact Or.inl ⟨_, by rw [if_pos h1, if_pos h2]⟩
    · by_cases h3 : a = 0
      · exact Or.inr (by rw [if_pos h1, if_neg h2, if_pos h3])
      · exact Or.inl ⟨_, by rw [if_pos h1, if_neg h2, if_neg h3]⟩
  · by_cases h4 : a < 0
    · exact Or.inr (by rw [if_neg h1, if_pos h4])
    · by_cases h3 : a = 0
      · by_cases h2 : 0 ≤ b.num
        · exact Or.inl ⟨0, by rw [if_neg h1, if_neg h4, if_pos h3, if_pos h2]⟩
        · exact Or.inr (by rw [if_neg h1, if_neg h4, if_pos h3, if_neg h2])
      · exact Or.inl ⟨_, by rw [if_neg h1, if_neg h4, if_neg h3]⟩

/-- Referencing an undefined identifier makes evaluation fail. -/
theorem evalExpr_error_of_undefined (x : List Char) :
    ∀ (e : FExpr) (env : List (List Char × ℚ)),
      x ∈ exprVars e → lookupVar env x = none →
      ∃ err, evalExpr e env = .error err := by
  intro e
  induction e with
  | num q => intro env hx _; simp [exprVars] at hx
  | var s =>
    intro env hx hl
    simp only [exprVars, List.mem_singleton] at hx
    subst hx
    exact ⟨.undefinedVariable, by simp [evalExpr, hl]⟩
  | neg e ih =>
    intro env hx hl
    obtain ⟨err, herr⟩ := ih env (by simpa [exprVars] using hx) hl
    exact ⟨err, by simp [evalExpr, herr, emap_error]⟩
  | add a b iha ihb =>
    intro env hx hl
    simp only [exprVars, List.mem_append] at hx
    rcases hx with hx | hx
    · obtain ⟨err, herr⟩ := iha env hx hl
      exact ⟨err, by simp only [evalExpr, herr, ebind_error]⟩
    · cases hea : evalExpr a env with
      | error err => exact ⟨err, by simp only [evalExpr, hea, ebind_error]⟩
      | ok v =>
        obtain ⟨err, herr⟩ := ihb env hx hl
        exact ⟨err, by simp only [evalExpr, hea, herr, ebind_ok, ebind_error]⟩
  | sub a b iha ihb =>
    intro env hx hl
    simp only [exprVars, List.mem_append] at hx
    rcases hx with hx | hx
    · obtain ⟨err, herr⟩ := iha env hx hl
      exact ⟨err, by simp only [evalExpr, herr, ebind_error]⟩
    · cases hea : evalExpr a env with
      | error err => exact ⟨err, by simp only [evalExpr, hea, ebind_error]⟩
      | ok v =>
        obtain ⟨err, herr⟩ := ihb env hx hl
        exact ⟨err, by simp only [evalExpr, hea, herr, ebind_ok, ebind_error]⟩
  | mul a b iha ihb =>
    intro env hx hl
    simp only [exprVars, List.mem_append] at hx
    rcases hx with hx | hx
    · obtain ⟨err, herr⟩ := iha env hx hl
      exact ⟨err, by simp only [evalExpr, herr, ebind_error]⟩
    · cases hea : evalExpr a env with
      | error err => exact ⟨err, by simp only [evalExpr, hea, ebind_error]⟩
      | ok v =>
        obtain ⟨err, herr⟩ := ihb env hx hl
        exact ⟨err, by simp only [evalExpr, hea, herr, ebind_ok, ebind_error]⟩
  | div a b iha ihb =>
    intro env hx hl
    simp only [exprVars, List.mem_append] at hx
    rcases hx with hx | hx
    · obtain ⟨err, herr⟩ := iha env hx hl
      exact ⟨err, by simp only [evalExpr, herr, ebind_error]⟩
    · cases hea : evalExpr a env with
      | error err => exact ⟨err, by simp only [evalExpr, hea, ebind_error]⟩
      | ok v =>
        obtain ⟨err, herr⟩ := ihb env hx hl
        exact ⟨err, by simp only [evalExpr, hea, herr, ebind_ok, ebind_error]⟩
  | mod a b iha ihb =>
    intro env hx hl
    simp only [exprVars, List.mem_append] at hx
    rcases hx with hx | hx
    · obtain ⟨err, herr⟩ := iha env hx hl
      exact ⟨err, by simp only [evalExpr, herr, ebind_error]⟩
    · cases hea : evalExpr a env with
      | error err => exact ⟨err, by simp only [evalExpr, hea, ebind_error]⟩
      | ok v =>
        obtain ⟨err, herr⟩ := ihb env hx hl
        exact ⟨err, by simp only [evalExpr, hea, herr, ebind_ok, ebind_error]⟩
  | pow a b iha ihb =>
    intro env hx hl
    simp only [exprVars, List.mem_append] at hx
    rcases hx with hx | hx
    · obtain ⟨err, herr⟩ := iha env hx hl
      exact ⟨err, by simp only [evalExpr, herr, ebind_error]⟩
    · cases hea : evalExpr a env with
      | error err => exact ⟨err, by simp only [evalExpr, hea, ebind_error]⟩
      | ok v =>
        obtain ⟨err, herr⟩ := ihb env hx hl
        exact ⟨err, by simp only [evalExpr, hea, herr, ebind_ok, ebind_error]⟩

/-- With every referenced identifier defined, evaluation either succeeds
or reports a non-finite result (never an undefined-variable or malformed
error). -/
theorem evalExpr_ok_or_nonFinite :
    ∀ (e : FExpr) (env : List (List Char × ℚ)),
      (∀ x ∈ exprVars e, (lookupVar env x).isSome) →
      (∃ v, evalExpr e env = .ok v) ∨ evalExpr e env = .error .nonFinite := by
  intro e
  induction e with
  | num q => intro env _; exact Or.inl ⟨q, rfl⟩
  | var s =>
    intro env hdef
    have := hdef s (by simp [exprVars])
    cases hl : lookupVar env s with
    | none => rw [hl] at this; simp at this
    | some v => exact Or.inl ⟨v, by simp [evalExpr, hl]⟩
  | neg e ih =>
    intro env hdef
    rcases ih env (fun x hx => hdef x (by simpa [exprVars] using hx)) with
      ⟨v, hv⟩ | hv
    · exact Or.inl ⟨-v, by simp only [evalExpr, hv, emap_ok]⟩
    · exact Or.inr (by simp only [evalExpr, hv, emap_error])
  | add a b iha ihb =>
    intro env hdef
    rcases iha env (fun x hx => hdef x (by simp [exprVars, hx])) with
      ⟨va, hva⟩ | hva
    · rcases ihb env (fun x hx => hdef x (by simp [exprVars, hx])) with
        ⟨vb, hvb⟩ | hvb
      · exact Or.inl ⟨va + vb, by simp only [evalExpr, hva, hvb, ebind_ok]; rfl⟩
      · exact Or.inr (by simp only [evalExpr, hva, hvb, ebind_ok, ebind_error])
    · exact Or.inr (by simp only [evalExpr, hva, ebind_error])
  | sub a b iha ihb =>
    intro env hdef
    rcases iha env (fun x hx => hdef x (by simp [exprVars, hx])) with
      ⟨va, hva⟩ | hva
    · rcases ihb env (fun x hx => hdef x (by simp [exprVars, hx])) with
        ⟨vb, hvb⟩ | hvb
      · exact Or.inl ⟨va - vb, by simp only [evalExpr, hva, hvb, ebind_ok]; rfl⟩
      · exact Or.inr (by simp only [evalExpr, hva, hvb, ebind_ok, ebind_error])
    · exact Or.inr (by simp only [evalExpr, hva, ebind_error])
  | mul a b iha ihb =>
    intro env hdef
    rcases iha env (fun x hx => hdef x (by simp [exprVars, hx])) with
      ⟨va, hva⟩ | hva
    · rcases ihb env (fun x hx => hdef x (by simp [exprVars, hx])) with
        ⟨vb, hvb⟩ | hvb
      · exact Or.inl ⟨va * vb, by simp only [evalExpr, hva, hvb, ebind_ok]; rfl⟩
      · exact Or.inr (by simp only [evalExpr, hva, hvb, ebind_ok, ebind_error])
    · exact Or.inr (by simp only [evalExpr, hva, ebind_error])
  | div a b iha ihb =>
    intro env hdef
    rcases iha env (fun x hx => hdef x (by simp [exprVars, hx])) with
      ⟨va, hva⟩ | hva
    · rcases ihb env (fun x hx => hdef x (by simp [exprVars, hx])) with
        ⟨vb, hvb⟩ | hvb
      · by_cases hz : vb = 0
        · refine Or.inr ?_
          simp only [evalExpr, hva, hvb, ebind_ok]
          rw [if_pos hz]
        · refine Or.inl ⟨va / vb, ?_⟩
          simp only [evalExpr, hva, hvb, ebind_ok]
          rw [if_neg hz]
          rfl
      · exact Or.inr (by simp only [evalExpr, hva, hvb, ebind_ok, ebind_error])
    · exact Or.inr (by simp only [evalExpr, hva, ebind_error])
  | mod a b iha ihb =>
    intro env hdef
    rcases iha env (fun x hx => hdef x (by simp [exprVars, hx])) with
      ⟨va, hva⟩ | hva
    · rcases ihb env (fun x hx => hdef x (by simp [exprVars, hx])) with
        ⟨vb, hvb⟩ | hvb
      · by_cases hz : vb = 0
        · refine Or.inr ?_
          simp only [evalExpr, hva, hvb, ebind_ok]
          unfold jsModQ
          rw [if_pos hz]
        · refine Or.inl ⟨va - vb * (truncQ (va / vb) : ℚ), ?_⟩
          simp only [evalExpr, hva, hvb, ebind_ok]
          unfold jsModQ
          rw [if_neg hz]
      · exact Or.inr (by simp only [evalExpr, hva, hvb, ebind_ok, ebind_error])
    · exact Or.inr (by simp only [evalExpr, hva, ebind_error])
  | pow a b iha ihb =>
    intro env hdef
    rcases iha env (fun x hx => hdef x (by simp [exprVars, hx])) with
      ⟨va, hva⟩ | hva
    · rcases ihb env (fun x hx => hdef x (by simp [exprVars, hx])) with
        ⟨vb, hvb⟩ | hvb
      · rcases jsPowQ_ok_or_nonFinite va vb with ⟨v, hv⟩ | hv
        · exact Or.inl ⟨v, by simp only [evalExpr, hva, hvb, ebind_ok]; exact hv⟩
        · exact Or.inr (by simp only [evalExpr, hva, hvb, ebind_ok]; exact hv)
      · exact Or.inr (by simp only [evalExpr, hva, hvb, ebind_ok, ebind_error])
    · exact Or.inr (by simp only [evalExpr, hva, ebind_error])

/-- A failed pass-1 evaluation leaves the parameter and the engine state
unchanged. -/
theorem pass1Step_eval_failure_unchanged (st : Pass1State) (p : ExerciseParam)
    (err : EvalErr)
    (hev : evaluateProgressionFormula (p.progressionFormula.getD [])
      st.varMap = .error err) :
    (pass1Step st p).1 = p ∧ (pass1Step st p).2 = st := by
  unfold pass1Step
  cases hf : strTruthy p.progressionFormula
  · simp [hf]
  · cases hm : strTruthy p.maxValue
    · simp [hf, hm]
    · by_cases hw : lowerStr p.key = kwWeight
      · simp [hf, hm, hw]
      · simp [hf, hm, hw, hev]

/-- A failed pass-2 evaluation leaves the parameter and the
weight-wrapped flag unchanged. -/
theorem pass2Step_eval_failure_unchanged (vars : List (List Char × ℚ))
    (wW : Bool) (p : ExerciseParam) (err : EvalErr)
    (hev : evaluateProgressionFormula (p.progressionFormula.getD []) vars =
      .error err) :
    (pass2Step vars wW p).1 = p ∧ (pass2Step vars wW p).2 = wW := by
  unfold pass2Step
  split
  · exact ⟨rfl, rfl⟩
  · split
    · exact ⟨rfl, rfl⟩
    · simp [hev]

/-- Pass 1 preserves the number of parameters. -/
theorem pass1Go_length (ps : List ExerciseParam) :
    ∀ st, (pass1Go st ps).1.length = ps.length := by
  induction ps with
  | nil => intro st; rfl
  | cons p rest ih => intro st; simp [pass1Go, ih]

/-- Pass 2 preserves the number of parameters. -/
theorem pass2Go_length (ps : List ExerciseParam) :
    ∀ vars wW, (pass2Go vars wW ps).1.length = ps.length := by
  induction ps with
  | nil => intro vars wW; rfl
  | cons p rest ih => intro vars wW; simp [pass2Go, ih]

/-- **C7** (amended). `evaluateProgressionFormula` substitutes the
variable values textually into the formula (after rewriting `^` to
`**`) and fails exactly on the three causes read off that substituted
expression — it is malformed, an identifier survives substitution
(undefined at evaluation), or the result is not finite — and a failure
during `applyProgression` leaves that parameter's value (and the
engine state) unchanged without stopping the processing of the other
parameters: (1) every error is one of the three kinds; (2) an
unparsable substituted expression yields the malformed error; (3) an
identifier surviving substitution forces an error; (4) a parsable
substituted expression with no identifiers left either evaluates to a
(finite) rational or reports the non-finite error; (5) a pass-1
evaluation failure returns the parameter and state untouched; (6) so
does a pass-2 failure; (7) `applyProgression` always returns exactly
as many parameters as it was given. -/
theorem evaluateProgressionFormula_failure_semantics :
    (∀ (f : List Char) (vars : List (List Char × ℚ)) (e : EvalErr),
      evaluateProgressionFormula f vars = .error e →
      e = .malformed ∨ e = .undefinedVariable ∨ e = .nonFinite) ∧
    (∀ (f : List Char) (vars : List (List Char × ℚ)),
      (tokenize (substExpr f vars)).bind parseFormula = none →
      evaluateProgressionFormula f vars = .error .malformed) ∧
    (∀ (f : List Char) (vars : List (List Char × ℚ)) (expr : FExpr),
      (tokenize (substExpr f vars)).bind parseFormula = some expr →
      (∃ x, x ∈ exprVars expr) →
      ∃ e, evaluateProgressionFormula f vars = .error e) ∧
    (∀ (f : List Char) (vars : List (List Char × ℚ)) (expr : FExpr),
      (tokenize (substExpr f vars)).bind parseFormula = some expr →
      exprVars expr = [] →
      (∃ v, evaluateProgressionFormula f vars = .ok v) ∨
        evaluateProgressionFormula f vars = .error .nonFinite) ∧
    (∀ (st : Pass1State) (p : ExerciseParam) (err : EvalErr),
      evaluateProgressionFormula (p.progressionFormula.getD [])
        st.varMap = .error err →
      (pass1Step st p).1 = p ∧ (pass1Step st p).2 = st) ∧
    (∀ (vars : List (List Char × ℚ)) (wW : Bool) (p : ExerciseParam)
      (err : EvalErr),
      evaluateProgressionFormula (p.progressionFormula.getD []) vars =
        .error err →
      (pass2Step vars wW p).1 = p ∧ (pass2Step vars wW p).2 = wW) ∧
    (∀ ps : List ExerciseParam,
      (applyProgression ps).params.length = ps.length) := by
  refine ⟨?_, ?_, ?_, ?_,
    pass1Step_eval_failure_unchanged, pass2Step_eval_failure_unchanged, ?_⟩
  · intro f vars e _
    cases e
    · exact Or.inl rfl
    · exact Or.inr (Or.inl rfl)
    · exact Or.inr (Or.inr rfl)
  · intro f vars h
    cases ht : tokenize (substExpr f vars) with
    | none => simp only [evaluateProgressionFormula, ht]
    | some toks =>
      rw [ht] at h
      simp only [Option.some_bind] at h
      simp only [evaluateProgressionFormula, ht, h]
  · intro f vars expr h hx
    cases ht : tokenize (substExpr f vars) with
    | none => exact ⟨.malformed, by simp only [evaluateProgressionFormula, ht]⟩
    | some toks =>
      rw [ht] at h
      simp only [Option.some_bind] at h
      simp only [evaluateProgressionFormula, ht, h]
      obtain ⟨x, hmem⟩ := hx
      exact evalExpr_error_of_undefined x expr [] hmem rfl
  · intro f vars expr h hvars
    cases ht : tokenize (substExpr f vars) with
    | none => rw [ht] at h; simp at h
    | some toks =>
      rw [ht] at h
      simp only [Option.some_bind] at h
      simp only [evaluateProgressionFormula, ht, h]
      exact evalExpr_ok_or_nonFinite expr []
        (fun x hx => absurd (hvars ▸ hx) (List.not_mem_nil x))
  · intro ps
    unfold applyProgression
    dsimp only
    split <;> simp [pass2Go_length, pass1Go_length]

/-- Witness for C7: a formula referencing the undefined identifier `x`
fails, and the pass-1 step carrying it leaves the parameter unchanged. -/
theorem evaluateProgressionFormula_failure_semantics_witness :
    (pass1Step ⟨[], [], false⟩
      { key := ("Reps".toList), value := ("5".toList), editable := true
        progressionFormula := some ("x+1".toList)
        maxValue := some ("12".toList) }).1 =
      { key := ("Reps".toList), value := ("5".toList), editable := true
        progressionFormula := some ("x+1".toList)
        maxValue := some ("12".toList) } :=
  (evaluateProgressionFormula_failure_semantics.2.2.2.2.1
    ⟨[], [], false⟩
    { key := ("Reps".toList), value := ("5".toList), editable := true
      progressionFormula := some ("x+1".toList)
      maxValue := some ("12".toList) }
    .undefinedVariable (by rfl)).1

/-- C7 counterexample: because `evaluateProgressionFormula` substitutes
the variable values textually, its failures are not characterized by
the formula being malformed, a referenced variable being undefined, or
the value being non-finite: `2-w` with `w = -5` is a well-formed
formula whose one variable is defined and whose value `7` is finite,
yet the substituted text `2--5` is a syntax error and evaluation
fails; likewise `w^2` with `w = -5` substitutes to `-5**2`, a syntax
error; and `w^0.5` with `w = 4` succeeds with the finite `2` exactly
as the source, not with a non-finite error. -/
theorem evaluateProgressionFormula_substitution_counterexample :
    evaluateProgressionFormula ("2-w".toList)
      [(("w".toList), (-5 : ℚ))] = .error .malformed ∧
    ((tokenize ("2-w".toList)).bind parseFormula).isSome = true ∧
    lookupVar [(("w".toList), (-5 : ℚ))] ("w".toList) = some (-5) ∧
    evalExpr (FExpr.sub (FExpr.num 2) (FExpr.var ("w".toList)))
      [(("w".toList), (-5 : ℚ))] = .ok 7 ∧
    evaluateProgressionFormula ("w^2".toList)
      [(("w".toList), (-5 : ℚ))] = .error .malformed ∧
    evaluateProgressionFormula ("w^0.5".toList)
      [(("w".toList), (4 : ℚ))] = .ok 2 :=
  ⟨rfl, rfl, rfl, rfl, rfl, rfl⟩

/-- **C9 counterexample.** The line `- [ ] A | Rest: 60s` contains a
`Rest:` segment, yet `parseExercise` neither stores it in `params` nor
sets `restAfter` (the segment is locked, not editable, so the claimed
"consumed into `restAfter` (parsed as seconds)" fails: `restAfter` is
`none`, not `some 60`). -/
theorem rest_locked_segment_counterexample :
    parseExercise ("- [ ] A | Rest: 60s".toList) 0 =
      some { state := ExerciseState.pending, name := ("A".toList)
             params := [], restAfter := none, lineIndex := 0 } ∧
    parseParam (("Rest: 60s".toList)) =
      some { key := ("Rest".toList), value := ("60s".toList)
             editable := false } ∧
    (none : Option Nat) ≠ some (parseDurationToSeconds ("60s".toList)) := by
  refine ⟨by decide, by decide, by decide⟩

/-- A parameter-loop step never stores a rest-keyed parameter. -/
theorem exFoldStep_param_mem (acc : ExAcc) (s : List Char)
    (p : ExerciseParam) (hp : p ∈ (exFoldStep acc s).params) :
    p ∈ acc.params ∨ lowerStr p.key ≠ kwRest := by
  unfold exFoldStep at hp
  cases hpp : parseParam s with
  | none => rw [hpp] at hp; exact Or.inl hp
  | some param =>
    simp only [hpp] at hp
    by_cases hr : lowerStr param.key = kwRest
    · rw [if_pos hr] at hp
      split at hp
      · exact Or.inl hp
      · exact Or.inl hp
    · rw [if_neg hr] at hp
      split at hp
      · split at hp
        · rcases List.mem_append.mp hp with h | h
          · exact Or.inl h
          · rw [List.mem_singleton.mp h]; exact Or.inr hr
        · rcases List.mem_append.mp hp with h | h
          · exact Or.inl h
          · rw [List.mem_singleton.mp h]; exact Or.inr hr
      · rcases List.mem_append.mp hp with h | h
        · exact Or.inl h
        · rw [List.mem_singleton.mp h]; exact Or.inr hr

/-- The parameter loop never stores a rest-keyed parameter. -/
theorem exFold_param_mem (segs : List (List Char)) :
    ∀ (acc : ExAcc) (p : ExerciseParam),
      p ∈ (segs.foldl exFoldStep acc).params →
      p ∈ acc.params ∨ lowerStr p.key ≠ kwRest := by
  induction segs with
  | nil => intro acc p hp; exact Or.inl hp
  | cons s rest ih =>
    intro acc p hp
    rcases ih (exFoldStep acc s) p hp with h | h
    · exact exFoldStep_param_mem acc s p h
    · exact Or.inr h

/-- One loop step changes `restAfter` exactly as `restStep` does. -/
theorem exFoldStep_restAfter (acc : ExAcc) (s : List Char) :
    (exFoldStep acc s).restAfter = restStep acc.restAfter s := by
  unfold exFoldStep restStep
  cases hpp : parseParam s with
  | none => rfl
  | some param =>
    dsimp only
    by_cases hr : lowerStr param.key = kwRest
    · rw [if_pos hr]
      by_cases hev : (param.editable && !param.value.isEmpty) = true
      · have hcond :
            (decide (lowerStr param.key = kwRest) && param.editable &&
              !param.value.isEmpty) = true := by
          simp [hr, Bool.and_assoc, hev]
        rw [if_pos hev, if_pos hcond]
      · have hbc : (param.editable && !param.value.isEmpty) = false := by
          simpa using hev
        have hcond :
            ¬((decide (lowerStr param.key = kwRest) && param.editable &&
              !param.value.isEmpty) = true) := by
          simp [hr, Bool.and_assoc, hbc]
        rw [if_neg hev, if_neg hcond]
    · have hcond :
          ¬((decide (lowerStr param.key = kwRest) && param.editable &&
            !param.value.isEmpty) = true) := by
        simp [hr]
      rw [if_neg hr, if_neg hcond]
      split
      · split
        · rfl
        · rfl
      · rfl

/-- The parameter loop computes `restAfter` as the rest-duration scan. -/
theorem exFold_restAfter (segs : List (List Char)) :
    ∀ (acc : ExAcc),
      (segs.foldl exFoldStep acc).restAfter =
        segs.foldl restStep acc.restAfter := by
  induction segs with
  | nil => intro acc; rfl
  | cons s rest ih =>
    intro acc
    simp only [List.foldl_cons]
    rw [ih (exFoldStep acc s), exFoldStep_restAfter]

/-- **C9 (amended).** `Rest:` segments never appear in the stored
`params`, and `restAfter` holds the parsed seconds of the last editable
`Rest:` segment with a nonempty value (absent when there is none) — a
locked `Rest:` segment is consumed but does not set `restAfter`. -/
theorem parseExercise_rest_semantics :
    (∀ (l : List Char) (i : Nat) (e : Exercise), parseExercise l i = some e →
      ∀ p ∈ e.params, lowerStr p.key ≠ kwRest) ∧
    (∀ (l : List Char) (i : Nat) (e : Exercise) (c : Char) (rest : List Char),
      parseExercise l i = some e → lineMatch l = some (c, rest) →
      e.restAfter = restScan (((splitOnChar '|' rest).map jsTrim).tail)) := by
  constructor
  · intro l i e he p hp
    unfold parseExercise at he
    cases hm : lineMatch l with
    | none => rw [hm] at he; exact absurd he (by simp)
    | some cr =>
      rw [hm] at he
      simp only [Option.some_inj] at he
      subst he
      rcases exFold_param_mem _ _ p hp with h | h
      · exact absurd h (by simp)
      · exact h
  · intro l i e c rest he hm
    unfold parseExercise at he
    rw [hm] at he
    simp only [Option.some_inj] at he
    subst he
    exact exFold_restAfter _ _

/-- Witness for the amended C9: on
`- [ ] A | Rest: [90s] | Reps: [5]` the stored `Reps` parameter is not
rest-keyed (and `restAfter` picks up the editable segment's 90). -/
theorem parseExercise_rest_semantics_witness :
    lowerStr (("Reps".toList)) ≠ kwRest ∧
    ({ state := ExerciseState.pending, name := ("A".toList)
       params := [{ key := ("Reps".toList), value := ("5".toList)
                    editable := true }]
       restAfter := some 90, lineIndex := 0 } : Exercise).restAfter =
      restScan (((splitOnChar '|'
        ("A | Rest: [90s] | Reps: [5]".toList)).map jsTrim).tail) :=
  ⟨parseExercise_rest_semantics.1
      ("- [ ] A | Rest: [90s] | Reps: [5]".toList) 0
      { state := ExerciseState.pending, name := ("A".toList)
        params := [{ key := ("Reps".toList), value := ("5".toList)
                     editable := true }]
        restAfter := some 90, lineIndex := 0 }
      (by decide)
      { key := ("Reps".toList), value := ("5".toList), editable := true }
      (by decide),
   parseExercise_rest_semantics.2
      ("- [ ] A | Rest: [90s] | Reps: [5]".toList) 0
      { state := ExerciseState.pending, name := ("A".toList)
        params := [{ key := ("Reps".toList), value := ("5".toList)
                     editable := true }]
        restAfter := some 90, lineIndex := 0 }
      ' ' ("A | Rest: [90s] | Reps: [5]".toList)
      (by decide) (by decide)⟩

/-- Membership in a descending insertion. -/
theorem insDesc_mem (y : List Char × Nat) (x : List Char × Nat) :
    ∀ l, x ∈ insDesc y l ↔ x = y ∨ x ∈ l := by
  intro l
  induction l with
  | nil => simp [insDesc]
  | cons z zs ih =>
    unfold insDesc
    by_cases h : z.2 ≥ y.2
    · rw [if_pos h]
      simp only [List.mem_cons, ih]
      tauto
    · rw [if_neg h]
      simp only [List.mem_cons]

/-- Membership is preserved by the descending sort. -/
theorem sortDescBySnd_mem (x : List Char × Nat) :
    ∀ (l acc : List (List Char × Nat)),
      x ∈ l.foldl (fun acc y => insDesc y acc) acc ↔ x ∈ acc ∨ x ∈ l := by
  intro l
  induction l with
  | nil => simp
  | cons z zs ih =>
    intro acc
    simp only [List.foldl_cons, ih, insDesc_mem, List.mem_cons]
    tauto

/-- Descending insertion preserves descending sortedness. -/
theorem insDesc_sorted (y : List Char × Nat) :
    ∀ l, List.Pairwise (fun a b : List Char × Nat => b.2 ≤ a.2) l →
      List.Pairwise (fun a b : List Char × Nat => b.2 ≤ a.2) (insDesc y l) := by
  intro l
  induction l with
  | nil => intro _; simp [insDesc]
  | cons z zs ih =>
    intro h
    rcases List.pairwise_cons.mp h with ⟨hz, hzs⟩
    unfold insDesc
    by_cases hge : z.2 ≥ y.2
    · rw [if_pos hge]
      refine List.pairwise_cons.mpr ⟨?_, ih hzs⟩
      intro a ha
      rcases (insDesc_mem y a zs).mp ha with rfl | ha
      · exact hge
      · exact hz a ha
    · rw [if_neg hge]
      refine List.pairwise_cons.mpr ⟨?_, h⟩
      intro a ha
      rcases List.mem_cons.mp ha with rfl | ha
      · exact Nat.le_of_lt (Nat.lt_of_not_le hge)
      · exact Nat.le_trans (hz a ha) (Nat.le_of_lt (Nat.lt_of_not_le hge))

/-- The descending sort is descending. -/
theorem sortDescBySnd_sorted (l : List (List Char × Nat)) :
    List.Pairwise (fun a b : List Char × Nat => b.2 ≤ a.2)
      (sortDescBySnd l) := by
  unfold sortDescBySnd
  suffices h : ∀ (l acc : List (List Char × Nat)),
      List.Pairwise (fun a b : List Char × Nat => b.2 ≤ a.2) acc →
      List.Pairwise (fun a b : List Char × Nat => b.2 ≤ a.2)
        (l.foldl (fun acc y => insDesc y acc) acc) from
    h l [] (by simp)
  intro l
  induction l with
  | nil => intro acc h; exact h
  | cons z zs ih =>
    intro acc h
    exact ih (insDesc z acc) (insDesc_sorted z acc h)

/-- Membership in a `Map.set` result. -/
theorem mapSet_mem (m : List (List Char × Nat)) (k : List Char) (v : Nat)
    (e : List Char × Nat) (he : e ∈ mapSet m k v) :
    (e ∈ m ∧ e.1 ≠ k) ∨ e = (k, v) := by
  unfold mapSet at he
  by_cases h : m.any (fun p => p.1 == k)
  · rw [if_pos h] at he
    rcases List.mem_map.mp he with ⟨p, hp, hpe⟩
    by_cases hk : p.1 == k
    · rw [if_pos hk] at hpe
      exact Or.inr hpe.symm
    · rw [if_neg hk] at hpe
      subst hpe
      exact Or.inl ⟨hp, by simpa using hk⟩
  · rw [if_neg h] at he
    rcases List.mem_append.mp he with he | he
    · refine Or.inl ⟨he, ?_⟩
      simp only [List.any_eq_true, not_exists, not_and, Bool.not_eq_true] at h
      intro hk
      have := h e he
      rw [hk] at this
      simp at this
    · exact Or.inr (List.mem_singleton.mp he)

/-- The phase-1 reset map preserves the names at every position. -/
theorem resetPhase1Go_names (sk : List (List Char)) :
    ∀ (exs : List Exercise) (i : Nat) (adds : List (List Char × Nat)),
      ((resetPhase1Go sk i exs adds).1).map (fun e => e.name) =
        exs.map (fun e => e.name) := by
  intro exs
  induction exs with
  | nil => intro i adds; rfl
  | cons ex rest ih =>
    intro i adds
    simp only [resetPhase1Go, List.map_cons]
    rw [ih]

/-- Every set-addition entry is either inherited or records the name of
the exercise at its index, a name that is not skipped. -/
theorem resetPhase1Go_adds (sk : List (List Char)) :
    ∀ (exs : List Exercise) (i : Nat) (adds : List (List Char × Nat))
      (e : List Char × Nat), e ∈ (resetPhase1Go sk i exs adds).2 →
      e ∈ adds ∨ (sk.contains e.1 = false ∧
        ∃ m, e.2 = i + m ∧ (exs[m]?).map (fun x => x.name) = some e.1) := by
  intro exs
  induction exs with
  | nil => intro i adds e he; exact Or.inl he
  | cons ex rest ih =>
    intro i adds e he
    simp only [resetPhase1Go] at he
    rcases ih (i + 1) _ e he with h | ⟨hsk, m, hm, hname⟩
    · by_cases hadd :
          (if sk.contains ex.name then ProgressionResult.mk
              (removeRecordedDurations ex) false
            else applyProgression (removeRecordedDurations ex)).shouldAddSet
      · rw [if_pos hadd] at h
        rcases mapSet_mem adds ex.name i e h with ⟨hin, _⟩ | rfl
        · exact Or.inl hin
        · refine Or.inr ⟨?_, 0, by simp, by simp⟩
          by_cases hc : sk.contains ex.name
          · rw [if_pos hc] at hadd; simp at hadd
          · simpa using hc
      · rw [if_neg hadd] at h
        exact Or.inl h
    · exact Or.inr ⟨hsk, m + 1, by omega, by simpa using hname⟩

/-- The per-parameter reset after progression does not change keys or
values. -/
theorem resetExerciseParams_kv (ps : List ExerciseParam) (ex : Exercise) :
    (resetExerciseParams ps ex).map (fun p => (p.key, p.value)) =
      ps.map (fun p => (p.key, p.value)) := by
  unfold resetExerciseParams
  rw [List.map_map]
  rfl

/-- For a skipped name, the phase-1 map carries every parameter key and
value over unchanged (modulo the recorded-duration filter). -/
theorem resetPhase1Go_filter_kv (sk : List (List Char)) (n : List Char)
    (hn : sk.contains n = true) :
    ∀ (exs : List Exercise) (i : Nat) (adds : List (List Char × Nat)),
      (((resetPhase1Go sk i exs adds).1).filter
          (fun e => e.name == n)).map paramKVs =
        (exs.filter (fun e => e.name == n)).map
          (fun e => (removeRecordedDurations e).map
            (fun p => (p.key, p.value))) := by
  intro exs
  induction exs with
  | nil => intro i adds; rfl
  | cons ex rest ih =>
    intro i adds
    simp only [resetPhase1Go]
    by_cases hbe : ex.name == n
    · have hname : ex.name = n := by simpa using hbe
      have hcont : sk.contains ex.name = true := by rw [hname]; exact hn
      simp only [List.filter_cons, hbe, if_pos, List.map_cons, hcont,
        if_true, ih]
      refine congrArg (· :: _) ?_
      unfold paramKVs
      simp only
      rw [resetExerciseParams_kv]
    · simp only [List.filter_cons, hbe, Bool.false_eq_true, if_false]
      exact ih (i + 1) _

/-- Inserting an element the filter rejects does not change the filter. -/
theorem filter_insertIdx_of_neg {α : Type} (p : α → Bool) (x : α)
    (hpx : p x = false) :
    ∀ (i : Nat) (l : List α), (List.insertIdx i x l).filter p = l.filter p := by
  intro i
  induction i with
  | zero =>
    intro l
    simp [List.insertIdx, hpx]
  | succ k ih =>
    intro l
    cases l with
    | nil => rfl
    | cons a as =>
      rw [List.insertIdx_succ_cons]
      simp only [List.filter_cons, ih]

/-- Positions before the insertion point are unchanged. -/
theorem getElem?_insertIdx_of_lt {α : Type} (x : α) :
    ∀ (i j : Nat) (l : List α), j < i →
      (List.insertIdx i x l)[j]? = l[j]? := by
  intro i
  induction i with
  | zero => intro j l h; omega
  | succ k ih =>
    intro j l h
    cases l with
    | nil => rfl
    | cons a as =>
      rw [List.insertIdx_succ_cons]
      cases j with
      | zero => simp
      | succ j' =>
        simp only [List.getElem?_cons_succ]
        exact ih j' as (by omega)

/-- A name-preserving `mapIdx` preserves the name at every position. -/
theorem mapIdx_getElem?_name :
    ∀ (l : List Exercise) (f : Nat → Exercise → Exercise),
      (∀ i e, (f i e).name = e.name) → ∀ j : Nat,
      ((l.mapIdx f)[j]?).map (fun e => e.name) =
        (l[j]?).map (fun e => e.name) := by
  intro l
  induction l with
  | nil => intro f _ j; rfl
  | cons a as ih =>
    intro f hf j
    rw [List.mapIdx_cons]
    cases j with
    | zero => simp [hf]
    | succ j' =>
      simp only [List.getElem?_cons_succ]
      exact ih (fun i => f (i + 1)) (fun i e => hf (i + 1) e) j'

/-- A name- and parameter-preserving `mapIdx` preserves the filtered
key/value view. -/
theorem mapIdx_filter_kv (n : List Char) :
    ∀ (l : List Exercise) (f : Nat → Exercise → Exercise),
      (∀ i e, (f i e).name = e.name) → (∀ i e, (f i e).params = e.params) →
      ((l.mapIdx f).filter (fun e => e.name == n)).map paramKVs =
        (l.filter (fun e => e.name == n)).map paramKVs := by
  intro l
  induction l with
  | nil => intro f _ _; rfl
  | cons a as ih =>
    intro f hf hp
    rw [List.mapIdx_cons]
    simp only [List.filter_cons, hf 0 a]
    by_cases hbe : a.name == n
    · simp only [hbe, if_pos, List.map_cons]
      refine congrArg₂ (· :: ·) ?_ (ih _ (fun i e => hf (i + 1) e)
        (fun i e => hp (i + 1) e))
      unfold paramKVs
      rw [hp 0 a]
    · simp only [hbe, Bool.false_eq_true, if_false]
      exact ih _ (fun i e => hf (i + 1) e) (fun i e => hp (i + 1) e)

/-- One set-addition splice neither touches the `n`-named exercises nor
the names at positions up to the splice index. -/
theorem addOneSet_preserves (n : List Char) (exs : List Exercise)
    (k : List Char) (i : Nat) (hk : k ≠ n)
    (hi : (exs[i]?).map (fun e => e.name) = some k) :
    ((addOneSet exs (k, i)).filter (fun e => e.name == n)).map paramKVs =
        (exs.filter (fun e => e.name == n)).map paramKVs ∧
      ∀ j, j ≤ i → ((addOneSet exs (k, i))[j]?).map (fun e => e.name) =
        (exs[j]?).map (fun e => e.name) := by
  cases hge : exs[i]? with
  | none => rw [hge] at hi; simp at hi
  | some ex =>
    rw [hge] at hi
    have hexn : ex.name = k := by simpa using hi
    have hf : ∀ (m : Nat) (e : Exercise),
        ((fun (idx : Nat) (e : Exercise) =>
          if i + 2 ≤ idx then { e with lineIndex := e.lineIndex + 1 }
          else e) m e).name = e.name := by
      intro m e
      dsimp only
      split
      · rfl
      · rfl
    have hp : ∀ (m : Nat) (e : Exercise),
        ((fun (idx : Nat) (e : Exercise) =>
          if i + 2 ≤ idx then { e with lineIndex := e.lineIndex + 1 }
          else e) m e).params = e.params := by
      intro m e
      dsimp only
      split
      · rfl
      · rfl
    have hne : ((({ ex with state := ExerciseState.pending, recordedDuration := none, lineIndex := ex.lineIndex + 1 } : Exercise).name == n) = false) := by
      simp only [hexn]
      simpa using hk
    unfold addOneSet
    dsimp only
    rw [hge]
    dsimp only
    constructor
    · rw [mapIdx_filter_kv n _ _ hf hp]
      rw [filter_insertIdx_of_neg (fun e : Exercise => e.name == n) _ hne]
    · intro j hj
      rw [mapIdx_getElem?_name _ _ hf j]
      rw [getElem?_insertIdx_of_lt _ _ _ _ (by omega)]

/-- Folding the set-addition splices over a descending entry list whose
keys differ from `n` and point at exercises of their own name leaves the
`n`-named exercises untouched. -/
theorem addSets_fold (n : List Char) :
    ∀ (es : List (List Char × Nat)) (exs : List Exercise),
      List.Pairwise (fun a b : List Char × Nat => b.2 ≤ a.2) es →
      (∀ e ∈ es, e.1 ≠ n) →
      (∀ e ∈ es, (exs[e.2]?).map (fun x => x.name) = some e.1) →
      ((es.foldl addOneSet exs).filter (fun e => e.name == n)).map paramKVs =
        (exs.filter (fun e => e.name == n)).map paramKVs := by
  intro es
  induction es with
  | nil => intro exs _ _ _; rfl
  | cons e rest ih =>
    intro exs hsorted hkeys hpos
    rcases List.pairwise_cons.mp hsorted with ⟨hle, hrest⟩
    have h1 := addOneSet_preserves n exs e.1 e.2
      (hkeys e (List.mem_cons_self e rest))
      (hpos e (List.mem_cons_self e rest))
    simp only [List.foldl_cons]
    have hx : addOneSet exs e = addOneSet exs (e.1, e.2) := rfl
    rw [hx]
    rw [ih (addOneSet exs (e.1, e.2)) hrest
      (fun x hx2 => hkeys x (List.mem_cons_of_mem e hx2))
      (fun x hx2 => by
        rw [h1.2 x.2 (hle x hx2)]
        exact hpos x (List.mem_cons_of_mem e hx2))]
    exact h1.1

/-- The final per-name parameter reset does not touch names outside the
addition map. -/
theorem finalReset_filter_kv (n : List Char) (names : List (List Char))
    (hn : names.contains n = false) :
    ∀ exs : List Exercise,
      ((exs.map (fun ex =>
          if names.contains ex.name then
            { ex with params := ex.params.map resetParamForNewSet }
          else ex)).filter (fun e => e.name == n)).map paramKVs =
        (exs.filter (fun e => e.name == n)).map paramKVs := by
  intro exs
  induction exs with
  | nil => rfl
  | cons ex rest ih =>
    simp only [List.map_cons, List.filter_cons]
    have hmname : (if names.contains ex.name then
        { ex with params := ex.params.map resetParamForNewSet }
        else ex).name = ex.name := by
      split
      · rfl
      · rfl
    by_cases hbe : ex.name == n
    · have hname : ex.name = n := by simpa using hbe
      have hcont : names.contains ex.name = false := by rw [hname]; exact hn
      have hm : (if names.contains ex.name then
          { ex with params := ex.params.map resetParamForNewSet }
          else ex) = ex := by
        rw [hcont]
        simp
      rw [hm]
      simp only [hbe, if_pos, List.map_cons, ih]
    · have hmbe : ((if names.contains ex.name then
          { ex with params := ex.params.map resetParamForNewSet }
          else ex).name == n) = false := by
        rw [hmname]
        simpa using hbe
      simp only [hmbe, hbe, Bool.false_eq_true, if_false]
      exact ih

/-- **C8.** On workout reset, an exercise name with any skipped set is
exempt from progression: every exercise of that name keeps every
parameter key and value (after the recorded-duration clearing applied to
all exercises), and no set-addition entry is recorded for the name, so
the number of its sets is unchanged. -/
theorem resetWorkout_skipped_exempt (w : ParsedWorkout) (n : List Char)
    (hs : ∃ s ∈ w.exercises, s.state = ExerciseState.skipped ∧ s.name = n) :
    (((resetWorkout w).exercises.filter (fun e => e.name == n)).map paramKVs =
      (w.exercises.filter (fun e => e.name == n)).map
        (fun e => (removeRecordedDurations e).map
          (fun p => (p.key, p.value)))) ∧
    (∀ entry ∈ (resetPhase1Go
        ((w.exercises.filter
          (fun e => e.state == ExerciseState.skipped)).map (fun e => e.name))
        0 w.exercises []).2, entry.1 ≠ n) := by
  obtain ⟨s, hsmem, hstate, hsname⟩ := hs
  set sk := ((w.exercises.filter
    (fun e => e.state == ExerciseState.skipped)).map (fun e => e.name))
    with hsk
  have hmem : n ∈ sk := by
    rw [hsk]
    exact List.mem_map.mpr ⟨s, List.mem_filter.mpr
      ⟨hsmem, by simp [hstate]⟩, hsname⟩
  have hn : sk.contains n = true := by
    simpa [List.contains_iff_exists_mem_beq] using hmem
  have hkeys : ∀ entry ∈ (resetPhase1Go sk 0 w.exercises []).2,
      entry.1 ≠ n := by
    intro entry hentry
    rcases resetPhase1Go_adds sk w.exercises 0 [] entry hentry with h | ⟨hc, _⟩
    · simp at h
    · intro hne
      rw [hne, hn] at hc
      simp at hc
  refine ⟨?_, hkeys⟩
  unfold resetWorkout
  simp only [← hsk]
  by_cases hempty : (resetPhase1Go sk 0 w.exercises []).2.isEmpty
  · rw [if_neg (by simp [hempty])]
    simp only
    rw [resetPhase1Go_filter_kv sk n hn w.exercises 0 []]
  · rw [if_pos (by simpa using hempty)]
    unfold addNewSetsAndReset
    simp only
    rw [finalReset_filter_kv n _ (by
      simp only [List.contains_eq_any_beq, List.any_eq_false,
        Bool.not_eq_true]
      intro x hx
      rcases List.mem_map.mp hx with ⟨entry, hentry, rfl⟩
      have hne := hkeys entry hentry
      simp only [beq_eq_false_iff_ne, ne_eq]
      exact fun hcontra => hne hcontra.symm)]
    rw [addSets_fold n _ _ (sortDescBySnd_sorted _)
      (fun e he => hkeys e (((sortDescBySnd_mem e _ []).mp he).resolve_left
        (by simp)))
      (fun e he => by
        have hmem2 := ((sortDescBySnd_mem e _ []).mp he).resolve_left
          (by simp)
        rcases resetPhase1Go_adds sk w.exercises 0 [] e hmem2 with
          h | ⟨_, m, hm, hname⟩
        · simp at h
        · have hnames := resetPhase1Go_names sk w.exercises 0 []
          have heq : (((resetPhase1Go sk 0 w.exercises []).1)[e.2]?).map
              (fun x => x.name) =
              ((w.exercises[e.2]?).map (fun x => x.name)) := by
            rw [← List.getElem?_map, ← List.getElem?_map, hnames]
          rw [heq, hm]
          simpa using hname)]
    rw [resetPhase1Go_filter_kv sk n hn w.exercises 0 []]

/-- Witness for C8: a workout with a skipped and a completed `Squat` set
(both at max reps) keeps both sets' values unchanged on reset. -/
theorem resetWorkout_skipped_exempt_witness :
    ((resetWorkout squatWorkout).exercises.filter
        (fun e => e.name == ("Squat".toList))).map paramKVs =
      (squatWorkout.exercises.filter
        (fun e => e.name == ("Squat".toList))).map
        (fun e => (removeRecordedDurations e).map
          (fun p => (p.key, p.value))) :=
  (resetWorkout_skipped_exempt squatWorkout ("Squat".toList)
    ⟨{ state := ExerciseState.skipped, name := ("Squat".toList)
       params := [repsParam ("12".toList)] },
     by decide, by decide, by decide⟩).1

/-- **C5 counterexample.** `format(parse x) = x` fails on the well-formed
`"{,}5"` (both bounds empty: parse drops the block and format does not
re-emit it), and `parse(format r) = r` fails for the codec result of
`"()x"` (its formula is the empty string, which format drops). -/
theorem progressionValue_roundtrip_counterexample :
    (formatProgressionValue (parseProgressionValue ("{,}5".toList)).value
      (parseProgressionValue ("{,}5".toList)).progressionFormula
      (parseProgressionValue ("{,}5".toList)).initialValue
      (parseProgressionValue ("{,}5".toList)).maxValue = ("5".toList)) ∧
    ("5".toList) ≠ ("{,}5".toList) ∧
    (parseProgressionValue (formatProgressionValue
        (parseProgressionValue ("()x".toList)).value
        (parseProgressionValue ("()x".toList)).progressionFormula
        (parseProgressionValue ("()x".toList)).initialValue
        (parseProgressionValue ("()x".toList)).maxValue) ≠
      parseProgressionValue ("()x".toList)) := by
  refine ⟨by decide, by decide, by decide⟩

/-- `splitFirst` splits at the first occurrence of the separator. -/
theorem splitFirst_append (c : Char) :
    ∀ (a b : List Char), c ∉ a → splitFirst c (a ++ c :: b) = some (a, b) := by
  intro a
  induction a with
  | nil => intro b _; simp [splitFirst]
  | cons x xs ih =>
    intro b hc
    have hx : ¬x = c := fun h => hc (h ▸ List.mem_cons_self x xs)
    simp only [List.cons_append, splitFirst, if_neg hx, List.append_eq]
    rw [ih b (fun h => hc (List.mem_cons_of_mem x h))]

/-- `matchBounds` recovers the raw sides of a rendered bounds block. -/
theorem matchBounds_render (i m v : List Char) (hi : ',' ∉ i)
    (hm : '}' ∉ m) (hv : v.isEmpty = false) (hlt : noLT v = true) :
    matchBounds ('{' :: (i ++ ',' :: (m ++ '}' :: v))) = some (i, m, v) := by
  unfold matchBounds
  simp only [splitFirst_append ',' i (m ++ '}' :: v) hi,
    splitFirst_append '}' m v hm, hlt, hv]
  simp

/-- A string not starting with a brace has no bounds block. -/
theorem matchBounds_none (v : List Char) (h : ¬v.head? = some '{') :
    matchBounds v = none := by
  cases v with
  | nil => rfl
  | cons c cs =>
    have hc : ¬c = '{' := by simpa using h
    unfold matchBounds
    split
    · rename_i heq
      simp at heq
      exact absurd heq.1 hc
    · rfl

/-- A successful balance scan means every prefix keeps the running depth
nonnegative and the final depth is zero. -/
theorem balGo_spec :
    ∀ (f : List Char) (d : ℤ), 0 ≤ d → balGo f d = true →
      (∀ p q, f = p ++ q → 0 ≤ d + parenBal p) ∧ d + parenBal f = 0 := by
  intro f
  induction f with
  | nil =>
    intro d hd0 hd
    simp only [balGo, decide_eq_true_eq] at hd
    refine ⟨?_, by simp [parenBal, hd]⟩
    intro p q hpq
    have hp : p = [] := by
      cases p with
      | nil => rfl
      | cons a as => simp at hpq
    subst hp
    simpa [parenBal] using hd0
  | cons c r ih =>
    intro d hd0 hd
    simp only [balGo, Bool.and_eq_true, decide_eq_true_eq] at hd
    obtain ⟨hdc, hrec⟩ := hd
    obtain ⟨ihp, ihe⟩ := ih (d + pdelta c) hdc hrec
    refine ⟨?_, ?_⟩
    · intro p q hpq
      cases p with
      | nil => simpa [parenBal] using hd0
      | cons a as =>
        simp only [List.cons_append, List.cons.injEq] at hpq
        obtain ⟨rfl, hr⟩ := hpq
        have := ihp as q hr
        simp only [parenBal, List.map_cons, List.sum_cons] at this ⊢
        omega
    · simp only [parenBal, List.map_cons, List.sum_cons]
      simp only [parenBal] at ihe
      omega

/-- Scanning a segment whose running depth stays at least 1 neither
returns nor resets: findClose passes over it. -/
theorem findClose_skip :
    ∀ (f rest : List Char) (i : Nat) (d : ℤ),
      (∀ p q, f = p ++ q → 1 ≤ d + parenBal p) →
      findClose (f ++ rest) i d = findClose rest (i + f.length) (d + parenBal f) := by
  intro f
  induction f with
  | nil =>
    intro rest i d _
    simp [parenBal]
  | cons c f' ih =>
    intro rest i d hpre
    have h1 : 1 ≤ d + pdelta c := by
      have := hpre [c] f' rfl
      simpa [parenBal] using this
    have hd' : (if c = '(' then d + 1 else if c = ')' then d - 1 else d) =
        d + pdelta c := by
      unfold pdelta
      by_cases h1c : c = '('
      · simp [h1c]
      · by_cases h2c : c = ')'
        · simp only [h2c, if_neg (show ¬(')' : Char) = '(' by decide),
            if_pos (show (')' : Char) = ')' from rfl), if_true]
          ring
        · simp [h1c, h2c]
    have hcond : (decide (c = ')') && decide (d + pdelta c = 0)) = false := by
      by_cases h2c : c = ')'
      · have hne : ¬(d + pdelta c = 0) := by omega
        simp [hne]
      · simp [h2c]
    simp only [List.cons_append, findClose, hd']
    rw [if_neg (by simp [hcond])]
    simp only [List.append_eq]
    rw [ih rest (i + 1) (d + pdelta c)
      (fun p q h => by
        have := hpre (c :: p) q (by simp [h])
        simp only [parenBal, List.map_cons, List.sum_cons] at this ⊢
        omega)]
    have harg1 : i + 1 + f'.length = i + (c :: f').length := by
      simp only [List.length_cons]
      omega
    have harg2 : d + pdelta c + parenBal f' = d + parenBal (c :: f') := by
      simp only [parenBal, List.map_cons, List.sum_cons]
      omega
    rw [harg1, harg2]

/-- At depth 1, a closing parenthesis ends the scan at the current index. -/
theorem findClose_close (t : List Char) (i : Nat) :
    findClose (')' :: t) i 1 = some i := rfl

/-- The depth scan of parseProgressionValue finds the closing
parenthesis of a depth-matched formula. -/
theorem findClose_formula (f tail : List Char) (hbal : balancedBool f = true) :
    findClose ('(' :: f ++ ')' :: tail) 0 0 = some (f.length + 1) := by
  obtain ⟨hpre, hend⟩ := balGo_spec f 0 (le_refl 0) hbal
  have h0 : findClose ('(' :: f ++ ')' :: tail) 0 0 =
      findClose (f ++ ')' :: tail) 1 1 := rfl
  rw [h0]
  rw [findClose_skip f (')' :: tail) 1 1
    (fun p q h => by have := hpre p q h; omega)]
  have hz : parenBal f = 0 := by omega
  rw [hz]
  rw [show (1 : ℤ) + 0 = 1 from rfl]
  rw [findClose_close]
  rw [Nat.add_comm]

/-- A `false` result of `List.contains` on characters means non-membership. -/
theorem not_mem_of_contains_false {l : List Char} {c : Char}
    (h : l.contains c = false) : c ∉ l := by
  intro hm
  have ht : l.contains c = true := by
    simpa [List.contains_iff_exists_mem_beq] using hm
  rw [ht] at h
  exact Bool.noConfusion h

/-- Core codec lemma: on a well-formed rendered value string,
`parseProgressionValue` recovers exactly the grammar parts. -/
theorem parseProgressionValue_renderRaw (f : Option (List Char))
    (b : Option (List Char × List Char)) (v : List Char)
    (hwf : wfRender f b v = true) :
    parseProgressionValue (renderRaw f b v) =
      PVParts.mk v f (b.bind (fun im => jsOrU im.1))
        (b.bind (fun im => jsOrU im.2)) := by
  rcases f with _ | x <;> rcases b with _ | ⟨i, m⟩ <;>
    simp only [wfRender, wfFormula, wfBounds, wfValue, Bool.and_eq_true,
      Bool.not_eq_true', beq_iff_eq, beq_eq_false_iff_ne, Option.isSome_none,
      Option.isSome_some, Bool.false_or, Bool.true_or] at hwf
  · -- f = none, b = none
    have hvb : ¬(v.head? = some '{') := by tauto
    have hvp : ¬(v.head? = some '(') := by tauto
    have hsn : renderRaw none none v = v := by simp [renderRaw]
    rw [hsn]
    unfold parseProgressionValue
    rw [if_neg hvp, matchBounds_none v hvb]
    rfl
  · -- f = none, b = some (i, m)
    have hic0 : i.contains ',' = false := by tauto
    have hmc0 : m.contains '}' = false := by tauto
    have hit : jsTrim i = i := by tauto
    have hmt : jsTrim m = m := by tauto
    have hve : v.isEmpty = false := by tauto
    have hvt : jsTrim v = v := by tauto
    have hvlt : noLT v = true := by tauto
    have hic : ',' ∉ i := not_mem_of_contains_false hic0
    have hmc : '}' ∉ m := not_mem_of_contains_false hmc0
    have hsn : renderRaw none (some (i, m)) v =
        '{' :: (i ++ ',' :: (m ++ '}' :: v)) := by
      simp [renderRaw]
    rw [hsn]
    unfold parseProgressionValue
    rw [if_neg (show ¬(('{' :: (i ++ ',' :: (m ++ '}' :: v))).head? =
      some '(') from by simp)]
    rw [matchBounds_render i m v hic hmc hve hvlt]
    simp only [hit, hmt, hvt, Option.bind_some]
    rfl
  · -- f = some x, b = none
    have hxt : jsTrim x = x := by tauto
    have hbal : balancedBool x = true := by tauto
    have hvb : ¬(v.head? = some '{') := by tauto
    have hve : v.isEmpty = false := by tauto
    have hvt : jsTrim v = v := by tauto
    have hsn : renderRaw (some x) none v = '(' :: (x ++ ')' :: v) := by
      simp [renderRaw]
    have hfc : findClose ('(' :: (x ++ ')' :: v)) 0 0 = some (x.length + 1) := by
      rw [← List.cons_append]
      exact findClose_formula x v hbal
    rw [hsn]
    unfold parseProgressionValue
    rw [if_pos (show (('(' : Char) :: (x ++ ')' :: v)).head? = some '('
      from rfl)]
    rw [hfc]
    dsimp only
    rw [if_pos (Nat.succ_pos x.length)]
    have hdrop1 : (('(' : Char) :: (x ++ ')' :: v)).drop 1 = x ++ ')' :: v :=
      rfl
    have htake : (x ++ ')' :: v).take (x.length + 1 - 1) = x := by
      rw [Nat.add_sub_cancel]
      exact List.take_left x (')' :: v)
    have hdrop2 : (('(' : Char) :: (x ++ ')' :: v)).drop (x.length + 1 + 1) =
        v := by
      have hsplit : (('(' : Char) :: (x ++ ')' :: v)) =
          ('(' :: x ++ [')']) ++ v := by simp
      have hlen : (('(' : Char) :: x ++ [')']).length = x.length + 1 + 1 := by
        simp
      rw [hsplit, ← hlen, List.drop_left]
    rw [hdrop1, htake, hdrop2, matchBounds_none v hvb]
    simp only [hxt, hvt]
    rfl
  · -- f = some x, b = some (i, m)
    have hxt : jsTrim x = x := by tauto
    have hbal : balancedBool x = true := by tauto
    have hic0 : i.contains ',' = false := by tauto
    have hmc0 : m.contains '}' = false := by tauto
    have hit : jsTrim i = i := by tauto
    have hmt : jsTrim m = m := by tauto
    have hve : v.isEmpty = false := by tauto
    have hvt : jsTrim v = v := by tauto
    have hvlt : noLT v = true := by tauto
    have hic : ',' ∉ i := not_mem_of_contains_false hic0
    have hmc : '}' ∉ m := not_mem_of_contains_false hmc0
    have hsn : renderRaw (some x) (some (i, m)) v =
        '(' :: (x ++ ')' :: ('{' :: (i ++ ',' :: (m ++ '}' :: v)))) := by
      simp [renderRaw]
    have hfc : findClose
        ('(' :: (x ++ ')' :: ('{' :: (i ++ ',' :: (m ++ '}' :: v)))))
        0 0 = some (x.length + 1) := by
      rw [← List.cons_append]
      exact findClose_formula x _ hbal
    rw [hsn]
    unfold parseProgressionValue
    rw [if_pos (show (('(' : Char) ::
      (x ++ ')' :: ('{' :: (i ++ ',' :: (m ++ '}' :: v))))).head? =
      some '(' from rfl)]
    rw [hfc]
    dsimp only
    rw [if_pos (Nat.succ_pos x.length)]
    have hdrop1 : (('(' : Char) ::
        (x ++ ')' :: ('{' :: (i ++ ',' :: (m ++ '}' :: v))))).drop 1 =
        x ++ ')' :: ('{' :: (i ++ ',' :: (m ++ '}' :: v))) := rfl
    have htake : (x ++ ')' ::
        ('{' :: (i ++ ',' :: (m ++ '}' :: v)))).take
        (x.length + 1 - 1) = x := by
      rw [Nat.add_sub_cancel]
      exact List.take_left x _
    have hdrop2 : (('(' : Char) ::
        (x ++ ')' :: ('{' :: (i ++ ',' :: (m ++ '}' :: v))))).drop
        (x.length + 1 + 1) = '{' :: (i ++ ',' :: (m ++ '}' :: v)) := by
      have hsplit : (('(' : Char) ::
          (x ++ ')' :: ('{' :: (i ++ ',' :: (m ++ '}' :: v))))) =
          ('(' :: x ++ [')']) ++ ('{' :: (i ++ ',' :: (m ++ '}' :: v)))
          := by simp
      have hlen : (('(' : Char) :: x ++ [')']).length = x.length + 1 + 1 := by
        simp
      rw [hsplit, ← hlen, List.drop_left]
    rw [hdrop1, htake, hdrop2, matchBounds_render i m v hic hmc hve hvlt]
    simp only [hxt, hit, hmt, hvt, Option.bind_some]
    rfl

/-- `jsOrU` followed by a default of the empty string is the identity. -/
theorem jsOrU_getD (s : List Char) : (jsOrU s).getD [] = s := by
  unfold jsOrU
  by_cases h : s.isEmpty = true
  · rw [if_pos h]
    cases s with
    | nil => rfl
    | cons a as => simp at h
  · rw [if_neg h]
    rfl

/-- `jsOrU` keeps a nonempty string. -/
theorem jsOrU_of_ne (s : List Char) (h : s.isEmpty = false) :
    jsOrU s = some s := by
  unfold jsOrU
  rw [if_neg (by simp [h])]

/-- Trimming the empty string. -/
theorem jsTrim_nil : jsTrim [] = [] := rfl

/-- A well-formed optional formula is truthy exactly when present. -/
theorem strTruthy_isSome_of_wfF (f : Option (List Char))
    (hF : (match f with | some x => wfFormula x | none => true) = true) :
    strTruthy f = f.isSome := by
  rcases f with _ | x
  · rfl
  · have hx : wfFormula x = true := hF
    simp only [wfFormula, Bool.and_eq_true, Bool.not_eq_true'] at hx
    simp only [strTruthy, Option.isSome_some, Bool.not_eq_true']
    tauto

/-- `formatProgressionValue` on the codec fields of grammar parts emits
exactly the rendered string. -/
theorem formatProgressionValue_renderRaw (f : Option (List Char))
    (b : Option (List Char × List Char)) (v : List Char)
    (hf : strTruthy f = f.isSome)
    (hb : ∀ p : List Char × List Char, b = some p →
      (p.1.isEmpty && p.2.isEmpty) = false)
    (i' m' : Option (List Char))
    (hi : i' = b.bind (fun im => jsOrU im.1))
    (hm : m' = b.bind (fun im => jsOrU im.2)) :
    formatProgressionValue v f i' m' = renderRaw f b v := by
  subst hi
  subst hm
  rcases b with _ | ⟨i, m⟩
  · simp only [Option.none_bind]
    rcases f with _ | x
    · simp [formatProgressionValue, renderRaw, strTruthy]
    · have hx : strTruthy (some x) = true := by rw [hf]; rfl
      simp [formatProgressionValue, renderRaw, hx]
  · have hbe : (i.isEmpty && m.isEmpty) = false := hb (i, m) rfl
    simp only [Option.some_bind]
    have hcond : (decide (jsOrU i ≠ none) || decide (jsOrU m ≠ none)) =
        true := by
      by_cases hie : i.isEmpty = true
      · have hme : m.isEmpty = false := by
          rw [hie] at hbe
          simpa using hbe
        rw [jsOrU_of_ne m hme]
        simp
      · have hif : i.isEmpty = false := by simpa using hie
        rw [jsOrU_of_ne i hif]
        simp
    rcases f with _ | x
    · simp only [formatProgressionValue]
      rw [if_pos hcond]
      rw [if_neg (show ¬(strTruthy (none : Option (List Char)) = true)
        from by simp [strTruthy])]
      rw [jsOrU_getD, jsOrU_getD]
      simp [renderRaw]
    · have hx : strTruthy (some x) = true := by rw [hf]; rfl
      simp only [formatProgressionValue]
      rw [if_pos hcond]
      rw [if_pos hx]
      rw [jsOrU_getD, jsOrU_getD]
      simp [renderRaw]

/-- **C5.** Amended round trip for the progression-value codec: format
after parse is the identity on well-formed rendered value strings (the
formula block, if present, is nonempty, trim-invariant and
depth-matched; the bounds block, if present, has trim-invariant sides
that are not both empty; the value is nonempty, trim-invariant and does
not fake a leading block), and parse after format is the identity on
codec fields whose present sides are nonempty and trim-invariant with
the same character restrictions. -/
theorem progressionValue_roundtrip :
    (∀ (f : Option (List Char)) (b : Option (List Char × List Char))
        (v : List Char), wfRender f b v = true →
      formatProgressionValue (parseProgressionValue (renderRaw f b v)).value
        (parseProgressionValue (renderRaw f b v)).progressionFormula
        (parseProgressionValue (renderRaw f b v)).initialValue
        (parseProgressionValue (renderRaw f b v)).maxValue =
        renderRaw f b v) ∧
    (∀ (v : List Char) (f i m : Option (List Char)),
        wfParts v f i m = true →
      parseProgressionValue (formatProgressionValue v f i m) =
        PVParts.mk v f i m) := by
  constructor
  · intro f b v hwf
    rw [parseProgressionValue_renderRaw f b v hwf]
    have hw := hwf
    simp only [wfRender, Bool.and_eq_true] at hw
    obtain ⟨⟨hF, hB⟩, hV⟩ := hw
    exact formatProgressionValue_renderRaw f b v
      (strTruthy_isSome_of_wfF f hF)
      (fun p hp => by
        subst hp
        have hB' : wfBounds p.1 p.2 = true := hB
        simp only [wfBounds, Bool.and_eq_true, Bool.not_eq_true'] at hB'
        tauto) _ _ rfl rfl
  · intro v f i m hwfp
    have hw := hwfp
    simp only [wfParts, Bool.and_eq_true] at hw
    obtain ⟨⟨⟨hF, hI⟩, hM⟩, hV⟩ := hw
    have hf : strTruthy f = f.isSome := strTruthy_isSome_of_wfF f hF
    rcases i with _ | a
    · rcases m with _ | c
      · rw [formatProgressionValue_renderRaw f none v hf
          (fun p hp => by cases hp) none none rfl rfl]
        rw [parseProgressionValue_renderRaw f none v
          (by
            simp only [wfRender, Bool.and_eq_true]
            exact ⟨⟨hF, trivial⟩, hV⟩)]
        rfl
      · have hM' : (!c.isEmpty && (jsTrim c == c) &&
            !(c.contains '}')) = true := hM
        simp only [Bool.and_eq_true, Bool.not_eq_true', beq_iff_eq] at hM'
        obtain ⟨⟨hce, hct⟩, hcb⟩ := hM'
        have hmeq : some c = ((some (([], c) : List Char × List Char)).bind
            (fun im => jsOrU im.2)) := by
          rw [Option.some_bind]
          exact (jsOrU_of_ne c hce).symm
        rw [formatProgressionValue_renderRaw f (some ([], c)) v hf
          (fun p hp => by
            injection hp with h
            subst h
            simp [hce]) none (some c) rfl hmeq]
        rw [parseProgressionValue_renderRaw f (some ([], c)) v
          (by
            simp only [wfRender, Bool.and_eq_true]
            refine ⟨⟨hF, ?_⟩, hV⟩
            show wfBounds [] c = true
            simp [wfBounds, hct, hce, jsTrim_nil,
              not_mem_of_contains_false hcb])]
        rw [← hmeq]
        rfl
    · have hI' : (!a.isEmpty && (jsTrim a == a) &&
          !(a.contains ',')) = true := hI
      simp only [Bool.and_eq_true, Bool.not_eq_true', beq_iff_eq] at hI'
      obtain ⟨⟨hae, hat⟩, hab⟩ := hI'
      have hieqa : some a = ((some ((a, []) : List Char × List Char)).bind
          (fun im => jsOrU im.1)) := by
        rw [Option.some_bind]
        exact (jsOrU_of_ne a hae).symm
      rcases m with _ | c
      · rw [formatProgressionValue_renderRaw f (some (a, [])) v hf
          (fun p hp => by
            injection hp with h
            subst h
            simp [hae]) (some a) none hieqa rfl]
        rw [parseProgressionValue_renderRaw f (some (a, [])) v
          (by
            simp only [wfRender, Bool.and_eq_true]
            refine ⟨⟨hF, ?_⟩, hV⟩
            show wfBounds a [] = true
            simp [wfBounds, hat, hae, jsTrim_nil,
              not_mem_of_contains_false hab])]
        rw [← hieqa]
        rfl
      · have hM' : (!c.isEmpty && (jsTrim c == c) &&
            !(c.contains '}')) = true := hM
        simp only [Bool.and_eq_true, Bool.not_eq_true', beq_iff_eq] at hM'
        obtain ⟨⟨hce, hct⟩, hcb⟩ := hM'
        have hieq : some a = ((some ((a, c) : List Char × List Char)).bind
            (fun im => jsOrU im.1)) := by
          rw [Option.some_bind]
          exact (jsOrU_of_ne a hae).symm
        have hmeq : some c = ((some ((a, c) : List Char × List Char)).bind
            (fun im => jsOrU im.2)) := by
          rw [Option.some_bind]
          exact (jsOrU_of_ne c hce).symm
        rw [formatProgressionValue_renderRaw f (some (a, c)) v hf
          (fun p hp => by
            injection hp with h
            subst h
            simp [hae]) (some a) (some c) hieq hmeq]
        rw [parseProgressionValue_renderRaw f (some (a, c)) v
          (by
            simp only [wfRender, Bool.and_eq_true]
            refine ⟨⟨hF, ?_⟩, hV⟩
            show wfBounds a c = true
            simp [wfBounds, hat, hct, hae,
              not_mem_of_contains_false hab,
              not_mem_of_contains_false hcb])]
        rw [← hieq, ← hmeq]

/-- **C5 witness.** Both round-trip directions at the concrete value
`(r+1){8,12}8`. -/
theorem progressionValue_roundtrip_witness :
    (formatProgressionValue
      (parseProgressionValue (renderRaw (some ("r+1".toList))
        (some ("8".toList, "12".toList)) ("8".toList))).value
      (parseProgressionValue (renderRaw (some ("r+1".toList))
        (some ("8".toList, "12".toList)) ("8".toList))).progressionFormula
      (parseProgressionValue (renderRaw (some ("r+1".toList))
        (some ("8".toList, "12".toList)) ("8".toList))).initialValue
      (parseProgressionValue (renderRaw (some ("r+1".toList))
        (some ("8".toList, "12".toList)) ("8".toList))).maxValue =
      renderRaw (some ("r+1".toList))
        (some ("8".toList, "12".toList)) ("8".toList)) ∧
    (parseProgressionValue (formatProgressionValue ("8".toList)
        (some ("r+1".toList)) (some ("8".toList)) (some ("12".toList))) =
      PVParts.mk ("8".toList) (some ("r+1".toList)) (some ("8".toList))
        (some ("12".toList))) :=
  ⟨progressionValue_roundtrip.1 (some ("r+1".toList))
      (some ("8".toList, "12".toList)) ("8".toList) (by decide),
    progressionValue_roundtrip.2 ("8".toList) (some ("r+1".toList))
      (some ("8".toList)) (some ("12".toList)) (by decide)⟩

/-- Printable ASCII characters other than the space are not JS
whitespace. -/
theorem jsIsWs_false_of_ascii (c : Char) (h1 : 33 ≤ c.toNat)
    (h2 : c.toNat ≤ 126) : jsIsWs c = false := by
  rw [Bool.eq_false_iff]
  intro hw
  simp only [jsIsWs, Bool.or_eq_true, Bool.and_eq_true, decide_eq_true_eq]
    at hw
  rcases hw with
    ((((((((((((((h|h)|h)|h)|h)|h)|h)|h)|⟨ha,hb⟩)|h)|h)|h)|h)|h)|h)
  · exact absurd (h ▸ h1) (by decide)
  · exact absurd (h ▸ h1) (by decide)
  · exact absurd (h ▸ h1) (by decide)
  · exact absurd (h ▸ h1) (by decide)
  all_goals omega

/-- Printable ASCII characters (space included) are not line
terminators. -/
theorem isLineTerm_false_of_ascii (c : Char) (h1 : 32 ≤ c.toNat)
    (h2 : c.toNat ≤ 126) : isLineTerm c = false := by
  rw [Bool.eq_false_iff]
  intro hw
  simp only [isLineTerm, Bool.or_eq_true, decide_eq_true_eq] at hw
  rcases hw with ((h|h)|h)|h
  · exact absurd (h ▸ h1) (by decide)
  · exact absurd (h ▸ h1) (by decide)
  all_goals omega

/-- Decimal digit characters have ASCII codes 48-57. -/
theorem isDigit_toNat (c : Char) (h : c.isDigit = true) :
    48 ≤ c.toNat ∧ c.toNat ≤ 57 := by
  simp only [Char.isDigit, Bool.and_eq_true, decide_eq_true_eq] at h
  obtain ⟨h1, h2⟩ := h
  exact ⟨h1, h2⟩

/-- A digit character is not whitespace. -/
theorem jsIsWs_false_of_digit (c : Char) (h : c.isDigit = true) :
    jsIsWs c = false := by
  obtain ⟨h1, h2⟩ := isDigit_toNat c h
  exact jsIsWs_false_of_ascii c (by omega) (by omega)

/-- A digit character is not a line terminator. -/
theorem isLineTerm_false_of_digit (c : Char) (h : c.isDigit = true) :
    isLineTerm c = false := by
  obtain ⟨h1, h2⟩ := isDigit_toNat c h
  exact isLineTerm_false_of_ascii c (by omega) (by omega)

/-- `Nat.digitChar` of a value below ten decodes back to that value. -/
theorem digitChar_sub_val : ∀ r : Nat, r < 10 →
    (Nat.digitChar r).toNat - ('0').toNat = r := by decide

/-- `Nat.digitChar` of a value below ten is a digit character. -/
theorem digitChar_isDigit : ∀ r : Nat, r < 10 →
    (Nat.digitChar r).isDigit = true := by decide

/-- `Nat.toDigitsCore` with a seed list appends to the empty-seed run. -/
theorem toDigitsCore_append :
    ∀ (fuel n : Nat) (ds : List Char),
      Nat.toDigitsCore 10 fuel n ds = Nat.toDigitsCore 10 fuel n [] ++ ds := by
  intro fuel
  induction fuel with
  | zero => intro n ds; simp [Nat.toDigitsCore]
  | succ fuel ih =>
    intro n ds
    simp only [Nat.toDigitsCore]
    by_cases h : n / 10 = 0
    · rw [if_pos h, if_pos h]
      simp
    · rw [if_neg h, if_neg h]
      rw [ih (n / 10) (Nat.digitChar (n % 10) :: ds),
        ih (n / 10) [Nat.digitChar (n % 10)]]
      simp

/-- Reading one more digit multiplies the accumulated value by ten. -/
theorem digitsToNat_append_singleton (l : List Char) (c : Char) :
    digitsToNat (l ++ [c]) = digitsToNat l * 10 + (c.toNat - ('0').toNat) := by
  unfold digitsToNat
  rw [List.foldl_append]
  rfl

/-- `Nat.toDigitsCore` with enough fuel emits the nonempty decimal digit
string of its input. -/
theorem toDigitsCore_spec :
    ∀ (fuel n : Nat), n < fuel →
      digitsToNat (Nat.toDigitsCore 10 fuel n []) = n ∧
      (Nat.toDigitsCore 10 fuel n []).all Char.isDigit = true ∧
      (Nat.toDigitsCore 10 fuel n []).isEmpty = false := by
  intro fuel
  induction fuel with
  | zero => intro n h; exact absurd h (Nat.not_lt_zero n)
  | succ fuel ih =>
    intro n h
    simp only [Nat.toDigitsCore]
    by_cases h0 : n / 10 = 0
    · rw [if_pos h0]
      refine ⟨?_, ?_, rfl⟩
      · show digitsToNat ([] ++ [Nat.digitChar (n % 10)]) = n
        rw [digitsToNat_append_singleton,
          digitChar_sub_val (n % 10) (Nat.mod_lt n (by norm_num))]
        rw [show digitsToNat ([] : List Char) = 0 from rfl]
        omega
      · simp [digitChar_isDigit (n % 10) (Nat.mod_lt n (by norm_num))]
    · rw [if_neg h0]
      have hlt : n / 10 < fuel := by omega
      obtain ⟨ih1, ih2, ih3⟩ := ih (n / 10) hlt
      rw [toDigitsCore_append fuel (n / 10) [Nat.digitChar (n % 10)]]
      refine ⟨?_, ?_, ?_⟩
      · rw [digitsToNat_append_singleton, ih1,
          digitChar_sub_val (n % 10) (Nat.mod_lt n (by norm_num))]
        omega
      · rw [List.all_append, ih2]
        simp [digitChar_isDigit (n % 10) (Nat.mod_lt n (by norm_num))]
      · cases hc : Nat.toDigitsCore 10 fuel (n / 10) [] with
        | nil => rw [hc] at ih3; simp at ih3
        | cons a t => simp

/-- The decimal rendering of a natural number parses back to it. -/
theorem digitsToNat_natToDecimal (n : Nat) :
    digitsToNat (natToDecimal n) = n :=
  (toDigitsCore_spec (n + 1) n (Nat.lt_succ_self n)).1

/-- The decimal rendering of a natural number is a nonempty digit
string. -/
theorem natToDecimal_isDigits (n : Nat) : isDigits (natToDecimal n) = true := by
  obtain ⟨_, h2, h3⟩ := toDigitsCore_spec (n + 1) n (Nat.lt_succ_self n)
  simp only [isDigits, Bool.and_eq_true, Bool.not_eq_true']
  exact ⟨h3, h2⟩

/-- The head of a whitespace-drop result is not whitespace. -/
theorem head_dropWhile_ws : ∀ (l : List Char) (c : Char),
    (l.dropWhile jsIsWs).head? = some c → jsIsWs c = false := by
  intro l
  induction l with
  | nil => intro c hc; cases hc
  | cons a t ih =>
    intro c hc
    rw [List.dropWhile_cons] at hc
    by_cases ha : jsIsWs a = true
    · rw [if_pos ha] at hc
      exact ih c hc
    · rw [if_neg ha] at hc
      rw [List.head?_cons] at hc
      injection hc with hac
      rw [← hac]
      exact Bool.not_eq_true _ ▸ ha

/-- Dropping leading whitespace never lengthens a string. -/
theorem length_dropWhile_ws_le : ∀ l : List Char,
    (l.dropWhile jsIsWs).length ≤ l.length := by
  intro l
  induction l with
  | nil => simp
  | cons a t ih =>
    rw [List.dropWhile_cons]
    by_cases ha : jsIsWs a = true
    · rw [if_pos ha]
      exact le_trans ih (by simp)
    · rw [if_neg ha]

/-- A whitespace drop that keeps the length keeps the string. -/
theorem dropWhile_ws_len_eq (l : List Char)
    (h : (l.dropWhile jsIsWs).length = l.length) : l.dropWhile jsIsWs = l := by
  cases l with
  | nil => rfl
  | cons a t =>
    rw [List.dropWhile_cons] at h ⊢
    by_cases ha : jsIsWs a = true
    · rw [if_pos ha] at h
      have := length_dropWhile_ws_le t
      rw [List.length_cons] at h
      omega
    · rw [if_neg ha]

/-- Trimming drops a leading whitespace character. -/
theorem jsTrim_cons_ws (c : Char) (x : List Char) (h : jsIsWs c = true) :
    jsTrim (c :: x) = jsTrim x := by
  unfold jsTrim
  rw [List.dropWhile_cons, if_pos h]

/-- Dropping trailing whitespace never lengthens a string. -/
theorem length_dropTrailWs_le (l : List Char) :
    (dropTrailWs l).length ≤ l.length := by
  unfold dropTrailWs
  rw [List.length_reverse]
  have := length_dropWhile_ws_le l.reverse
  rw [List.length_reverse] at this
  exact this

/-- Trimming never lengthens a string. -/
theorem jsTrim_length_le (l : List Char) : (jsTrim l).length ≤ l.length := by
  unfold jsTrim
  exact le_trans (length_dropTrailWs_le _) (length_dropWhile_ws_le l)

/-- A string is its trailing-whitespace drop followed by the dropped
whitespace run. -/
theorem dropTrailWs_decomp (y : List Char) :
    y = dropTrailWs y ++ (y.reverse.takeWhile jsIsWs).reverse := by
  unfold dropTrailWs
  conv_lhs => rw [← List.reverse_reverse y,
    ← List.takeWhile_append_dropWhile jsIsWs y.reverse]
  rw [List.reverse_append]

/-- The head survives a trailing-whitespace drop. -/
theorem head_dropTrailWs (y : List Char) (c : Char)
    (h : (dropTrailWs y).head? = some c) : y.head? = some c := by
  conv_lhs => rw [dropTrailWs_decomp y]
  rw [List.head?_append, h]
  rfl

/-- The head of a trimmed string is not whitespace. -/
theorem head_jsTrim_nonws (l : List Char) (c : Char)
    (h : (jsTrim l).head? = some c) : jsIsWs c = false := by
  unfold jsTrim at h
  exact head_dropWhile_ws l c (head_dropTrailWs _ c h)

/-- The last character of a trimmed string is not whitespace. -/
theorem getLast_jsTrim_nonws (l : List Char) (c : Char)
    (h : (jsTrim l).getLast? = some c) : jsIsWs c = false := by
  unfold jsTrim dropTrailWs at h
  rw [List.getLast?_reverse] at h
  exact head_dropWhile_ws _ c h

/-- A string whose ends are not whitespace is trim-invariant. -/
theorem jsTrim_eq_self_of (x : List Char)
    (hh : ∀ c, x.head? = some c → jsIsWs c = false)
    (hl : ∀ c, x.getLast? = some c → jsIsWs c = false) : jsTrim x = x := by
  cases x with
  | nil => rfl
  | cons a t =>
    have ha : jsIsWs a = false := hh a rfl
    unfold jsTrim dropTrailWs
    rw [List.dropWhile_cons, if_neg (by simp [ha])]
    cases hr : (a :: t).reverse with
    | nil => exact absurd hr (by simp)
    | cons b r =>
      have hb : (a :: t).getLast? = some b := by
        rw [← List.head?_reverse, hr]
        rfl
      have hbw : jsIsWs b = false := hl b hb
      rw [List.dropWhile_cons, if_neg (by simp [hbw]), ← hr,
        List.reverse_reverse]

/-- Trimming is idempotent. -/
theorem jsTrim_idem (l : List Char) : jsTrim (jsTrim l) = jsTrim l :=
  jsTrim_eq_self_of (jsTrim l) (head_jsTrim_nonws l) (getLast_jsTrim_nonws l)

/-- The head of a trim-invariant string is not whitespace. -/
theorem head_nonws_of_jsTrim_eq (l : List Char) (c : Char)
    (ht : jsTrim l = l) (hc : l.head? = some c) : jsIsWs c = false :=
  head_jsTrim_nonws l c (by rw [ht]; exact hc)

/-- The last character of a trim-invariant string is not whitespace. -/
theorem last_nonws_of_jsTrim_eq (l : List Char) (c : Char)
    (ht : jsTrim l = l) (hc : l.getLast? = some c) : jsIsWs c = false :=
  getLast_jsTrim_nonws l c (by rw [ht]; exact hc)

/-- Characters of a trimmed string come from the original string. -/
theorem mem_of_mem_jsTrim {c : Char} {l : List Char} (h : c ∈ jsTrim l) :
    c ∈ l := by
  unfold jsTrim dropTrailWs at h
  rw [List.mem_reverse] at h
  have h2 := (List.dropWhile_sublist jsIsWs).subset h
  rw [List.mem_reverse] at h2
  exact (List.dropWhile_sublist jsIsWs).subset h2

/-- `noLT` transfers along character containment. -/
theorem noLT_sub {y x : List Char} (hsub : ∀ c, c ∈ y → c ∈ x)
    (hx : noLT x = true) : noLT y = true := by
  unfold noLT at hx ⊢
  rw [List.all_eq_true] at hx ⊢
  exact fun c hc => hx c (hsub c hc)

/-- Trimming preserves the absence of line terminators. -/
theorem noLT_jsTrim {l : List Char} (h : noLT l = true) :
    noLT (jsTrim l) = true :=
  noLT_sub (fun _ hc => mem_of_mem_jsTrim hc) h

/-- `splitFirst` finds nothing when the separator does not occur. -/
theorem splitFirst_none (c : Char) :
    ∀ l : List Char, c ∉ l → splitFirst c l = none := by
  intro l
  induction l with
  | nil => intro _; rfl
  | cons x xs ih =>
    intro hc
    have hx : ¬x = c := fun h => hc (h ▸ List.mem_cons_self x xs)
    rw [splitFirst, if_neg hx, ih (fun h => hc (List.mem_cons_of_mem x h))]

/-- `splitOnChar` without the separator present is a single field. -/
theorem splitOnChar_no (c : Char) :
    ∀ a : List Char, c ∉ a → splitOnChar c a = [a] := by
  intro a
  induction a with
  | nil => intro _; rfl
  | cons x xs ih =>
    intro hc
    have hx : ¬x = c := fun h => hc (h ▸ List.mem_cons_self x xs)
    rw [splitOnChar, if_neg hx, ih (fun h => hc (List.mem_cons_of_mem x h))]

/-- `splitOnChar` peels the field before the first separator. -/
theorem splitOnChar_sep (c : Char) :
    ∀ (a b : List Char), c ∉ a →
      splitOnChar c (a ++ c :: b) = a :: splitOnChar c b := by
  intro a
  induction a with
  | nil =>
    intro b _
    show splitOnChar c (c :: b) = [] :: splitOnChar c b
    rw [splitOnChar, if_pos rfl]
  | cons x xs ih =>
    intro b hc
    have hx : ¬x = c := fun h => hc (h ▸ List.mem_cons_self x xs)
    rw [List.cons_append, splitOnChar, if_neg hx,
      ih b (fun h => hc (List.mem_cons_of_mem x h))]

/-- `splitOnChar` always produces at least one field. -/
theorem splitOnChar_ne_nil (c : Char) : ∀ l : List Char,
    splitOnChar c l ≠ [] := by
  intro l
  induction l with
  | nil => simp [splitOnChar]
  | cons x xs ih =>
    rw [splitOnChar]
    by_cases hx : x = c
    · rw [if_pos hx]
      simp
    · rw [if_neg hx]
      cases hs : splitOnChar c xs with
      | nil => exact absurd hs ih
      | cons a rest => simp

/-- The whitespace-split worker consumes a whitespace-free run into the
current field. -/
theorem jsSplitWsGo_word :
    ∀ (w : List Char), (∀ c ∈ w, jsIsWs c = false) →
      ∀ (cur r : List Char),
        jsSplitWsGo (some cur) (w ++ r) =
          jsSplitWsGo (some (w.reverse ++ cur)) r := by
  intro w
  induction w with
  | nil => intro _ cur r; simp
  | cons c t ih =>
    intro hw cur r
    have hc : jsIsWs c = false := hw c (List.mem_cons_self c t)
    rw [List.cons_append]
    show (if jsIsWs c then (cur.reverse :: jsSplitWsGo none (t ++ r))
      else jsSplitWsGo (some (c :: cur)) (t ++ r)) = _
    rw [if_neg (by simp [hc])]
    rw [ih (fun d hd => hw d (List.mem_cons_of_mem c hd)) (c :: cur) r]
    have : (c :: t).reverse ++ cur = t.reverse ++ c :: cur := by simp
    rw [this]

/-- A whitespace-free string splits into itself alone. -/
theorem jsSplitWs_single (w : List Char) (hw : ∀ c ∈ w, jsIsWs c = false) :
    jsSplitWs w = [w] := by
  unfold jsSplitWs
  rw [show w = w ++ [] by simp] at hw ⊢
  rw [jsSplitWsGo_word w (by simpa using hw) [] []]
  simp [jsSplitWsGo]

/-- After a whitespace run, the worker in separator mode agrees with a
fresh split when the rest does not start with whitespace. -/
theorem jsSplitWsGo_none_eq (u : List Char)
    (hh : ∀ c, u.head? = some c → jsIsWs c = false) :
    jsSplitWsGo none u = jsSplitWs u := by
  cases u with
  | nil => rfl
  | cons c t =>
    have hc : jsIsWs c = false := hh c rfl
    show (if jsIsWs c then jsSplitWsGo none t
      else jsSplitWsGo (some [c]) t) = jsSplitWs (c :: t)
    rw [if_neg (by simp [hc])]
    show _ = (if jsIsWs c then ([] : List Char).reverse :: jsSplitWsGo none t
      else jsSplitWsGo (some [c]) t)
    rw [if_neg (by simp [hc])]

/-- The whitespace-split worker on a field-mode step. -/
theorem jsSplitWsGo_step_some (cur : List Char) (c : Char) (r : List Char) :
    jsSplitWsGo (some cur) (c :: r) =
      if jsIsWs c then cur.reverse :: jsSplitWsGo none r
      else jsSplitWsGo (some (c :: cur)) r := rfl

/-- The whitespace-split worker on a separator-mode step. -/
theorem jsSplitWsGo_step_none (c : Char) (r : List Char) :
    jsSplitWsGo none (c :: r) =
      if jsIsWs c then jsSplitWsGo none r
      else jsSplitWsGo (some [c]) r := rfl

/-- Splitting a word, a space, then a rest whose head is not whitespace. -/
theorem jsSplitWs_word_space (w u : List Char)
    (hw : ∀ c ∈ w, jsIsWs c = false)
    (hu : ∀ c, u.head? = some c → jsIsWs c = false) :
    jsSplitWs (w ++ ' ' :: u) = w :: jsSplitWs u := by
  unfold jsSplitWs
  rw [jsSplitWsGo_word w hw [] (' ' :: u)]
  rw [jsSplitWsGo_step_some]
  rw [if_pos (by decide : jsIsWs ' ' = true)]
  rw [jsSplitWsGo_none_eq u hu]
  simp [jsSplitWs]

/-- All fields of the whitespace split are nonempty provided the current
field is and the input does not end in whitespace. -/
theorem jsSplitWsGo_nonempty :
    ∀ (l : List Char) (mode : Option (List Char)),
      (∀ c, l.getLast? = some c → jsIsWs c = false) →
      (match mode with | some cur => cur ≠ [] | none => l ≠ []) →
      (jsSplitWsGo mode l).all (fun w => !w.isEmpty) = true := by
  intro l
  induction l with
  | nil =>
    intro mode hlast hm
    match mode with
    | some cur =>
      show ([cur.reverse].all (fun w => !w.isEmpty)) = true
      simp only [List.all_cons, List.all_nil, Bool.and_true,
        Bool.not_eq_true']
      cases hc : cur with
      | nil => exact absurd hc hm
      | cons a t => simp
    | none => exact absurd rfl hm
  | cons c t ih =>
    intro mode hlast hm
    have hlast' : ∀ d, t.getLast? = some d → jsIsWs d = false := by
      intro d hd
      apply hlast
      cases t with
      | nil => cases hd
      | cons x xs => rw [List.getLast?_cons_cons]; exact hd
    have htne : jsIsWs c = true → t ≠ [] := by
      intro hc ht
      subst ht
      have := hlast c rfl
      rw [hc] at this
      exact Bool.noConfusion this
    match mode with
    | some cur =>
      show (if jsIsWs c then (cur.reverse :: jsSplitWsGo none t)
        else jsSplitWsGo (some (c :: cur)) t).all (fun w => !w.isEmpty) = true
      by_cases hc : jsIsWs c = true
      · rw [if_pos (by simp [hc])]
        rw [List.all_cons]
        have h1 : (!cur.reverse.isEmpty) = true := by
          cases hcur : cur with
          | nil => exact absurd hcur hm
          | cons a u => simp
        rw [h1, Bool.true_and]
        exact ih none hlast' (htne hc)
      · rw [if_neg (by simp [hc])]
        exact ih (some (c :: cur)) hlast' (by simp)
    | none =>
      show (if jsIsWs c then jsSplitWsGo none t
        else jsSplitWsGo (some [c]) t).all (fun w => !w.isEmpty) = true
      by_cases hc : jsIsWs c = true
      · rw [if_pos (by simp [hc])]
        exact ih none hlast' (htne hc)
      · rw [if_neg (by simp [hc])]
        exact ih (some [c]) hlast' (by simp)

/-- The whitespace split of a nonempty trim-invariant string has only
nonempty fields. -/
theorem jsSplitWs_nonempty_fields (l : List Char) (hne : l ≠ [])
    (ht : jsTrim l = l) :
    (jsSplitWs l).all (fun w => !w.isEmpty) = true := by
  cases l with
  | nil => exact absurd rfl hne
  | cons c t =>
    have hc : jsIsWs c = false := head_nonws_of_jsTrim_eq _ c ht rfl
    have hlast : ∀ d, (c :: t).getLast? = some d → jsIsWs d = false :=
      fun d hd => last_nonws_of_jsTrim_eq _ d ht hd
    show (if jsIsWs c then (([] : List Char).reverse :: jsSplitWsGo none t)
      else jsSplitWsGo (some [c]) t).all (fun w => !w.isEmpty) = true
    rw [if_neg (by simp [hc])]
    have hlast' : ∀ d, t.getLast? = some d → jsIsWs d = false := by
      intro d hd
      apply hlast
      cases t with
      | nil => cases hd
      | cons x xs => rw [List.getLast?_cons_cons]; exact hd
    exact jsSplitWsGo_nonempty t (some [c]) hlast' (by simp)

/-- The head of a space-join of a nonempty first word. -/
theorem head_joinSpace (w : List Char) (ws : List (List Char)) :
    w ≠ [] → (joinSpace (w :: ws)).head? = w.head? := by
  intro hw
  cases ws with
  | nil => rfl
  | cons w2 rest =>
    show (w ++ ' ' :: joinSpace (w2 :: rest)).head? = w.head?
    rw [List.head?_append]
    cases w with
    | nil => exact absurd rfl hw
    | cons a t => rfl

/-- Splitting a space-join of nonempty whitespace-free words recovers the
words. -/
theorem jsSplitWs_joinSpace :
    ∀ wl : List (List Char), wl ≠ [] →
      (∀ w ∈ wl, w ≠ [] ∧ ∀ c ∈ w, jsIsWs c = false) →
      jsSplitWs (joinSpace wl) = wl := by
  intro wl
  induction wl with
  | nil => intro h _; exact absurd rfl h
  | cons w rest ih =>
    intro _ hall
    cases rest with
    | nil =>
      show jsSplitWs w = [w]
      exact jsSplitWs_single w (hall w (List.mem_cons_self w [])).2
    | cons w2 rest2 =>
      show jsSplitWs (w ++ ' ' :: joinSpace (w2 :: rest2)) = w :: w2 :: rest2
      rw [jsSplitWs_word_space w (joinSpace (w2 :: rest2))
        (hall w (List.mem_cons_self w _)).2
        (by
          intro c hc
          have hw2 := hall w2 (List.mem_cons_of_mem w (List.mem_cons_self w2 _))
          rw [head_joinSpace w2 rest2 hw2.1] at hc
          exact hw2.2 c (List.mem_of_mem_head? hc))]
      rw [ih (by simp) (fun w hw => hall w (List.mem_cons_of_mem _ hw))]

/-- `storedParams` distributes over cons. -/
theorem storedParams_cons (s : List Char) (rest : List (List Char)) :
    storedParams (s :: rest) = (storedOf s).toList ++ storedParams rest := by
  cases hs : storedOf s <;>
    simp [storedParams, List.filterMap_cons, hs]

/-- One parameter-loop step appends the stored contribution and applies
the duration update. -/
theorem exFoldStep_factor (acc : ExAcc) (s : List Char) :
    (exFoldStep acc s).params = acc.params ++ (storedOf s).toList ∧
    ((exFoldStep acc s).targetDuration,
      (exFoldStep acc s).recordedDuration) =
      (storedOf s).toList.foldl durStep
        (acc.targetDuration, acc.recordedDuration) := by
  unfold exFoldStep storedOf
  cases hpp : parseParam s with
  | none => exact ⟨by simp, rfl⟩
  | some param =>
    dsimp only
    by_cases hr : lowerStr param.key = kwRest
    · rw [if_pos hr, if_pos hr]
      by_cases hev : (param.editable && !param.value.isEmpty) = true
      · rw [if_pos hev]
        exact ⟨by simp, rfl⟩
      · rw [if_neg hev]
        exact ⟨by simp, rfl⟩
    · rw [if_neg hr, if_neg hr]
      by_cases hd : lowerStr param.key = kwDuration
      · rw [if_pos hd]
        by_cases he : param.editable = true
        · rw [if_pos he]
          refine ⟨rfl, ?_⟩
          show (some (parseDurationToSeconds param.value),
            acc.recordedDuration) = durStep
            (acc.targetDuration, acc.recordedDuration) param
          unfold durStep
          rw [if_pos hd, if_pos he]
        · rw [if_neg he]
          refine ⟨rfl, ?_⟩
          show (acc.targetDuration, some (param.value ++
            (if strTruthy param.unit then ' ' :: param.unit.getD []
              else []))) = durStep
            (acc.targetDuration, acc.recordedDuration) param
          unfold durStep
          rw [if_pos hd, if_neg he]
      · rw [if_neg hd]
        refine ⟨rfl, ?_⟩
        show (acc.targetDuration, acc.recordedDuration) = durStep
          (acc.targetDuration, acc.recordedDuration) param
        unfold durStep
        rw [if_neg hd]

/-- The parameter loop splits into the stored-parameter list, the
duration fold over it, and the rest fold. -/
theorem exFold_factor :
    ∀ (segs : List (List Char)) (acc : ExAcc),
      (segs.foldl exFoldStep acc).params = acc.params ++ storedParams segs ∧
      ((segs.foldl exFoldStep acc).targetDuration,
        (segs.foldl exFoldStep acc).recordedDuration) =
        (storedParams segs).foldl durStep
          (acc.targetDuration, acc.recordedDuration) := by
  intro segs
  induction segs with
  | nil => intro acc; exact ⟨by simp [storedParams], rfl⟩
  | cons s rest ih =>
    intro acc
    simp only [List.foldl_cons]
    obtain ⟨ih1, ih2⟩ := ih (exFoldStep acc s)
    obtain ⟨h1, h2⟩ := exFoldStep_factor acc s
    refine ⟨?_, ?_⟩
    · rw [ih1, h1, storedParams_cons, List.append_assoc]
    · rw [ih2, h2, storedParams_cons, List.foldl_append]

/-- A `getLast?` value is a member. -/
theorem mem_of_getLast?_eq {l : List Char} {c : Char}
    (h : l.getLast? = some c) : c ∈ l := by
  rw [List.getLast?_eq_head?_reverse] at h
  have hm : c ∈ l.reverse.head? := Option.mem_def.mpr h
  have := List.mem_of_mem_head? hm
  rwa [List.mem_reverse] at this

/-- A whitespace-free string is trim-invariant. -/
theorem jsTrim_eq_self_of_ws_free (l : List Char)
    (h : ∀ c ∈ l, jsIsWs c = false) : jsTrim l = l :=
  jsTrim_eq_self_of l
    (fun c hc => h c (List.mem_of_mem_head? (Option.mem_def.mpr hc)))
    (fun c hc => h c (mem_of_getLast?_eq hc))

/-- A successful `splitFirst` decomposes its input at the first
occurrence of the separator. -/
theorem splitFirst_eq_some (c : Char) :
    ∀ (l a b : List Char), splitFirst c l = some (a, b) →
      l = a ++ c :: b ∧ c ∉ a := by
  intro l
  induction l with
  | nil => intro a b h; cases h
  | cons x xs ih =>
    intro a b h
    rw [splitFirst] at h
    by_cases hx : x = c
    · rw [if_pos hx] at h
      injection h with h'
      injection h' with h1 h2
      refine ⟨?_, ?_⟩
      · rw [← h1, ← h2, hx]
        rfl
      · rw [← h1]
        exact List.not_mem_nil c
    · rw [if_neg hx] at h
      cases hs : splitFirst c xs with
      | none => rw [hs] at h; cases h
      | some ab =>
        rw [hs] at h
        obtain ⟨a', b'⟩ := ab
        injection h with h'
        injection h' with h1 h2
        obtain ⟨hxs, hna⟩ := ih a' b' hs
        rw [← h1, ← h2, hxs]
        refine ⟨rfl, ?_⟩
        intro hmem
        rcases List.mem_cons.mp hmem with h | h
        · exact hx h.symm
        · exact hna h
    
/-- A successful `matchBounds` decomposes its input as a bounds block
followed by a nonempty value. -/
theorem matchBounds_eq_some (s i m v : List Char)
    (h : matchBounds s = some (i, m, v)) :
    s = '{' :: (i ++ ',' :: (m ++ '}' :: v)) ∧ ',' ∉ i ∧
      '}' ∉ m ∧ v.isEmpty = false ∧ noLT v = true := by
  cases s with
  | nil => cases h
  | cons c rest =>
    by_cases hc : c = '{'
    · subst hc
      rw [show matchBounds ('{' :: rest) = (match splitFirst ',' rest with
        | none => none
        | some (iRaw, rest2) =>
          match splitFirst '}' rest2 with
          | none => none
          | some (mRaw, vRaw) =>
            if !vRaw.isEmpty && noLT vRaw then some (iRaw, mRaw, vRaw)
            else none) from rfl] at h
      cases hs1 : splitFirst ',' rest with
      | none => rw [hs1] at h; cases h
      | some ir =>
        obtain ⟨iRaw, rest2⟩ := ir
        rw [hs1] at h
        dsimp only at h
        cases hs2 : splitFirst '}' rest2 with
        | none => rw [hs2] at h; cases h
        | some mv =>
          obtain ⟨mRaw, vRaw⟩ := mv
          rw [hs2] at h
          dsimp only at h
          by_cases hgood : (!vRaw.isEmpty && noLT vRaw) = true
          · rw [if_pos hgood] at h
            injection h with h'
            injection h' with h1 h'2
            injection h'2 with h2 h3
            subst h1
            subst h2
            subst h3
            obtain ⟨he1, hn1⟩ := splitFirst_eq_some ',' rest iRaw rest2 hs1
            obtain ⟨he2, hn2⟩ := splitFirst_eq_some '}' rest2 mRaw vRaw hs2
            simp only [Bool.and_eq_true, Bool.not_eq_true'] at hgood
            exact ⟨by rw [he1, he2], hn1, hn2, hgood.1, hgood.2⟩
          · rw [if_neg hgood] at h
            cases h
    · rw [matchBounds_none (c :: rest) (by simpa using hc)] at h
      cases h

/-- `jsOrU` returns `some` exactly on a nonempty string, unchanged. -/
theorem jsOrU_eq_some (t x : List Char) (h : jsOrU t = some x) :
    x = t ∧ t.isEmpty = false := by
  unfold jsOrU at h
  by_cases ht : t.isEmpty = true
  · rw [if_pos ht] at h
    cases h
  · rw [if_neg ht] at h
    injection h with h'
    exact ⟨h'.symm, Bool.not_eq_true _ ▸ ht⟩

/-- Characters of `jsOrU t` (with empty default) come from `t`. -/
theorem mem_jsOrU_getD {t : List Char} {c : Char}
    (h : c ∈ (jsOrU t).getD []) : c ∈ t := by
  unfold jsOrU at h
  by_cases he : t.isEmpty = true
  · rw [if_pos he] at h
    simp at h
  · rw [if_neg he] at h
    exact h

/-- Characters of the captures of `matchBounds` come from its input. -/
theorem mem_of_matchBounds {X iRaw mRaw vRaw : List Char} {c : Char}
    (hmb : matchBounds X = some (iRaw, mRaw, vRaw))
    (hm : c ∈ iRaw ∨ c ∈ mRaw ∨ c ∈ vRaw) : c ∈ X := by
  obtain ⟨hx, _⟩ := matchBounds_eq_some X iRaw mRaw vRaw hmb
  rw [hx]
  rcases hm with h | h | h <;> simp [h]

/-- Characters of the no-formula codec block come from its input. -/
theorem mem_pvChars_plain (s : List Char) (c : Char)
    (h : c ∈ pvChars (match matchBounds s with
      | some (iRaw, mRaw, vRaw) =>
        PVParts.mk (jsTrim vRaw) none (jsOrU (jsTrim iRaw))
          (jsOrU (jsTrim mRaw))
      | none => PVParts.mk s none none none)) : c ∈ s := by
  cases hmb : matchBounds s with
  | none =>
    rw [hmb] at h
    dsimp only at h
    simpa [pvChars] using h
  | some imv =>
    obtain ⟨iRaw, mRaw, vRaw⟩ := imv
    rw [hmb] at h
    dsimp only at h
    simp only [pvChars, List.mem_append] at h
    rcases h with ((h | h) | h) | h
    · exact mem_of_matchBounds hmb (Or.inr (Or.inr (mem_of_mem_jsTrim h)))
    · simp at h
    · exact mem_of_matchBounds hmb
        (Or.inl (mem_of_mem_jsTrim (mem_jsOrU_getD h)))
    · exact mem_of_matchBounds hmb
        (Or.inr (Or.inl (mem_of_mem_jsTrim (mem_jsOrU_getD h))))

/-- Every character of a codec result comes from the parsed string. -/
theorem mem_pvChars_parse (s : List Char) (c : Char)
    (h : c ∈ pvChars (parseProgressionValue s)) : c ∈ s := by
  unfold parseProgressionValue at h
  by_cases hhead : s.head? = some '('
  · rw [if_pos hhead] at h
    cases hfc : findClose s 0 0 with
    | none =>
      rw [hfc] at h
      dsimp only at h
      exact mem_pvChars_plain s c h
    | some fe =>
      rw [hfc] at h
      dsimp only at h
      by_cases hfe : fe > 0
      · rw [if_pos hfe] at h
        cases hmb : matchBounds (s.drop (fe + 1)) with
        | none =>
          rw [hmb] at h
          dsimp only at h
          simp only [pvChars, List.mem_append] at h
          rcases h with ((h | h) | h) | h
          · exact (List.drop_sublist (fe + 1) s).subset (mem_of_mem_jsTrim h)
          · have h2 := mem_of_mem_jsTrim (by simpa using h)
            exact (List.tail_sublist s).subset
              ((List.take_sublist (fe - 1) s.tail).subset h2)
          · simp at h
          · simp at h
        | some imv =>
          obtain ⟨iRaw, mRaw, vRaw⟩ := imv
          rw [hmb] at h
          dsimp only at h
          simp only [pvChars, List.mem_append] at h
          rcases h with ((h | h) | h) | h
          · exact (List.drop_sublist (fe + 1) s).subset
              (mem_of_matchBounds hmb (Or.inr (Or.inr (mem_of_mem_jsTrim h))))
          · have h2 := mem_of_mem_jsTrim (by simpa using h)
            exact (List.tail_sublist s).subset
              ((List.take_sublist (fe - 1) s.tail).subset h2)
          · exact (List.drop_sublist (fe + 1) s).subset
              (mem_of_matchBounds hmb
                (Or.inl (mem_of_mem_jsTrim (mem_jsOrU_getD h))))
          · exact (List.drop_sublist (fe + 1) s).subset
              (mem_of_matchBounds hmb
                (Or.inr (Or.inl (mem_of_mem_jsTrim (mem_jsOrU_getD h)))))
      · rw [if_neg hfe] at h
        exact mem_pvChars_plain s c h
  · rw [if_neg hhead] at h
    exact mem_pvChars_plain s c h

/-- Characters of whitespace-split fields come from the current field or
the input. -/
theorem jsSplitWsGo_chars :
    ∀ (l : List Char) (mode : Option (List Char)) (w : List Char),
      w ∈ jsSplitWsGo mode l → ∀ c ∈ w,
        c ∈ (match mode with | some cur => cur | none => ([] : List Char)) ∨
          c ∈ l := by
  intro l
  induction l with
  | nil =>
    intro mode w hw c hc
    match mode with
    | some cur =>
      have : w = cur.reverse := by simpa [jsSplitWsGo] using hw
      subst this
      exact Or.inl (List.mem_reverse.mp hc)
    | none =>
      have : w = [] := by simpa [jsSplitWsGo] using hw
      subst this
      cases hc
  | cons a t ih =>
    intro mode w hw c hc
    match mode with
    | some cur =>
      rw [jsSplitWsGo_step_some] at hw
      by_cases ha : jsIsWs a = true
      · rw [if_pos (by simp [ha])] at hw
        rcases List.mem_cons.mp hw with hw1 | hw2
        · subst hw1
          exact Or.inl (List.mem_reverse.mp hc)
        · rcases ih none w hw2 c hc with h | h
          · cases h
          · exact Or.inr (List.mem_cons_of_mem a h)
      · rw [if_neg (by simp [ha])] at hw
        rcases ih (some (a :: cur)) w hw c hc with h | h
        · rcases List.mem_cons.mp h with h1 | h1
          · exact Or.inr (h1 ▸ List.mem_cons_self a t)
          · exact Or.inl h1
        · exact Or.inr (List.mem_cons_of_mem a h)
    | none =>
      rw [jsSplitWsGo_step_none] at hw
      by_cases ha : jsIsWs a = true
      · rw [if_pos (by simp [ha])] at hw
        rcases ih none w hw c hc with h | h
        · cases h
        · exact Or.inr (List.mem_cons_of_mem a h)
      · rw [if_neg (by simp [ha])] at hw
        rcases ih (some [a]) w hw c hc with h | h
        · rcases List.mem_cons.mp h with h1 | h1
          · exact Or.inr (h1 ▸ List.mem_cons_self a t)
          · cases h1
        · exact Or.inr (List.mem_cons_of_mem a h)

/-- Characters of whitespace-split fields come from the input. -/
theorem jsSplitWs_chars {l w : List Char} (hw : w ∈ jsSplitWs l) {c : Char}
    (hc : c ∈ w) : c ∈ l := by
  rcases jsSplitWsGo_chars l (some []) w hw c hc with h | h
  · cases h
  · exact h

/-- Whitespace-split fields are whitespace-free (when the current field
is). -/
theorem jsSplitWsGo_no_ws :
    ∀ (l : List Char) (mode : Option (List Char)),
      (∀ cur, mode = some cur → ∀ c ∈ cur, jsIsWs c = false) →
      ∀ w ∈ jsSplitWsGo mode l, ∀ c ∈ w, jsIsWs c = false := by
  intro l
  induction l with
  | nil =>
    intro mode hm w hw c hc
    match mode with
    | some cur =>
      have : w = cur.reverse := by simpa [jsSplitWsGo] using hw
      subst this
      exact hm cur rfl c (List.mem_reverse.mp hc)
    | none =>
      have : w = [] := by simpa [jsSplitWsGo] using hw
      subst this
      cases hc
  | cons a t ih =>
    intro mode hm w hw c hc
    match mode with
    | some cur =>
      rw [jsSplitWsGo_step_some] at hw
      by_cases ha : jsIsWs a = true
      · rw [if_pos (by simp [ha])] at hw
        rcases List.mem_cons.mp hw with hw1 | hw2
        · subst hw1
          exact hm cur rfl c (List.mem_reverse.mp hc)
        · exact ih none (fun cur h => by cases h) w hw2 c hc
      · rw [if_neg (by simp [ha])] at hw
        refine ih (some (a :: cur)) ?_ w hw c hc
        intro cur2 hcur2 d hd
        injection hcur2 with hcur2
        rw [← hcur2] at hd
        rcases List.mem_cons.mp hd with h1 | h1
        · rw [h1]
          exact Bool.not_eq_true _ ▸ ha
        · exact hm cur rfl d h1
    | none =>
      rw [jsSplitWsGo_step_none] at hw
      by_cases ha : jsIsWs a = true
      · rw [if_pos (by simp [ha])] at hw
        exact ih none (fun cur h => by cases h) w hw c hc
      · rw [if_neg (by simp [ha])] at hw
        refine ih (some [a]) ?_ w hw c hc
        intro cur2 hcur2 d hd
        injection hcur2 with hcur2
        rw [← hcur2] at hd
        rcases List.mem_cons.mp hd with h1 | h1
        · rw [h1]
          exact Bool.not_eq_true _ ▸ ha
        · cases h1

/-- Whitespace-split fields of any input are whitespace-free. -/
theorem jsSplitWs_no_ws {l : List Char} :
    ∀ w ∈ jsSplitWs l, ∀ c ∈ w, jsIsWs c = false :=
  jsSplitWsGo_no_ws l (some [])
    (fun cur h c hc => by injection h with h'; rw [← h'] at hc; cases hc)

/-- The whitespace split never produces an empty field list. -/
theorem jsSplitWsGo_ne_nil :
    ∀ (l : List Char) (mode : Option (List Char)),
      jsSplitWsGo mode l ≠ [] := by
  intro l
  induction l with
  | nil =>
    intro mode
    match mode with
    | some cur => simp [jsSplitWsGo]
    | none => simp [jsSplitWsGo]
  | cons a t ih =>
    intro mode
    match mode with
    | some cur =>
      rw [jsSplitWsGo_step_some]
      by_cases ha : jsIsWs a = true
      · rw [if_pos (by simp [ha])]
        simp
      · rw [if_neg (by simp [ha])]
        exact ih (some (a :: cur))
    | none =>
      rw [jsSplitWsGo_step_none]
      by_cases ha : jsIsWs a = true
      · rw [if_pos (by simp [ha])]
        exact ih none
      · rw [if_neg (by simp [ha])]
        exact ih (some [a])

/-- The last character of a space-join of nonempty whitespace-free words
is not whitespace. -/
theorem getLast_joinSpace_nonws :
    ∀ wl : List (List Char),
      (∀ w ∈ wl, w ≠ [] ∧ ∀ c ∈ w, jsIsWs c = false) →
      ∀ c, (joinSpace wl).getLast? = some c → jsIsWs c = false := by
  intro wl
  induction wl with
  | nil => intro _ c hc; cases hc
  | cons w rest ih =>
    intro hall c hc
    cases rest with
    | nil =>
      have hw := hall w (List.mem_cons_self w [])
      exact hw.2 c (mem_of_getLast?_eq hc)
    | cons w2 rest2 =>
      have hw2 := hall w2 (List.mem_cons_of_mem w (List.mem_cons_self w2 _))
      have hJ : joinSpace (w2 :: rest2) ≠ [] := by
        intro hJ0
        have := head_joinSpace w2 rest2 hw2.1
        rw [hJ0] at this
        cases hh : w2.head? with
        | none =>
          exact hw2.1 (by cases w2 with
            | nil => rfl
            | cons x xs => cases hh)
        | some d => rw [hh] at this; cases this
      have hstep : (joinSpace (w :: w2 :: rest2)).getLast? =
          (joinSpace (w2 :: rest2)).getLast? := by
        show (w ++ ' ' :: joinSpace (w2 :: rest2)).getLast? = _
        rw [List.getLast?_append]
        cases hJs : joinSpace (w2 :: rest2) with
        | nil => exact absurd hJs hJ
        | cons x xs =>
          rw [List.getLast?_cons_cons, ← hJs]
          cases hg : (joinSpace (w2 :: rest2)).getLast? with
          | none =>
            rw [hJs] at hg
            rw [List.getLast?_eq_head?_reverse] at hg
            simp at hg
          | some d => rfl
      rw [hstep] at hc
      exact ih (fun w hw => hall w (List.mem_cons_of_mem _ hw)) c hc

/-- Characters of a space-join come from the words or are spaces. -/
theorem mem_joinSpace :
    ∀ (wl : List (List Char)) (c : Char), c ∈ joinSpace wl →
      (∃ w ∈ wl, c ∈ w) ∨ c = ' ' := by
  intro wl
  induction wl with
  | nil => intro c hc; cases hc
  | cons w rest ih =>
    intro c hc
    cases rest with
    | nil => exact Or.inl ⟨w, List.mem_cons_self w [], hc⟩
    | cons w2 rest2 =>
      have hc' : c ∈ w ++ ' ' :: joinSpace (w2 :: rest2) := hc
      rcases List.mem_append.mp hc' with h | h
      · exact Or.inl ⟨w, List.mem_cons_self w _, h⟩
      · rcases List.mem_cons.mp h with h1 | h1
        · exact Or.inr h1
        · rcases ih c h1 with ⟨w3, hw3, hcw3⟩ | h2
          · exact Or.inl ⟨w3, List.mem_cons_of_mem w hw3, hcw3⟩
          · exact Or.inr h2

/-- A space-join of nonempty whitespace-free words is trim-invariant. -/
theorem jsTrim_joinSpace (wl : List (List Char))
    (hall : ∀ w ∈ wl, w ≠ [] ∧ ∀ c ∈ w, jsIsWs c = false) :
    jsTrim (joinSpace wl) = joinSpace wl := by
  apply jsTrim_eq_self_of
  · intro c hc
    cases wl with
    | nil => cases hc
    | cons w rest =>
      have hw := hall w (List.mem_cons_self w rest)
      rw [head_joinSpace w rest hw.1] at hc
      exact hw.2 c (List.mem_of_mem_head? (Option.mem_def.mpr hc))
  · exact getLast_joinSpace_nonws wl hall

/-- In the no-formula codec block, an empty value means an empty input
(for whitespace-free inputs). -/
theorem pv_plain_value_empty (s : List Char)
    (hws : ∀ c ∈ s, jsIsWs c = false)
    (hv : (match matchBounds s with
      | some (iRaw, mRaw, vRaw) =>
        PVParts.mk (jsTrim vRaw) none (jsOrU (jsTrim iRaw))
          (jsOrU (jsTrim mRaw))
      | none => PVParts.mk s none none none).value = []) : s = [] := by
  cases hmb : matchBounds s with
  | none =>
    rw [hmb] at hv
    exact hv
  | some imv =>
    obtain ⟨iRaw, mRaw, vRaw⟩ := imv
    rw [hmb] at hv
    dsimp only at hv
    obtain ⟨hx, _, _, hvne, _⟩ := matchBounds_eq_some s iRaw mRaw vRaw hmb
    have hwsv : ∀ c ∈ vRaw, jsIsWs c = false := fun c hc =>
      hws c (mem_of_matchBounds hmb (Or.inr (Or.inr hc)))
    rw [jsTrim_eq_self_of_ws_free vRaw hwsv] at hv
    rw [hv] at hvne
    cases hvne

/-- A codec result with empty value and no formula comes from the empty
string (for whitespace-free inputs). -/
theorem parseProgressionValue_value_empty (s : List Char)
    (hws : ∀ c ∈ s, jsIsWs c = false)
    (hv : (parseProgressionValue s).value = [])
    (hf : (parseProgressionValue s).progressionFormula = none) : s = [] := by
  unfold parseProgressionValue at hv hf
  by_cases hhead : s.head? = some '('
  · rw [if_pos hhead] at hv hf
    cases hfc : findClose s 0 0 with
    | none =>
      rw [hfc] at hv hf
      dsimp only at hv hf
      exact pv_plain_value_empty s hws hv
    | some fe =>
      rw [hfc] at hv hf
      dsimp only at hv hf
      by_cases hfe : fe > 0
      · rw [if_pos hfe] at hv hf
        cases hmb : matchBounds (s.drop (fe + 1)) with
        | none =>
          rw [hmb] at hf
          dsimp only at hf
          cases hf
        | some imv =>
          obtain ⟨iRaw, mRaw, vRaw⟩ := imv
          rw [hmb] at hf
          dsimp only at hf
          cases hf
      · rw [if_neg hfe] at hv hf
        exact pv_plain_value_empty s hws hv
  · rw [if_neg hhead] at hv hf
    exact pv_plain_value_empty s hws hv

/-- `parseParam` returns either the word-branch or the bracket-branch
parameter. -/
theorem parseParam_words_or_bracket (seg : List Char) (p : ExerciseParam)
    (hp : parseParam seg = some p) :
    ∃ before after, splitFirst ':' seg = some (before, after) ∧
      (p = wordsParam before after ∨
        ∃ r content afterBr, jsTrim after = '[' :: r ∧
          splitFirst ']' r = some (content, afterBr) ∧
          noLT afterBr = true ∧ p = bracketParam before content afterBr) := by
  unfold parseParam at hp
  cases hsf : splitFirst ':' seg with
  | none => rw [hsf] at hp; cases hp
  | some ba =>
    obtain ⟨before, after⟩ := ba
    rw [hsf] at hp
    dsimp only at hp
    refine ⟨before, after, rfl, ?_⟩
    split at hp
    · rename_i content afterBr heq
      split at heq
      · rename_i r hjt
        split at heq
        · rename_i content2 afterBr2 hsf2
          by_cases hnlt : noLT afterBr2 = true
          · rw [if_pos hnlt] at heq
            injection heq with heq'
            injection heq' with h1 h2
            subst h1
            subst h2
            injection hp with hp'
            exact Or.inr ⟨r, content2, afterBr2, hjt, hsf2, hnlt, hp'.symm⟩
          · rw [if_neg hnlt] at heq
            cases heq
        · cases heq
      · cases heq
    · injection hp with hp'
      exact Or.inl hp'.symm

/-- The bracket-branch parameter satisfies the parse invariants. -/
theorem paramInv_of_bracket (seg before after r content afterBr : List Char)
    (hlt : noLT seg = true) (hpipe : '|' ∉ seg)
    (hsplit : seg = before ++ ':' :: after) (hnc : ':' ∉ before)
    (hr : jsTrim after = '[' :: r)
    (hsf2 : splitFirst ']' r = some (content, afterBr)) :
    ParamInv (bracketParam before content afterBr) := by
  obtain ⟨hrdec, hnbr⟩ := splitFirst_eq_some ']' r content afterBr hsf2
  have hbsub : ∀ c ∈ before, c ∈ seg := by
    intro c hc
    rw [hsplit]
    exact List.mem_append.mpr (Or.inl hc)
  have hasub : ∀ c ∈ after, c ∈ seg := by
    intro c hc
    rw [hsplit]
    exact List.mem_append.mpr (Or.inr (List.mem_cons_of_mem ':' hc))
  have hrsub : ∀ c ∈ r, c ∈ seg := by
    intro c hc
    refine hasub c (mem_of_mem_jsTrim ?_)
    rw [hr]
    exact List.mem_cons_of_mem '[' hc
  have hcsub : ∀ c ∈ content, c ∈ seg := by
    intro c hc
    refine hrsub c ?_
    rw [hrdec]
    exact List.mem_append.mpr (Or.inl hc)
  have habrsub : ∀ c ∈ afterBr, c ∈ seg := by
    intro c hc
    refine hrsub c ?_
    rw [hrdec]
    exact List.mem_append.mpr (Or.inr (List.mem_cons_of_mem ']' hc))
  refine ⟨jsTrim_idem before,
    fun hm => hnc (mem_of_mem_jsTrim hm),
    fun hm => hpipe (hbsub _ (mem_of_mem_jsTrim hm)),
    noLT_jsTrim (noLT_sub hbsub hlt),
    rfl, ?_, ?_, ?_, ?_, ?_, ?_, ?_⟩
  · intro u hu
    have hu' : jsOrU (jsTrim afterBr) = some u := hu
    obtain ⟨hue, hune⟩ := jsOrU_eq_some (jsTrim afterBr) u hu'
    subst hue
    refine ⟨hune, jsTrim_idem afterBr,
      noLT_jsTrim (noLT_sub habrsub hlt), ?_⟩
    intro hm
    exact hpipe (habrsub _ (mem_of_mem_jsTrim hm))
  · intro hm
    have hm' : '|' ∈ pvChars (parseProgressionValue content) := hm
    exact hpipe (hcsub _ (mem_pvChars_parse content '|' hm'))
  · refine noLT_sub ?_ hlt
    intro c hc
    have hc' : c ∈ pvChars (parseProgressionValue content) := hc
    exact hcsub c (mem_pvChars_parse content c hc')
  · intro _ hm
    have hm' : ']' ∈ pvChars (parseProgressionValue content) := hm
    exact hnbr (mem_pvChars_parse content ']' hm')
  · intro h
    exact Bool.noConfusion h
  · intro h
    exact Bool.noConfusion h
  · intro h
    exact Bool.noConfusion h

/-- The word-branch parameter satisfies the parse invariants. -/
theorem paramInv_of_words (seg before after : List Char)
    (hlt : noLT seg = true) (hpipe : '|' ∉ seg)
    (hsplit : seg = before ++ ':' :: after) (hnc : ':' ∉ before) :
    ParamInv (wordsParam before after) := by
  have hbsub : ∀ c ∈ before, c ∈ seg := by
    intro c hc
    rw [hsplit]
    exact List.mem_append.mpr (Or.inl hc)
  have hasub : ∀ c ∈ after, c ∈ seg := by
    intro c hc
    rw [hsplit]
    exact List.mem_append.mpr (Or.inr (List.mem_cons_of_mem ':' hc))
  have hrsub : ∀ c ∈ jsTrim after, c ∈ seg := fun c hc =>
    hasub c (mem_of_mem_jsTrim hc)
  have hfp : ∀ c ∈ (jsSplitWs (jsTrim after)).headD [], c ∈ jsTrim after := by
    intro c hc
    cases hparts : jsSplitWs (jsTrim after) with
    | nil => exact absurd hparts (jsSplitWsGo_ne_nil _ _)
    | cons w ws =>
      rw [hparts] at hc
      exact jsSplitWs_chars
        (by rw [hparts]; exact List.mem_cons_self w ws) (hc : c ∈ w)
  have hfpws : ∀ c ∈ (jsSplitWs (jsTrim after)).headD [],
      jsIsWs c = false := by
    intro c hc
    cases hparts : jsSplitWs (jsTrim after) with
    | nil => exact absurd hparts (jsSplitWsGo_ne_nil _ _)
    | cons w ws =>
      rw [hparts] at hc
      exact jsSplitWs_no_ws w
        (by rw [hparts]; exact List.mem_cons_self w ws) c (hc : c ∈ w)
  have hfssub : ∀ c, c ∈ pvChars (parseProgressionValue
      ((jsSplitWs (jsTrim after)).headD [])) → c ∈ seg :=
    fun c hc => hrsub c (hfp c (mem_pvChars_parse _ c hc))
  have hunit : ∀ u, jsOrU (joinSpace (jsSplitWs (jsTrim after)).tail) =
      some u →
      u = joinSpace (jsSplitWs (jsTrim after)).tail ∧
      (jsSplitWs (jsTrim after)).tail ≠ [] ∧
      (∀ w ∈ (jsSplitWs (jsTrim after)).tail,
        w ≠ [] ∧ ∀ c ∈ w, jsIsWs c = false) := by
    intro u hu
    obtain ⟨hue, hune⟩ := jsOrU_eq_some _ u hu
    refine ⟨hue, ?_, ?_⟩
    · intro htl
      rw [htl] at hune
      simp [joinSpace] at hune
    · intro w hw
      have hwmem : w ∈ jsSplitWs (jsTrim after) :=
        (List.tail_sublist _).subset hw
      refine ⟨?_, fun c hc => jsSplitWs_no_ws w hwmem c hc⟩
      by_cases hrest0 : jsTrim after = []
      · rw [hrest0] at hw
        simp [jsSplitWs, jsSplitWsGo] at hw
      · have hall := jsSplitWs_nonempty_fields (jsTrim after) hrest0
          (jsTrim_idem after)
        rw [List.all_eq_true] at hall
        have hne := hall w hwmem
        intro hwnil
        rw [hwnil] at hne
        simp at hne
  have hnltJ : noLT (joinSpace (jsSplitWs (jsTrim after)).tail) = true := by
    unfold noLT
    rw [List.all_eq_true]
    intro c hc
    rcases mem_joinSpace _ c hc with ⟨w, hw, hcw⟩ | hsp
    · have hcseg : c ∈ seg :=
        hrsub c (jsSplitWs_chars ((List.tail_sublist _).subset hw) hcw)
      unfold noLT at hlt
      rw [List.all_eq_true] at hlt
      exact hlt c hcseg
    · rw [hsp]
      decide
  refine ⟨jsTrim_idem before,
    fun hm => hnc (mem_of_mem_jsTrim hm),
    fun hm => hpipe (hbsub _ (mem_of_mem_jsTrim hm)),
    noLT_jsTrim (noLT_sub hbsub hlt),
    rfl, ?_, ?_, ?_, ?_, ?_, ?_, ?_⟩
  · intro u hu
    have hu' : jsOrU (joinSpace (jsSplitWs (jsTrim after)).tail) = some u :=
      hu
    obtain ⟨hue, htlne, hwords⟩ := hunit u hu'
    obtain ⟨_, hune⟩ := jsOrU_eq_some _ u hu'
    refine ⟨by rw [hue]; exact hune, ?_, ?_, ?_⟩
    · rw [hue]
      exact jsTrim_joinSpace _ hwords
    · rw [hue]
      exact hnltJ
    · intro hm
      rw [hue] at hm
      rcases mem_joinSpace _ '|' hm with ⟨w, hw, hcw⟩ | hsp
      · exact hpipe
          (hrsub '|' (jsSplitWs_chars ((List.tail_sublist _).subset hw) hcw))
      · exact absurd hsp (by decide)
  · intro hm
    have hm' : '|' ∈ pvChars (parseProgressionValue
        ((jsSplitWs (jsTrim after)).headD [])) := hm
    exact hpipe (hfssub '|' hm')
  · refine noLT_sub ?_ hlt
    intro c hc
    have hc' : c ∈ pvChars (parseProgressionValue
        ((jsSplitWs (jsTrim after)).headD [])) := hc
    exact hfssub c hc'
  · intro h
    exact Bool.noConfusion h
  · intro _ c hc
    have hc' : c ∈ pvChars (parseProgressionValue
        ((jsSplitWs (jsTrim after)).headD [])) := hc
    exact hfpws c (mem_pvChars_parse _ c hc')
  · intro _ u hu
    have hu' : jsOrU (joinSpace (jsSplitWs (jsTrim after)).tail) = some u :=
      hu
    obtain ⟨hue, htlne, hwords⟩ := hunit u hu'
    have hsu : jsSplitWs u = (jsSplitWs (jsTrim after)).tail := by
      rw [hue]
      exact jsSplitWs_joinSpace _ htlne hwords
    constructor
    · rw [hsu, List.all_eq_true]
      intro w hw
      have := (hwords w hw).1
      cases hww : w with
      | nil => exact absurd hww this
      | cons a t => simp
    · rw [hsu, ← hue]
  · intro _ hv hf
    have hv' : (parseProgressionValue
        ((jsSplitWs (jsTrim after)).headD [])).value = [] := hv
    have hf' : (parseProgressionValue
        ((jsSplitWs (jsTrim after)).headD [])).progressionFormula = none :=
      hf
    have hfp0 : (jsSplitWs (jsTrim after)).headD [] = [] :=
      parseProgressionValue_value_empty _ hfpws hv' hf'
    show jsOrU (joinSpace (jsSplitWs (jsTrim after)).tail) = none
    by_cases hrest0 : jsTrim after = []
    · rw [hrest0]
      rfl
    · exfalso
      have hall := jsSplitWs_nonempty_fields (jsTrim after) hrest0
        (jsTrim_idem after)
      cases hparts : jsSplitWs (jsTrim after) with
      | nil => exact (jsSplitWsGo_ne_nil _ _) hparts
      | cons w ws =>
        rw [hparts, List.all_eq_true] at hall
        have hw := hall w (List.mem_cons_self w ws)
        have hfpw : (jsSplitWs (jsTrim after)).headD [] = w := by
          rw [hparts]
          rfl
        rw [hfpw] at hfp0
        rw [hfp0] at hw
        simp at hw

/-- On a pipe-free, line-terminator-free segment, `parseParam` output
satisfies the parse invariants. -/
theorem parseParam_inv (seg : List Char) (p : ExerciseParam)
    (hlt : noLT seg = true) (hpipe : '|' ∉ seg)
    (hp : parseParam seg = some p) : ParamInv p := by
  obtain ⟨before, after, hsf, hcase⟩ := parseParam_words_or_bracket seg p hp
  obtain ⟨hsplit, hnc⟩ := splitFirst_eq_some ':' seg before after hsf
  rcases hcase with hw | ⟨r, content, afterBr, hr, hsf2, hnlt, hb⟩
  · rw [hw]
    exact paramInv_of_words seg before after hlt hpipe hsplit hnc
  · rw [hb]
    exact paramInv_of_bracket seg before after r content afterBr hlt hpipe
      hsplit hnc hr hsf2

/-- Dropping leading whitespace is idempotent. -/
theorem dropWhile_ws_idem (l : List Char) :
    (l.dropWhile jsIsWs).dropWhile jsIsWs = l.dropWhile jsIsWs := by
  cases hd : l.dropWhile jsIsWs with
  | nil => rfl
  | cons a t =>
    have ha : jsIsWs a = false := head_dropWhile_ws l a (by rw [hd]; rfl)
    rw [List.dropWhile_cons, if_neg (by simp [ha])]

/-- Dropping trailing whitespace is idempotent. -/
theorem dropTrailWs_idem (l : List Char) :
    dropTrailWs (dropTrailWs l) = dropTrailWs l := by
  unfold dropTrailWs
  rw [List.reverse_reverse, dropWhile_ws_idem]

/-- A membership splits a list at the first occurrence. -/
theorem splitFirst_isSome (c : Char) :
    ∀ l : List Char, c ∈ l → ∃ a b, splitFirst c l = some (a, b) := by
  intro l
  induction l with
  | nil => intro h; cases h
  | cons x xs ih =>
    intro h
    by_cases hx : x = c
    · exact ⟨[], xs, by rw [splitFirst, if_pos hx]⟩
    · have hm : c ∈ xs := by
        rcases List.mem_cons.mp h with h1 | h1
        · exact absurd h1.symm hx
        · exact h1
      obtain ⟨a, b, hab⟩ := ih hm
      exact ⟨x :: a, b, by rw [splitFirst, if_neg hx, hab]⟩

/-- Leading-whitespace drop across an append whose right part starts
with a non-whitespace character. -/
theorem dropWhile_ws_append_cons (a : List Char) (c : Char) (b : List Char)
    (hc : jsIsWs c = false) :
    (a ++ c :: b).dropWhile jsIsWs = a.dropWhile jsIsWs ++ c :: b := by
  rw [List.dropWhile_append]
  by_cases he : (a.dropWhile jsIsWs).isEmpty = true
  · rw [if_pos he]
    rw [List.dropWhile_cons, if_neg (by simp [hc])]
    cases hd : a.dropWhile jsIsWs with
    | nil => rfl
    | cons x t => rw [hd] at he; cases he
  · rw [if_neg he]

/-- Trailing-whitespace drop across an append whose left part ends with
a non-whitespace character. -/
theorem dropTrailWs_append_cons (a : List Char) (c : Char) (b : List Char)
    (hc : jsIsWs c = false) :
    dropTrailWs (a ++ c :: b) = a ++ c :: dropTrailWs b := by
  unfold dropTrailWs
  rw [List.reverse_append, List.reverse_cons, List.append_assoc,
    List.dropWhile_append]
  by_cases he : (b.reverse.dropWhile jsIsWs).isEmpty = true
  · rw [if_pos he]
    have hbr : b.reverse.dropWhile jsIsWs = [] := by
      cases hd : b.reverse.dropWhile jsIsWs with
      | nil => rfl
      | cons x t => rw [hd] at he; cases he
    rw [hbr]
    rw [show ([c] ++ a.reverse).dropWhile jsIsWs = [c] ++ a.reverse from by
      rw [show [c] ++ a.reverse = c :: a.reverse from rfl,
        List.dropWhile_cons, if_neg (by simp [hc])]]
    simp
  · rw [if_neg he]
    simp

/-- `parseParam` ignores outer whitespace of its segment. -/
theorem parseParam_jsTrim (s : List Char) :
    parseParam (jsTrim s) = parseParam s := by
  by_cases hc : ':' ∈ s
  · obtain ⟨pre, post, hsf⟩ := splitFirst_isSome ':' s hc
    obtain ⟨hdec, hnc⟩ := splitFirst_eq_some ':' s pre post hsf
    have hnws : jsIsWs ':' = false := by decide
    have htrim : jsTrim s =
        pre.dropWhile jsIsWs ++ ':' :: dropTrailWs post := by
      rw [hdec]
      unfold jsTrim
      rw [dropWhile_ws_append_cons pre ':' post hnws,
        dropTrailWs_append_cons (pre.dropWhile jsIsWs) ':' post hnws]
    have hsf2 : splitFirst ':' (jsTrim s) =
        some (pre.dropWhile jsIsWs, dropTrailWs post) := by
      rw [htrim]
      exact splitFirst_append ':' (pre.dropWhile jsIsWs) (dropTrailWs post)
        (fun hm => hnc ((List.dropWhile_sublist jsIsWs).subset hm))
    have hkey : jsTrim (pre.dropWhile jsIsWs) = jsTrim pre := by
      unfold jsTrim
      rw [dropWhile_ws_idem]
    have hrest : jsTrim (dropTrailWs post) = jsTrim post := by
      unfold jsTrim
      cases hd : post.dropWhile jsIsWs with
      | nil =>
        have hpost : dropTrailWs post = [] := by
          unfold dropTrailWs
          have : post.reverse.dropWhile jsIsWs = [] := by
            cases hpr : post.reverse.dropWhile jsIsWs with
            | nil => rfl
            | cons x t =>
              have hx : jsIsWs x = false :=
                head_dropWhile_ws post.reverse x (by rw [hpr]; rfl)
              have hxp : x ∈ post := by
                have h1 : x ∈ post.reverse.dropWhile jsIsWs := by
                  rw [hpr]
                  exact List.mem_cons_self x t
                have h2 := (List.dropWhile_sublist jsIsWs).subset h1
                exact List.mem_reverse.mp h2
              obtain ⟨a, b, hab⟩ :=
                List.append_of_mem hxp
              rw [hab] at hd
              rw [List.dropWhile_append] at hd
              by_cases hea : (a.dropWhile jsIsWs).isEmpty = true
              · rw [if_pos hea, List.dropWhile_cons,
                  if_neg (by simp [hx])] at hd
                cases hd
              · rw [if_neg hea] at hd
                cases hda : a.dropWhile jsIsWs with
                | nil => exact absurd (by rw [hda]; rfl) hea
                | cons y u => rw [hda] at hd; cases hd
          rw [this]
          rfl
        rw [hpost]
        rfl
      | cons a t =>
        have ha : jsIsWs a = false := head_dropWhile_ws post a (by rw [hd]; rfl)
        have hd2 : post = post.takeWhile jsIsWs ++ a :: t := by
          conv_lhs => rw [← List.takeWhile_append_dropWhile jsIsWs post]
          rw [hd]
        rw [hd2, dropTrailWs_append_cons _ a t ha,
          dropWhile_ws_append_cons _ a (dropTrailWs t) ha]
        have htw : (post.takeWhile jsIsWs).dropWhile jsIsWs = [] := by
          cases htd : (post.takeWhile jsIsWs).dropWhile jsIsWs with
          | nil => rfl
          | cons y u =>
            have hy : jsIsWs y = false :=
              head_dropWhile_ws _ y (by rw [htd]; rfl)
            have hym : y ∈ post.takeWhile jsIsWs := by
              have h1 : y ∈ (post.takeWhile jsIsWs).dropWhile jsIsWs := by
                rw [htd]
                exact List.mem_cons_self y u
              exact (List.dropWhile_sublist jsIsWs).subset h1
            have := List.mem_takeWhile_imp hym
            rw [this] at hy
            cases hy
        rw [htw]
        show dropTrailWs (a :: dropTrailWs t) = dropTrailWs (a :: t)
        have h3 : dropTrailWs (a :: t) = [] ++ a :: dropTrailWs t :=
          dropTrailWs_append_cons [] a t ha
        rw [show ([] ++ a :: dropTrailWs t : List Char) =
          a :: dropTrailWs t from rfl] at h3
        rw [← h3, dropTrailWs_idem]
    unfold parseParam
    rw [hsf, hsf2]
    dsimp only
    rw [hkey, hrest]
  · have h1 : splitFirst ':' s = none := splitFirst_none ':' s hc
    have h2 : splitFirst ':' (jsTrim s) = none :=
      splitFirst_none ':' (jsTrim s) (fun hm => hc (mem_of_mem_jsTrim hm))
    unfold parseParam
    rw [h1, h2]

/-- Characters of a formatted progression value come from the fields or
the grammar punctuation. -/
theorem mem_formatProgressionValue (v : List Char) (f i m : Option (List Char))
    (c : Char) (h : c ∈ formatProgressionValue v f i m) :
    c ∈ v ++ f.getD [] ++ i.getD [] ++ m.getD [] ++
      ['(', ')', '{', ',', '}'] := by
  unfold formatProgressionValue at h
  dsimp only at h
  by_cases hbc : (decide (i ≠ none) || decide (m ≠ none)) = true
  · rw [if_pos hbc] at h
    by_cases hf : strTruthy f = true
    · rw [if_pos hf] at h
      simp only [List.mem_append, List.mem_cons] at h ⊢
      tauto
    · rw [if_neg hf] at h
      simp only [List.mem_append, List.mem_cons] at h ⊢
      tauto
  · rw [if_neg hbc] at h
    by_cases hf : strTruthy f = true
    · rw [if_pos hf] at h
      simp only [List.mem_append, List.mem_cons] at h ⊢
      tauto
    · rw [if_neg hf] at h
      simp only [List.mem_append, List.mem_cons] at h ⊢
      tauto

/-- An empty formatted value forces empty fields. -/
theorem formatProgressionValue_eq_nil (v : List Char)
    (f i m : Option (List Char))
    (h : formatProgressionValue v f i m = []) :
    v = [] ∧ strTruthy f = false ∧ i = none ∧ m = none := by
  unfold formatProgressionValue at h
  dsimp only at h
  by_cases hf : strTruthy f = true
  · rw [if_pos hf] at h
    cases h
  · rw [if_neg hf] at h
    by_cases hbc : (decide (i ≠ none) || decide (m ≠ none)) = true
    · rw [if_pos hbc] at h
      cases h
    · rw [if_neg hbc] at h
      rw [Bool.not_eq_true] at hbc
      simp only [Bool.or_eq_false_iff, decide_eq_false_iff_not,
        not_not] at hbc
      exact ⟨h, Bool.not_eq_true _ ▸ hf, hbc.1, hbc.2⟩

/-- `parseParam` evaluates to the word-branch parameter when the rest
does not form a bracket. -/
theorem parseParam_words_eval (seg before after : List Char)
    (hsf : splitFirst ':' seg = some (before, after))
    (hno : ∀ r, jsTrim after = '[' :: r → splitFirst ']' r = none) :
    parseParam seg = some (wordsParam before after) := by
  unfold parseParam
  rw [hsf]
  dsimp only
  split
  · rename_i content afterBr heq
    exfalso
    split at heq
    · rename_i r hjt
      rw [hno r hjt] at heq
      cases heq
    · cases heq
  · rfl

/-- `parseParam` evaluates to the bracket-branch parameter when the rest
forms a bracket. -/
theorem parseParam_bracket_eval (seg before after r content afterBr :
      List Char)
    (hsf : splitFirst ':' seg = some (before, after))
    (hjt : jsTrim after = '[' :: r)
    (hsf2 : splitFirst ']' r = some (content, afterBr))
    (hnlt : noLT afterBr = true) :
    parseParam seg = some (bracketParam before content afterBr) := by
  unfold parseParam
  rw [hsf]
  dsimp only
  split
  · rename_i content2 afterBr2 heq
    split at heq
    · rename_i r2 hjt2
      rw [hjt] at hjt2
      injection hjt2 with _ hr2
      subst hr2
      rw [hsf2] at heq
      dsimp only at heq
      rw [if_pos hnlt] at heq
      injection heq with heq'
      injection heq' with h1 h2
      subst h1
      subst h2
      rfl
    · rename_i hwild
      rw [hjt] at hwild
      exact absurd rfl (hwild r)
  · rename_i heq
    split at heq
    · rename_i r2 hjt2
      rw [hjt] at hjt2
      injection hjt2 with _ hr2
      subst hr2
      rw [hsf2] at heq
      dsimp only at heq
      rw [if_pos hnlt] at heq
      cases heq
    · rename_i hwild
      rw [hjt] at hwild
      exact absurd rfl (hwild r)

/-- `getLast?` of an append with nonempty right part. -/
theorem getLast?_append_right (A B : List Char) (hB : B ≠ []) :
    (A ++ B).getLast? = B.getLast? := by
  rw [List.getLast?_append]
  cases hgb : B.getLast? with
  | none =>
    rw [List.getLast?_eq_head?_reverse] at hgb
    rw [List.head?_eq_none_iff] at hgb
    exact absurd (by simpa using congrArg List.reverse hgb) hB
  | some d => rfl

/-- `getLast?` of a cons with nonempty tail. -/
theorem getLast?_cons_right (a : Char) (l : List Char) (hl : l ≠ []) :
    (a :: l).getLast? = l.getLast? := by
  cases l with
  | nil => exact absurd rfl hl
  | cons b t => rw [List.getLast?_cons_cons]

/-- The bracketed, unit-carrying serialized segment re-parses to the
parameter. -/
theorem parseParam_ser_ed_unit (k v u : List Char)
    (f iv mv : Option (List Char))
    (hkt : jsTrim k = k) (hkc : ':' ∉ k)
    (hnbr : ']' ∉ formatProgressionValue v f iv mv)
    (hune : u.isEmpty = false) (hut : jsTrim u = u)
    (hunolt : noLT u = true)
    (h1 : parseProgressionValue (formatProgressionValue v f iv mv) =
      PVParts.mk v f iv mv) :
    parseParam (serializeParamSeg
        (ExerciseParam.mk k v true (some u) f iv mv none)) =
      some (ExerciseParam.mk k v true (some u) f iv mv none) := by
  have hst : strTruthy (some u) = true := by
    simp [strTruthy, hune]
  have hun0 : u ≠ [] := by
    cases u with
    | nil => cases hune
    | cons a t => simp
  have hform : serializeParamSeg
      (ExerciseParam.mk k v true (some u) f iv mv none) =
      k ++ ':' :: (' ' :: ('[' ::
        (formatProgressionValue v f iv mv ++ ']' :: ' ' :: u))) := by
    unfold serializeParamSeg
    dsimp only
    rw [if_pos rfl, if_pos hst]
    simp [List.cons_append, List.append_assoc]
  have hsf : splitFirst ':' (serializeParamSeg
      (ExerciseParam.mk k v true (some u) f iv mv none)) =
      some (k, ' ' :: ('[' ::
        (formatProgressionValue v f iv mv ++ ']' :: ' ' :: u))) := by
    rw [hform]
    exact splitFirst_append ':' k _ hkc
  have hlast : ∀ c, ('[' :: (formatProgressionValue v f iv mv ++
      ']' :: ' ' :: u)).getLast? = some c → jsIsWs c = false := by
    intro c hc
    rw [getLast?_cons_right _ _ (by simp),
      getLast?_append_right _ _ (by simp),
      List.getLast?_cons_cons,
      getLast?_cons_right ' ' u hun0] at hc
    exact last_nonws_of_jsTrim_eq u c hut hc
  have hjt : jsTrim (' ' :: ('[' :: (formatProgressionValue v f iv mv ++
      ']' :: ' ' :: u))) =
      '[' :: (formatProgressionValue v f iv mv ++ ']' :: ' ' :: u) := by
    rw [jsTrim_cons_ws ' ' _ (by decide)]
    exact jsTrim_eq_self_of _
      (fun c hc => by
        rw [List.head?_cons] at hc
        injection hc with hc
        rw [← hc]
        decide)
      hlast
  have hsf2 : splitFirst ']' (formatProgressionValue v f iv mv ++
      ']' :: ' ' :: u) = some (formatProgressionValue v f iv mv,
        ' ' :: u) :=
    splitFirst_append ']' _ _ hnbr
  have hnlt2 : noLT (' ' :: u) = true := by
    unfold noLT at hunolt ⊢
    rw [List.all_cons, hunolt]
    decide
  rw [parseParam_bracket_eval _ k _ _ _ _ hsf hjt hsf2 hnlt2]
  unfold bracketParam
  dsimp only
  rw [h1]
  dsimp only
  rw [hkt, jsTrim_cons_ws ' ' u (by decide), hut, jsOrU_of_ne u hune]

/-- The bracketed, unit-free serialized segment re-parses to the
parameter. -/
theorem parseParam_ser_ed_nounit (k v : List Char)
    (f iv mv : Option (List Char))
    (hkt : jsTrim k = k) (hkc : ':' ∉ k)
    (hnbr : ']' ∉ formatProgressionValue v f iv mv)
    (h1 : parseProgressionValue (formatProgressionValue v f iv mv) =
      PVParts.mk v f iv mv) :
    parseParam (serializeParamSeg
        (ExerciseParam.mk k v true none f iv mv none)) =
      some (ExerciseParam.mk k v true none f iv mv none) := by
  have hform : serializeParamSeg
      (ExerciseParam.mk k v true none f iv mv none) =
      k ++ ':' :: (' ' :: ('[' ::
        (formatProgressionValue v f iv mv ++ ']' :: []))) := by
    unfold serializeParamSeg
    dsimp only
    rw [if_pos rfl, if_neg (by simp [strTruthy])]
    simp [List.cons_append, List.append_assoc]
  have hsf : splitFirst ':' (serializeParamSeg
      (ExerciseParam.mk k v true none f iv mv none)) =
      some (k, ' ' :: ('[' ::
        (formatProgressionValue v f iv mv ++ ']' :: []))) := by
    rw [hform]
    exact splitFirst_append ':' k _ hkc
  have hjt : jsTrim (' ' :: ('[' :: (formatProgressionValue v f iv mv ++
      ']' :: []))) =
      '[' :: (formatProgressionValue v f iv mv ++ ']' :: []) := by
    rw [jsTrim_cons_ws ' ' _ (by decide)]
    refine jsTrim_eq_self_of _ ?_ ?_
    · intro c hc
      rw [List.head?_cons] at hc
      injection hc with hc
      rw [← hc]
      decide
    · intro c hc
      rw [getLast?_cons_right _ _ (by simp),
        getLast?_append_right _ _ (by simp)] at hc
      have : c = ']' := by
        rw [show (']' :: [] : List Char).getLast? = some ']' from rfl] at hc
        injection hc with hc
        exact hc.symm
      rw [this]
      decide
  have hsf2 : splitFirst ']' (formatProgressionValue v f iv mv ++
      ']' :: []) = some (formatProgressionValue v f iv mv, []) :=
    splitFirst_append ']' _ _ hnbr
  rw [parseParam_bracket_eval _ k _ _ _ _ hsf hjt hsf2 rfl]
  unfold bracketParam
  dsimp only
  rw [h1]
  dsimp only
  rw [hkt]
  rfl

/-- The word-form, unit-carrying serialized segment re-parses to the
parameter. -/
theorem parseParam_ser_ned_unit (k v u : List Char)
    (f iv mv : Option (List Char))
    (hkt : jsTrim k = k) (hkc : ':' ∉ k)
    (hfvne : formatProgressionValue v f iv mv ≠ [])
    (hfvws : ∀ c ∈ formatProgressionValue v f iv mv, jsIsWs c = false)
    (hune : u.isEmpty = false) (hut : jsTrim u = u)
    (hJoin : joinSpace (jsSplitWs u) = u)
    (hbr : ∀ fvt, formatProgressionValue v f iv mv = '[' :: fvt →
      ']' ∉ fvt ++ ' ' :: u)
    (h1 : parseProgressionValue (formatProgressionValue v f iv mv) =
      PVParts.mk v f iv mv) :
    parseParam (serializeParamSeg
        (ExerciseParam.mk k v false (some u) f iv mv none)) =
      some (ExerciseParam.mk k v false (some u) f iv mv none) := by
  have hst : strTruthy (some u) = true := by
    simp [strTruthy, hune]
  have hun0 : u ≠ [] := by
    cases u with
    | nil => cases hune
    | cons a t => simp
  have huhead : ∀ c, u.head? = some c → jsIsWs c = false := fun c hc =>
    head_nonws_of_jsTrim_eq u c hut hc
  have hform : serializeParamSeg
      (ExerciseParam.mk k v false (some u) f iv mv none) =
      k ++ ':' :: (' ' :: (formatProgressionValue v f iv mv ++
        ' ' :: u)) := by
    unfold serializeParamSeg
    dsimp only
    rw [if_neg (by simp), if_pos hst]
    simp [List.cons_append, List.append_assoc]
  have hsf : splitFirst ':' (serializeParamSeg
      (ExerciseParam.mk k v false (some u) f iv mv none)) =
      some (k, ' ' :: (formatProgressionValue v f iv mv ++ ' ' :: u)) := by
    rw [hform]
    exact splitFirst_append ':' k _ hkc
  have hjt : jsTrim (' ' :: (formatProgressionValue v f iv mv ++
      ' ' :: u)) = formatProgressionValue v f iv mv ++ ' ' :: u := by
    rw [jsTrim_cons_ws ' ' _ (by decide)]
    refine jsTrim_eq_self_of _ ?_ ?_
    · intro c hc
      rw [List.head?_append] at hc
      cases hfv : formatProgressionValue v f iv mv with
      | nil => exact absurd hfv hfvne
      | cons a fvt =>
        rw [hfv, List.head?_cons] at hc
        injection hc with hc
        refine hfvws c ?_
        rw [hfv, ← hc]
        exact List.mem_cons_self a fvt
    · intro c hc
      rw [getLast?_append_right _ _ (by simp),
        getLast?_cons_right ' ' u hun0] at hc
      exact last_nonws_of_jsTrim_eq u c hut hc
  have hno : ∀ r, jsTrim (' ' :: (formatProgressionValue v f iv mv ++
      ' ' :: u)) = '[' :: r → splitFirst ']' r = none := by
    intro r hr
    rw [hjt] at hr
    cases hfv : formatProgressionValue v f iv mv with
    | nil => exact absurd hfv hfvne
    | cons a fvt =>
      rw [hfv, List.cons_append] at hr
      injection hr with ha hr2
      refine splitFirst_none ']' r ?_
      rw [← hr2]
      refine hbr fvt ?_
      rw [hfv, ha]
  rw [parseParam_words_eval _ k _ hsf hno]
  unfold wordsParam
  dsimp only
  rw [hjt]
  rw [jsSplitWs_word_space (formatProgressionValue v f iv mv) u hfvws
    huhead]
  simp only [List.headD_cons, List.tail_cons]
  rw [h1]
  dsimp only
  rw [hkt, hJoin, jsOrU_of_ne u hune]

/-- The word-form, unit-free serialized segment re-parses to the
parameter. -/
theorem parseParam_ser_ned_nounit (k v : List Char)
    (f iv mv : Option (List Char))
    (hkt : jsTrim k = k) (hkc : ':' ∉ k)
    (hfvws : ∀ c ∈ formatProgressionValue v f iv mv, jsIsWs c = false)
    (hbr : ∀ fvt, formatProgressionValue v f iv mv = '[' :: fvt →
      ']' ∉ fvt)
    (h1 : parseProgressionValue (formatProgressionValue v f iv mv) =
      PVParts.mk v f iv mv) :
    parseParam (serializeParamSeg
        (ExerciseParam.mk k v false none f iv mv none)) =
      some (ExerciseParam.mk k v false none f iv mv none) := by
  have hform : serializeParamSeg
      (ExerciseParam.mk k v false none f iv mv none) =
      k ++ ':' :: (' ' :: formatProgressionValue v f iv mv) := by
    unfold serializeParamSeg
    dsimp only
    rw [if_neg (by simp), if_neg (by simp [strTruthy])]
    simp [List.cons_append, List.append_assoc]
  have hsf : splitFirst ':' (serializeParamSeg
      (ExerciseParam.mk k v false none f iv mv none)) =
      some (k, ' ' :: formatProgressionValue v f iv mv) := by
    rw [hform]
    exact splitFirst_append ':' k _ hkc
  have hjt : jsTrim (' ' :: formatProgressionValue v f iv mv) =
      formatProgressionValue v f iv mv := by
    rw [jsTrim_cons_ws ' ' _ (by decide)]
    exact jsTrim_eq_self_of_ws_free _ hfvws
  have hno : ∀ r, jsTrim (' ' :: formatProgressionValue v f iv mv) =
      '[' :: r → splitFirst ']' r = none := by
    intro r hr
    rw [hjt] at hr
    exact splitFirst_none ']' r (hbr r hr)
  rw [parseParam_words_eval _ k _ hsf hno]
  unfold wordsParam
  dsimp only
  rw [hjt, jsSplitWs_single _ hfvws]
  simp only [List.headD_cons, List.tail_cons]
  rw [h1]
  dsimp only
  rw [hkt]
  rfl

/-- A parsed parameter whose codec fields round-trip and whose word form
cannot be mistaken for a bracket re-parses from its serialized segment. -/
theorem parseParam_serialize (p : ExerciseParam) (hinv : ParamInv p)
    (h1 : parseProgressionValue (fvOf p) =
      PVParts.mk p.value p.progressionFormula p.initialValue p.maxValue)
    (h2 : p.editable = false → (fvOf p).head? = some '[' →
      ']' ∉ fvOf p ∧ ∀ u, p.unit = some u → ']' ∉ u) :
    parseParam (serializeParamSeg p) = some p := by
  obtain ⟨k, v, e, un, f, iv, mv, lk⟩ := p
  obtain ⟨hkt, hkc, hkp, hklt, hlk, huo, hfp, hflt, hed, hnw, hnu, hne⟩ :=
    hinv
  have hlk' : lk = none := hlk
  subst hlk'
  have h1' : parseProgressionValue (formatProgressionValue v f iv mv) =
      PVParts.mk v f iv mv := h1
  have hfvmem : ∀ c, c ∈ formatProgressionValue v f iv mv →
      c ∈ v ++ f.getD [] ++ iv.getD [] ++ mv.getD [] ∨
        c ∈ ['(', ')', '{', ',', '}'] := by
    intro c hc
    have h3 := mem_formatProgressionValue v f iv mv c hc
    simp only [List.mem_append] at h3 ⊢
    tauto
  cases e with
  | true =>
    have hnbr : ']' ∉ formatProgressionValue v f iv mv := by
      intro hm
      rcases hfvmem ']' hm with h | h
      · exact (hed rfl) h
      · simp at h
    cases un with
    | none => exact parseParam_ser_ed_nounit k v f iv mv hkt hkc hnbr h1'
    | some u =>
      obtain ⟨hune, hut, hunolt, hup⟩ := huo u rfl
      exact parseParam_ser_ed_unit k v u f iv mv hkt hkc hnbr hune hut
        hunolt h1'
  | false =>
    have hfvws : ∀ c ∈ formatProgressionValue v f iv mv,
        jsIsWs c = false := by
      intro c hc
      rcases hfvmem c hc with h | h
      · exact (hnw rfl) c h
      · simp only [List.mem_cons] at h
        rcases h with h|h|h|h|h|h
        · rw [h]; decide
        · rw [h]; decide
        · rw [h]; decide
        · rw [h]; decide
        · rw [h]; decide
        · cases h
    cases un with
    | none =>
      refine parseParam_ser_ned_nounit k v f iv mv hkt hkc hfvws ?_ h1'
      intro fvt hfv
      have hh : (formatProgressionValue v f iv mv).head? = some '[' := by
        rw [hfv]
        rfl
      obtain ⟨hnb, _⟩ := h2 rfl hh
      intro hm
      refine hnb ?_
      show ']' ∈ fvOf (ExerciseParam.mk k v false none f iv mv none)
      show ']' ∈ formatProgressionValue v f iv mv
      rw [hfv]
      exact List.mem_cons_of_mem '[' hm
    | some u =>
      obtain ⟨hune, hut, hunolt, hup⟩ := huo u rfl
      obtain ⟨hwords, hJoin⟩ := hnu rfl u rfl
      have hfvne : formatProgressionValue v f iv mv ≠ [] := by
        intro hfv0
        rw [hfv0] at h1'
        have hpe : parseProgressionValue ([] : List Char) =
            PVParts.mk [] none none none := rfl
        have hmk := h1'.symm.trans hpe
        injection hmk with e1 e2 e3 e4
        have h5 : (some u : Option (List Char)) = none := hne rfl e1 e2
        exact Option.noConfusion h5
      refine parseParam_ser_ned_unit k v u f iv mv hkt hkc hfvne hfvws
        hune hut hJoin ?_ h1'
      intro fvt hfv
      have hh : (formatProgressionValue v f iv mv).head? = some '[' := by
        rw [hfv]
        rfl
      obtain ⟨hnbfv, hnbu⟩ := h2 rfl hh
      intro hm
      rcases List.mem_append.mp hm with hm1 | hm2
      · refine hnbfv ?_
        show ']' ∈ formatProgressionValue v f iv mv
        rw [hfv]
        exact List.mem_cons_of_mem '[' hm1
      · rcases List.mem_cons.mp hm2 with hsp | hm3
        · exact absurd hsp (by decide)
        · exact hnbu u rfl hm3

/-- `parseDurationToSeconds` inverts the decimal seconds rendering. -/
theorem parseDurationToSeconds_ns (n : Nat) :
    parseDurationToSeconds (natToDecimal n ++ ['s']) = n := by
  have hdig := natToDecimal_isDigits n
  simp only [isDigits, Bool.and_eq_true, Bool.not_eq_true'] at hdig
  have hws : ∀ c ∈ natToDecimal n ++ ['s'], jsIsWs c = false := by
    intro c hc
    rcases List.mem_append.mp hc with h | h
    · refine jsIsWs_false_of_digit c ?_
      rw [List.all_eq_true] at hdig
      exact hdig.2 c h
    · rcases List.mem_cons.mp h with h1 | h1
      · rw [h1]; decide
      · cases h1
  unfold parseDurationToSeconds
  rw [jsTrim_eq_self_of_ws_free _ hws]
  have hsec : matchSecondsForm (natToDecimal n ++ ['s']) = some n := by
    unfold matchSecondsForm
    rw [List.reverse_append]
    rw [show (['s'] : List Char).reverse ++ (natToDecimal n).reverse =
      's' :: (natToDecimal n).reverse from rfl]
    split
    · rename_i rev heq
      injection heq with _ hrev
      rw [← hrev, List.reverse_reverse]
      rw [if_pos (natToDecimal_isDigits n), digitsToNat_natToDecimal n]
    · rename_i hwild
      exact absurd rfl (hwild ((natToDecimal n).reverse))
  dsimp only
  rw [hsec]

/-- Trimming drops a trailing whitespace character. -/
theorem jsTrim_concat_ws (x : List Char) (c : Char) (h : jsIsWs c = true) :
    jsTrim (x ++ [c]) = jsTrim x := by
  unfold jsTrim
  rw [List.dropWhile_append]
  by_cases he : (x.dropWhile jsIsWs).isEmpty = true
  · rw [if_pos he]
    have hx : x.dropWhile jsIsWs = [] := by
      cases hd : x.dropWhile jsIsWs with
      | nil => rfl
      | cons a t => rw [hd] at he; cases he
    rw [hx]
    rw [show ([c] : List Char).dropWhile jsIsWs = [] from by
      rw [show ([c] : List Char) = c :: [] from rfl, List.dropWhile_cons,
        if_pos h]
      rfl]
  · rw [if_neg he]
    unfold dropTrailWs
    rw [List.reverse_append]
    rw [show (([c] : List Char).reverse ++ (x.dropWhile jsIsWs).reverse) =
      c :: (x.dropWhile jsIsWs).reverse from by simp]
    rw [List.dropWhile_cons, if_pos h]

/-- Fields of `splitOnChar` do not contain the separator. -/
theorem splitOnChar_no_sep (c : Char) :
    ∀ l : List Char, ∀ w ∈ splitOnChar c l, c ∉ w := by
  intro l
  induction l with
  | nil =>
    intro w hw
    have : w = [] := by simpa [splitOnChar] using hw
    subst this
    exact List.not_mem_nil c
  | cons x xs ih =>
    intro w hw
    rw [splitOnChar] at hw
    by_cases hx : x = c
    · rw [if_pos hx] at hw
      rcases List.mem_cons.mp hw with h1 | h1
      · subst h1
        exact List.not_mem_nil c
      · exact ih w h1
    · rw [if_neg hx] at hw
      cases hs : splitOnChar c xs with
      | nil => exact absurd hs (splitOnChar_ne_nil c xs)
      | cons a rest =>
        rw [hs] at hw
        rcases List.mem_cons.mp hw with h1 | h1
        · subst h1
          intro hm
          rcases List.mem_cons.mp hm with h2 | h2
          · exact hx h2.symm
          · exact ih a (by rw [hs]; exact List.mem_cons_self a rest) h2
        · exact ih w (by rw [hs]; exact List.mem_cons_of_mem a h1)

/-- Characters of `splitOnChar` fields come from the input. -/
theorem splitOnChar_chars (c : Char) :
    ∀ l : List Char, ∀ w ∈ splitOnChar c l, ∀ d ∈ w, d ∈ l := by
  intro l
  induction l with
  | nil =>
    intro w hw d hd
    have : w = [] := by simpa [splitOnChar] using hw
    subst this
    cases hd
  | cons x xs ih =>
    intro w hw d hd
    rw [splitOnChar] at hw
    by_cases hx : x = c
    · rw [if_pos hx] at hw
      rcases List.mem_cons.mp hw with h1 | h1
      · subst h1
        cases hd
      · exact List.mem_cons_of_mem x (ih w h1 d hd)
    · rw [if_neg hx] at hw
      cases hs : splitOnChar c xs with
      | nil => exact absurd hs (splitOnChar_ne_nil c xs)
      | cons a rest =>
        rw [hs] at hw
        rcases List.mem_cons.mp hw with h1 | h1
        · subst h1
          rcases List.mem_cons.mp hd with h2 | h2
          · exact h2 ▸ List.mem_cons_self x xs
          · exact List.mem_cons_of_mem x
              (ih a (by rw [hs]; exact List.mem_cons_self a rest) d h2)
        · exact List.mem_cons_of_mem x
            (ih w (by rw [hs]; exact List.mem_cons_of_mem a h1) d hd)

/-- Splitting a prefix followed by rendered pipe segments. -/
theorem splitOnChar_pipeSegs :
    ∀ (bodies : List (List Char)) (pre : List Char), '|' ∉ pre →
      (∀ b ∈ bodies, '|' ∉ b) →
      splitOnChar '|' (pre ++
        (bodies.map (fun b => ' ' :: '|' :: ' ' :: b)).flatten) =
        pipeSplit pre bodies := by
  intro bodies
  induction bodies with
  | nil =>
    intro pre hpre _
    simp only [List.map_nil, List.flatten_nil, List.append_nil]
    exact splitOnChar_no '|' pre hpre
  | cons b bs ih =>
    intro pre hpre hall
    show splitOnChar '|' (pre ++ ((' ' :: '|' :: ' ' :: b) ++
      (bs.map (fun b => ' ' :: '|' :: ' ' :: b)).flatten)) = _
    rw [show pre ++ ((' ' :: '|' :: ' ' :: b) ++
        (bs.map (fun b => ' ' :: '|' :: ' ' :: b)).flatten) =
      (pre ++ [' ']) ++ '|' :: ((' ' :: b) ++
        (bs.map (fun b => ' ' :: '|' :: ' ' :: b)).flatten) from by simp]
    rw [splitOnChar_sep '|' (pre ++ [' ']) _
      (by
        intro hm
        rcases List.mem_append.mp hm with h | h
        · exact hpre h
        · rcases List.mem_cons.mp h with h1 | h1
          · exact absurd h1 (by decide)
          · cases h1)]
    rw [ih (' ' :: b)
      (by
        intro hm
        rcases List.mem_cons.mp hm with h1 | h1
        · exact absurd h1 (by decide)
        · exact hall b (List.mem_cons_self b bs) h1)
      (fun b2 hb2 => hall b2 (List.mem_cons_of_mem b hb2))]
    rfl

/-- The decimal seconds value is a plain codec value. -/
theorem parseProgressionValue_ns (n : Nat) :
    parseProgressionValue (natToDecimal n ++ ['s']) =
      PVParts.mk (natToDecimal n ++ ['s']) none none none := by
  have hdig := natToDecimal_isDigits n
  simp only [isDigits, Bool.and_eq_true, Bool.not_eq_true'] at hdig
  cases hnd : natToDecimal n with
  | nil => rw [hnd] at hdig; cases hdig.1
  | cons d ds =>
    have hd : d.isDigit = true := by
      have := hdig.2
      rw [hnd, List.all_cons, Bool.and_eq_true] at this
      exact this.1
    obtain ⟨hd1, hd2⟩ := isDigit_toNat d hd
    rw [← hnd]
    have hhd : (natToDecimal n ++ ['s']).head? = some d := by
      rw [hnd]
      rfl
    unfold parseProgressionValue
    rw [if_neg (by
      rw [hhd]
      intro h
      injection h with h
      rw [h] at hd1
      exact absurd hd1 (by decide))]
    rw [matchBounds_none _ (by
      rw [hhd]
      intro h
      injection h with h
      rw [h] at hd2
      exact absurd hd2 (by decide))]

/-- The emitted `Rest` segment parses to the rest parameter. -/
theorem parseParam_restBody (n : Nat) :
    parseParam (restBody n) = some (restBodyParam n) := by
  have hdig := natToDecimal_isDigits n
  simp only [isDigits, Bool.and_eq_true, Bool.not_eq_true'] at hdig
  have hform : restBody n = ("Rest".toList) ++ ':' ::
      (' ' :: ('[' :: (natToDecimal n ++ 's' :: ']' :: []))) := by
    unfold restBody
    simp
  have hsf : splitFirst ':' (restBody n) = some (("Rest".toList),
      ' ' :: ('[' :: (natToDecimal n ++ 's' :: ']' :: []))) := by
    rw [hform]
    exact splitFirst_append ':' _ _ (by decide)
  have hdigws : ∀ c ∈ natToDecimal n, jsIsWs c = false := by
    intro c hc
    refine jsIsWs_false_of_digit c ?_
    rw [List.all_eq_true] at hdig
    exact hdig.2 c hc
  have hjt : jsTrim (' ' :: ('[' :: (natToDecimal n ++ 's' :: ']' :: []))) =
      '[' :: (natToDecimal n ++ 's' :: ']' :: []) := by
    rw [jsTrim_cons_ws ' ' _ (by decide)]
    refine jsTrim_eq_self_of_ws_free _ ?_
    intro c hc
    rcases List.mem_cons.mp hc with h | h
    · rw [h]; decide
    · rcases List.mem_append.mp h with h1 | h1
      · exact hdigws c h1
      · rcases List.mem_cons.mp h1 with h2 | h2
        · rw [h2]; decide
        · rcases List.mem_cons.mp h2 with h3 | h3
          · rw [h3]; decide
          · cases h3
  have hsf2 : splitFirst ']' (natToDecimal n ++ 's' :: ']' :: []) =
      some (natToDecimal n ++ ['s'], []) := by
    rw [show natToDecimal n ++ 's' :: ']' :: [] =
      (natToDecimal n ++ ['s']) ++ ']' :: [] from by simp]
    refine splitFirst_append ']' _ _ ?_
    intro hm
    rcases List.mem_append.mp hm with h | h
    · have := hdigws ']' h
      have h2 := List.all_eq_true.mp hdig.2 ']' h
      exact absurd h2 (by decide)
    · rcases List.mem_cons.mp h with h1 | h1
      · exact absurd h1 (by decide)
      · cases h1
  rw [parseParam_bracket_eval _ ("Rest".toList) _ _ _ _ hsf hjt hsf2 rfl]
  unfold bracketParam
  dsimp only
  rw [parseProgressionValue_ns n]
  dsimp only
  rfl

/-- The emitted `Rest` segment contributes no stored parameter. -/
theorem storedOf_restBody (n : Nat) : storedOf (restBody n) = none := by
  unfold storedOf
  rw [parseParam_restBody n]
  dsimp only
  rw [if_pos (show lowerStr (restBodyParam n).key = kwRest from rfl)]

/-- The emitted `Rest` segment sets the rest accumulator to its seconds. -/
theorem restStep_restBody (acc : Option Nat) (n : Nat) :
    restStep acc (restBody n) = some n := by
  unfold restStep
  rw [parseParam_restBody n]
  dsimp only
  have hne : (natToDecimal n ++ ['s']).isEmpty = false := by
    cases hnd : natToDecimal n with
    | nil => rfl
    | cons d ds => rfl
  rw [if_pos (by
    dsimp only [restBodyParam]
    rw [hne]
    rw [show lowerStr ("Rest".toList) = kwRest from rfl]
    simp)]
  dsimp only [restBodyParam]
  rw [parseDurationToSeconds_ns n]

/-- The duration fields ignore the emitted `Rest` segment. -/
theorem exFoldStep_restBody (acc : ExAcc) (n : Nat) :
    exFoldStep acc (restBody n) =
      { acc with restAfter := some n } := by
  unfold exFoldStep
  rw [parseParam_restBody n]
  dsimp only
  rw [if_pos (show lowerStr (restBodyParam n).key = kwRest from rfl)]
  rw [if_pos (by
    dsimp only [restBodyParam]
    cases hnd : natToDecimal n with
    | nil => rfl
    | cons d ds => rfl)]
  dsimp only [restBodyParam]
  rw [parseDurationToSeconds_ns n]

/-- The state character map round-trips. -/
theorem stateOfChar_getStateChar (st : ExerciseState) :
    stateOfChar (getStateChar st) = st := by
  cases st <;> rfl

/-- State characters are never line terminators. -/
theorem isLineTerm_getStateChar (st : ExerciseState) :
    isLineTerm (getStateChar st) = false := by
  cases st <;> decide

/-- Characters of a serialized segment come from the parameter or the
fixed punctuation. -/
theorem mem_serializeParamSeg (p : ExerciseParam) (c : Char)
    (h : c ∈ serializeParamSeg p) :
    c ∈ p.key ∨ c ∈ fvOf p ∨ (∃ u, p.unit = some u ∧ c ∈ u) ∨
      c ∈ [':', ' ', '[', ']'] := by
  unfold serializeParamSeg at h
  dsimp only at h
  rcases List.mem_append.mp h with h1 | h1
  · rcases List.mem_append.mp h1 with h2 | h2
    · exact Or.inl h2
    · rcases List.mem_cons.mp h2 with h3 | h3
      · rw [h3]; right; right; right; simp
      · rcases List.mem_cons.mp h3 with h4 | h4
        · rw [h4]; right; right; right; simp
        · by_cases he : p.editable = true
          · rw [if_pos he] at h4
            rcases List.mem_cons.mp h4 with h5 | h5
            · rw [h5]; right; right; right; simp
            · rcases List.mem_append.mp h5 with h6 | h6
              · exact Or.inr (Or.inl h6)
              · rcases List.mem_cons.mp h6 with h7 | h7
                · rw [h7]; right; right; right; simp
                · cases h7
          · rw [if_neg he] at h4
            exact Or.inr (Or.inl h4)
  · by_cases hu : strTruthy p.unit = true
    · rw [if_pos hu] at h1
      rcases List.mem_cons.mp h1 with h2 | h2
      · rw [h2]; right; right; right; simp
      · cases hun : p.unit with
        | none => rw [hun] at hu; cases hu
        | some u =>
          rw [hun] at h2
          exact Or.inr (Or.inr (Or.inl ⟨u, rfl, h2⟩))
    · rw [if_neg hu] at h1
      cases h1

/-- A serialized segment of an invariant-satisfying parameter has no
line terminator. -/
theorem serializeParamSeg_noLT (p : ExerciseParam) (hinv : ParamInv p) :
    noLT (serializeParamSeg p) = true := by
  unfold noLT
  rw [List.all_eq_true]
  intro c hc
  suffices h : isLineTerm c = false by simp [h]
  rcases mem_serializeParamSeg p c hc with h | h | ⟨u, hu, h⟩ | h
  · have := hinv.key_lt
    unfold noLT at this
    rw [List.all_eq_true] at this
    have h2 := this c h
    simpa using h2
  · have h3 := mem_formatProgressionValue p.value p.progressionFormula
      p.initialValue p.maxValue c h
    rcases List.mem_append.mp h3 with h4 | h4
    · have := hinv.fields_lt
      unfold noLT at this
      rw [List.all_eq_true] at this
      have h5 : c ∈ fieldChars p := by
        unfold fieldChars
        simp only [List.mem_append] at h4 ⊢
        tauto
      simpa using this c h5
    · simp only [List.mem_cons] at h4
      rcases h4 with h|h|h|h|h|h
      · rw [h]; decide
      · rw [h]; decide
      · rw [h]; decide
      · rw [h]; decide
      · rw [h]; decide
      · cases h
  · have := (hinv.unit_ok u hu).2.2.1
    unfold noLT at this
    rw [List.all_eq_true] at this
    simpa using this c h
  · simp only [List.mem_cons] at h
    rcases h with h|h|h|h|h
    · rw [h]; decide
    · rw [h]; decide
    · rw [h]; decide
    · rw [h]; decide
    · cases h

/-- A serialized segment of an invariant-satisfying parameter has no
pipe character. -/
theorem serializeParamSeg_no_pipe (p : ExerciseParam) (hinv : ParamInv p) :
    '|' ∉ serializeParamSeg p := by
  intro hc
  rcases mem_serializeParamSeg p '|' hc with h | h | ⟨u, hu, h⟩ | h
  · exact hinv.key_pipe h
  · have h3 := mem_formatProgressionValue p.value p.progressionFormula
      p.initialValue p.maxValue '|' h
    rcases List.mem_append.mp h3 with h4 | h4
    · refine hinv.fields_pipe ?_
      unfold fieldChars
      simp only [List.mem_append] at h4 ⊢
      tauto
    · simp at h4
  · exact (hinv.unit_ok u hu).2.2.2 h
  · simp at h

/-- The emitted `Rest` segment has no line terminator. -/
theorem restBody_noLT (n : Nat) : noLT (restBody n) = true := by
  have hdig := natToDecimal_isDigits n
  simp only [isDigits, Bool.and_eq_true, Bool.not_eq_true'] at hdig
  unfold noLT
  rw [List.all_eq_true]
  intro c hc
  suffices h : isLineTerm c = false by simp [h]
  unfold restBody at hc
  rcases List.mem_append.mp hc with h1 | h1
  · rcases List.mem_append.mp h1 with h2 | h2
    · exact (show ∀ d ∈ ("Rest: [".toList), isLineTerm d = false
        from by decide) c h2
    · refine isLineTerm_false_of_digit c ?_
      exact List.all_eq_true.mp hdig.2 c h2
  · exact (show ∀ d ∈ ("s]".toList), isLineTerm d = false
      from by decide) c h1

/-- The emitted `Rest` segment has no pipe character. -/
theorem restBody_no_pipe (n : Nat) : '|' ∉ restBody n := by
  have hdig := natToDecimal_isDigits n
  simp only [isDigits, Bool.and_eq_true, Bool.not_eq_true'] at hdig
  intro hc
  unfold restBody at hc
  rcases List.mem_append.mp hc with h1 | h1
  · rcases List.mem_append.mp h1 with h2 | h2
    · exact (show '|' ∉ ("Rest: [".toList) from by decide) h2
    · have := List.all_eq_true.mp hdig.2 '|' h2
      exact absurd this (by decide)
  · exact (show '|' ∉ ("s]".toList) from by decide) h1

/-- Trimming the fields of a pipe split trims the bodies. -/
theorem map_jsTrim_pipeSplit :
    ∀ (bodies : List (List Char)) (pre : List Char),
      (pipeSplit pre bodies).map jsTrim =
        jsTrim pre :: bodies.map jsTrim := by
  intro bodies
  induction bodies with
  | nil => intro pre; rfl
  | cons b bs ih =>
    intro pre
    show jsTrim (pre ++ [' ']) :: (pipeSplit (' ' :: b) bs).map jsTrim = _
    rw [jsTrim_concat_ws pre ' ' (by decide), ih (' ' :: b),
      jsTrim_cons_ws ' ' b (by decide)]
    rfl

/-- The parameter-loop step ignores outer segment whitespace. -/
theorem exFoldStep_jsTrim (acc : ExAcc) (s : List Char) :
    exFoldStep acc (jsTrim s) = exFoldStep acc s := by
  unfold exFoldStep
  rw [parseParam_jsTrim]

/-- The parameter loop over trimmed segments equals the loop over the
segments. -/
theorem foldl_exFold_jsTrim :
    ∀ (segs : List (List Char)) (acc : ExAcc),
      (segs.map jsTrim).foldl exFoldStep acc = segs.foldl exFoldStep acc := by
  intro segs
  induction segs with
  | nil => intro acc; rfl
  | cons s rest ih =>
    intro acc
    show ((s :: rest).map jsTrim).foldl exFoldStep acc = _
    rw [List.map_cons, List.foldl_cons, List.foldl_cons,
      exFoldStep_jsTrim]
    exact ih (exFoldStep acc s)

/-- A reparsing, non-`Rest` parameter is stored unchanged. -/
theorem storedOf_serializeParamSeg (p : ExerciseParam)
    (hp : parseParam (serializeParamSeg p) = some p)
    (hnr : lowerStr p.key ≠ kwRest) :
    storedOf (serializeParamSeg p) = some p := by
  unfold storedOf
  rw [hp]
  dsimp only
  rw [if_neg hnr]

/-- The stored parameters of reparsing serialized segments are the
original parameters. -/
theorem storedParams_serialize (params : List ExerciseParam)
    (hpp : ∀ p ∈ params, parseParam (serializeParamSeg p) = some p)
    (hnr : ∀ p ∈ params, lowerStr p.key ≠ kwRest) :
    storedParams (params.map serializeParamSeg) = params := by
  induction params with
  | nil => rfl
  | cons p ps ih =>
    rw [List.map_cons, storedParams_cons,
      storedOf_serializeParamSeg p (hpp p (List.mem_cons_self p ps))
        (hnr p (List.mem_cons_self p ps))]
    rw [ih (fun q hq => hpp q (List.mem_cons_of_mem p hq))
      (fun q hq => hnr q (List.mem_cons_of_mem p hq))]
    rfl

/-- A reparsing, non-`Rest` segment leaves the rest accumulator
unchanged. -/
theorem restStep_skip (s : List Char) (p : ExerciseParam)
    (hp : parseParam s = some p) (hnr : lowerStr p.key ≠ kwRest)
    (a : Option Nat) : restStep a s = a := by
  unfold restStep
  rw [hp]
  dsimp only
  rw [if_neg (by simp [hnr])]

/-- The rest fold over reparsing serialized parameter segments keeps the
accumulator. -/
theorem foldl_restStep_serialize (params : List ExerciseParam)
    (hpp : ∀ p ∈ params, parseParam (serializeParamSeg p) = some p)
    (hnr : ∀ p ∈ params, lowerStr p.key ≠ kwRest) (a : Option Nat) :
    (params.map serializeParamSeg).foldl restStep a = a := by
  induction params generalizing a with
  | nil => rfl
  | cons p ps ih =>
    rw [List.map_cons, List.foldl_cons,
      restStep_skip _ p (hpp p (List.mem_cons_self p ps))
        (hnr p (List.mem_cons_self p ps)) a]
    exact ih (fun q hq => hpp q (List.mem_cons_of_mem p hq))
      (fun q hq => hnr q (List.mem_cons_of_mem p hq)) a

/-- A successful line-rest match is line-terminator-free. -/
theorem matchLineRest_noLT (r rest : List Char)
    (h : matchLineRest r = some rest) : noLT rest = true := by
  unfold matchLineRest at h
  dsimp only at h
  by_cases hte : (!(r.dropWhile jsIsWs).isEmpty) = true
  · rw [if_pos hte] at h
    by_cases hnl : noLT (r.dropWhile jsIsWs) = true
    · rw [if_pos hnl] at h
      injection h with h
      rw [← h]
      exact hnl
    · rw [if_neg hnl] at h
      cases h
  · rw [if_neg hte] at h
    cases hrev : r.reverse.head? with
    | none => rw [hrev] at h; cases h
    | some c2 =>
      rw [hrev] at h
      dsimp only at h
      by_cases hltc : isLineTerm c2 = true
      · rw [if_pos (by simp [hltc])] at h
        cases h
      · rw [if_neg (by simp [hltc])] at h
        injection h with h
        rw [← h]
        unfold noLT
        simp [hltc]

/-- A matched exercise line yields a line-terminator-free rest. -/
theorem lineMatch_noLT (l : List Char) (c : Char) (rest : List Char)
    (h : lineMatch l = some (c, rest)) : noLT rest = true := by
  unfold lineMatch at h
  split at h
  · rename_i r1
    split at h
    · rename_i c2 r3 hdr
      by_cases hlt : isLineTerm c2 = true
      · rw [if_pos hlt] at h
        cases h
      · rw [if_neg hlt] at h
        cases hmr : matchLineRest r3 with
        | none => rw [hmr] at h; cases h
        | some rest2 =>
          rw [hmr] at h
          dsimp only at h
          injection h with h
          injection h with h1 h2
          rw [← h2]
          exact matchLineRest_noLT r3 rest2 hmr
    · cases h
  · cases h

/-- Stored parameters come from segments that parse to them with a
non-`Rest` key. -/
theorem storedParams_mem (segs : List (List Char)) (p : ExerciseParam)
    (hp : p ∈ storedParams segs) :
    ∃ s ∈ segs, parseParam s = some p ∧ lowerStr p.key ≠ kwRest := by
  unfold storedParams at hp
  rw [List.mem_filterMap] at hp
  obtain ⟨s, hs, hso⟩ := hp
  refine ⟨s, hs, ?_⟩
  unfold storedOf at hso
  cases hpp : parseParam s with
  | none => rw [hpp] at hso; cases hso
  | some q =>
    rw [hpp] at hso
    dsimp only at hso
    by_cases hr : lowerStr q.key = kwRest
    · rw [if_pos hr] at hso
      cases hso
    · rw [if_neg hr] at hso
      injection hso with hso
      subst hso
      exact ⟨rfl, hr⟩

/-- Every parsed exercise satisfies the parse invariants. -/
theorem parseExercise_inv (l : List Char) (i : Nat) (e : Exercise)
    (hp : parseExercise l i = some e) : ExInv e := by
  unfold parseExercise at hp
  cases hlm : lineMatch l with
  | none => rw [hlm] at hp; cases hp
  | some cr =>
    obtain ⟨c, rest⟩ := cr
    rw [hlm] at hp
    dsimp only at hp
    injection hp with hp
    subst hp
    have hrlt : noLT rest = true := lineMatch_noLT l c rest hlm
    have hname : ∀ P : List Char → Prop,
        (∀ w, w ∈ splitOnChar '|' rest → P (jsTrim w)) →
        P (((splitOnChar '|' rest).map jsTrim).headD []) := by
      intro P hP
      cases hsp : splitOnChar '|' rest with
      | nil => exact absurd hsp (splitOnChar_ne_nil '|' rest)
      | cons w ws =>
        rw [List.map_cons]
        exact hP w (by rw [hsp]; exact List.mem_cons_self w ws)
    have hseg : ∀ s ∈ ((splitOnChar '|' rest).map jsTrim).tail,
        noLT s = true ∧ '|' ∉ s := by
      intro s hs
      have hs2 : s ∈ (splitOnChar '|' rest).map jsTrim :=
        (List.tail_sublist _).subset hs
      rw [List.mem_map] at hs2
      obtain ⟨w, hw, hws⟩ := hs2
      subst hws
      constructor
      · exact noLT_jsTrim (noLT_sub
          (fun d hd => splitOnChar_chars '|' rest w hw d hd) hrlt)
      · intro hm
        exact splitOnChar_no_sep '|' rest w hw (mem_of_mem_jsTrim hm)
    obtain ⟨hfac1, hfac2⟩ := exFold_factor
      (((splitOnChar '|' rest).map jsTrim).tail) {}
    refine ⟨?_, ?_, ?_, ?_, ?_, ?_⟩
    · exact hname (fun nm => jsTrim nm = nm)
        (fun w _ => jsTrim_idem w)
    · exact hname (fun nm => '|' ∉ nm)
        (fun w hw hm =>
          splitOnChar_no_sep '|' rest w hw (mem_of_mem_jsTrim hm))
    · exact hname (fun nm => noLT nm = true)
        (fun w hw => noLT_jsTrim (noLT_sub
          (fun d hd => splitOnChar_chars '|' rest w hw d hd) hrlt))
    · intro p hpmem
      have hpmem2 : p ∈ storedParams
          (((splitOnChar '|' rest).map jsTrim).tail) := by
        have := hfac1 ▸ hpmem
        simpa using this
      obtain ⟨s, hs, hps, _⟩ := storedParams_mem _ p hpmem2
      obtain ⟨hslt, hspipe⟩ := hseg s hs
      exact parseParam_inv s p hslt hspipe hps
    · intro p hpmem
      have hpmem2 : p ∈ storedParams
          (((splitOnChar '|' rest).map jsTrim).tail) := by
        have := hfac1 ▸ hpmem
        simpa using this
      obtain ⟨s, hs, hps, hnr⟩ := storedParams_mem _ p hpmem2
      exact hnr
    · show (_, _) = List.foldl durStep (none, none) _
      rw [hfac2]
      have hparams : (List.foldl exFoldStep {}
          (((splitOnChar '|' rest).map jsTrim).tail)).params =
          storedParams (((splitOnChar '|' rest).map jsTrim).tail) := by
        rw [hfac1]
        rfl
      rw [hparams]

/-- `matchLineRest` succeeds with the stripped rest when that rest is
nonempty and line-terminator free. -/
theorem matchLineRest_pos (r t0 : List Char)
    (hdw : r.dropWhile jsIsWs = t0) (hne : t0.isEmpty = false)
    (hlt : noLT t0 = true) : matchLineRest r = some t0 := by
  unfold matchLineRest
  dsimp only
  rw [hdw]
  rw [if_pos (show (!t0.isEmpty) = true by rw [hne]; rfl)]
  rw [if_pos hlt]

/-- Splitting and trimming the reparsed line rest recovers the name and
the trimmed segment bodies. -/
theorem lineRest_split (nm : List Char) (bodies : List (List Char))
    (hnmtrim : jsTrim nm = nm) (hnmpipe : '|' ∉ nm)
    (hnmlt : noLT nm = true)
    (hbody : ∀ b ∈ bodies, noLT b = true ∧ '|' ∉ b) :
    ∃ t, matchLineRest (' ' :: (nm ++
        (bodies.map (fun b => ' ' :: '|' :: ' ' :: b)).flatten)) = some t ∧
      (splitOnChar '|' t).map jsTrim = nm :: bodies.map jsTrim := by
  have hTlt : noLT (nm ++
      (bodies.map (fun b => ' ' :: '|' :: ' ' :: b)).flatten) = true := by
    unfold noLT
    rw [List.all_eq_true]
    intro c hc
    suffices h : isLineTerm c = false by simp [h]
    rcases List.mem_append.mp hc with h1 | h1
    · unfold noLT at hnmlt
      rw [List.all_eq_true] at hnmlt
      simpa using hnmlt c h1
    · rw [List.mem_flatten] at h1
      obtain ⟨seg, hseg, hcseg⟩ := h1
      rw [List.mem_map] at hseg
      obtain ⟨b, hb, hbs⟩ := hseg
      subst hbs
      rcases List.mem_cons.mp hcseg with h2 | h2
      · rw [h2]; decide
      · rcases List.mem_cons.mp h2 with h3 | h3
        · rw [h3]; decide
        · rcases List.mem_cons.mp h3 with h4 | h4
          · rw [h4]; decide
          · have := (hbody b hb).1
            unfold noLT at this
            rw [List.all_eq_true] at this
            simpa using this c h4
  cases nm with
  | cons a nmt =>
    have ha : jsIsWs a = false :=
      head_nonws_of_jsTrim_eq (a :: nmt) a hnmtrim rfl
    have hdw : ((' ' : Char) :: ((a :: nmt) ++
        (bodies.map (fun b => ' ' :: '|' :: ' ' :: b)).flatten)).dropWhile
          jsIsWs = (a :: nmt) ++
        (bodies.map (fun b => ' ' :: '|' :: ' ' :: b)).flatten := by
      rw [List.dropWhile_cons, if_pos (show jsIsWs ' ' = true from rfl),
        List.cons_append, List.dropWhile_cons,
        if_neg (show ¬jsIsWs a = true by rw [ha]; exact Bool.false_ne_true)]
    refine ⟨(a :: nmt) ++
      (bodies.map (fun b => ' ' :: '|' :: ' ' :: b)).flatten,
      matchLineRest_pos _ _ hdw rfl hTlt, ?_⟩
    rw [splitOnChar_pipeSegs bodies (a :: nmt) hnmpipe
      (fun b hb => (hbody b hb).2)]
    rw [map_jsTrim_pipeSplit bodies (a :: nmt), hnmtrim]
  | nil =>
    cases bodies with
    | nil => exact ⟨[' '], rfl, rfl⟩
    | cons b1 bs =>
      have hflat : ((b1 :: bs).map
          (fun b => ' ' :: '|' :: ' ' :: b)).flatten =
          ' ' :: '|' :: ' ' :: (b1 ++
            (bs.map (fun b => ' ' :: '|' :: ' ' :: b)).flatten) := by
        rw [List.map_cons, List.flatten_cons]
        simp
      have hdw : ((' ' : Char) :: (([] : List Char) ++
          ((b1 :: bs).map (fun b => ' ' :: '|' :: ' ' :: b)).flatten)).dropWhile
            jsIsWs = '|' :: ' ' :: (b1 ++
          (bs.map (fun b => ' ' :: '|' :: ' ' :: b)).flatten) := by
        rw [List.nil_append, hflat]
        rw [List.dropWhile_cons, if_pos (show jsIsWs ' ' = true from rfl),
          List.dropWhile_cons, if_pos (show jsIsWs ' ' = true from rfl),
          List.dropWhile_cons, if_neg (show ¬jsIsWs '|' = true by decide)]
      have hlt2 : noLT ('|' :: ' ' :: (b1 ++
          (bs.map (fun b => ' ' :: '|' :: ' ' :: b)).flatten)) = true := by
        refine noLT_sub ?_ hTlt
        intro c hc
        rw [List.nil_append, hflat]
        simp only [List.mem_cons] at hc ⊢
        tauto
      refine ⟨'|' :: ' ' :: (b1 ++
        (bs.map (fun b => ' ' :: '|' :: ' ' :: b)).flatten),
        matchLineRest_pos _ _ hdw rfl hlt2, ?_⟩
      have hp1 : '|' ∉ (' ' :: b1) := by
        intro hm
        rcases List.mem_cons.mp hm with h1 | h1
        · exact absurd h1 (by decide)
        · exact (hbody b1 (List.mem_cons_self b1 bs)).2 h1
      show (splitOnChar '|' (([] : List Char) ++ '|' :: ((' ' :: b1) ++
        (bs.map (fun b => ' ' :: '|' :: ' ' :: b)).flatten))).map jsTrim =
        [] :: (b1 :: bs).map jsTrim
      rw [splitOnChar_sep '|' [] ((' ' :: b1) ++
        (bs.map (fun b => ' ' :: '|' :: ' ' :: b)).flatten)
        (by decide : ('|' : Char) ∉ ([] : List Char))]
      rw [splitOnChar_pipeSegs bs (' ' :: b1) hp1
        (fun b hb => (hbody b (List.mem_cons_of_mem b1 hb)).2)]
      rw [List.map_cons, map_jsTrim_pipeSplit bs (' ' :: b1),
        jsTrim_cons_ws ' ' b1 (show jsIsWs ' ' = true from rfl), jsTrim_nil]
      rfl

/-- `serializeExercise` in prefix-plus-rendered-segments form. -/
theorem serializeExercise_eq (e : Exercise) :
    serializeExercise e = '-' :: ' ' :: '[' :: getStateChar e.state :: ']' ::
      ' ' :: (e.name ++
        (((serBodies e).map (fun b => ' ' :: '|' :: ' ' :: b)).flatten)) := by
  unfold serializeExercise serBodies
  cases e.restAfter with
  | none =>
    simp [List.map_map, Function.comp_def]
  | some n =>
    simp [restBody, List.map_map, Function.comp_def, List.append_assoc]

/-- `lineMatch` on a serialized line finds the state character and the
matched rest. -/
theorem lineMatch_serialize (st : ExerciseState) (T t : List Char)
    (hmt : matchLineRest (' ' :: T) = some t) :
    lineMatch ('-' :: ' ' :: '[' :: getStateChar st :: ']' :: ' ' :: T) =
      some (getStateChar st, t) := by
  have hdw : ((' ' :: '[' :: getStateChar st :: ']' :: ' ' :: T)).dropWhile
      jsIsWs = '[' :: getStateChar st :: ']' :: (' ' :: T) := by
    rw [List.dropWhile_cons, if_pos (by decide), List.dropWhile_cons,
      if_neg (by decide)]
  unfold lineMatch
  split
  · rename_i r1 heq
    injection heq with _ hr1
    rw [← hr1, hdw]
    split
    · rename_i c2 r3 heq2
      injection heq2 with _ heq2
      injection heq2 with hc2 heq2
      injection heq2 with _ hr3
      rw [if_neg (by rw [← hc2]; simp [isLineTerm_getStateChar])]
      rw [← hr3, hmt]
      dsimp only
      rw [← hc2]
    · rename_i hwild
      exact absurd rfl (hwild (getStateChar st) (' ' :: T))
  · rename_i hwild
    exact absurd rfl
      (hwild (' ' :: '[' :: getStateChar st :: ']' :: ' ' :: T))

/-- Reparsing a serialized exercise recovers it, given the structural
invariants and the per-parameter reparse facts. -/
theorem serializeExercise_reparse (e : Exercise) (hinv : ExInv e)
    (hpp : ∀ p ∈ e.params, parseParam (serializeParamSeg p) = some p) :
    parseExercise (serializeExercise e) e.lineIndex = some e := by
  have hbody : ∀ b ∈ serBodies e, noLT b = true ∧ '|' ∉ b := by
    intro b hb
    unfold serBodies at hb
    rcases List.mem_append.mp hb with h1 | h1
    · rw [List.mem_map] at h1
      obtain ⟨p, hp, hps⟩ := h1
      subst hps
      exact ⟨serializeParamSeg_noLT p (hinv.params_inv p hp),
        serializeParamSeg_no_pipe p (hinv.params_inv p hp)⟩
    · cases hra : e.restAfter with
      | none => rw [hra] at h1; exact absurd h1 (List.not_mem_nil b)
      | some n =>
        rw [hra] at h1
        rcases List.mem_cons.mp h1 with h2 | h2
        · subst h2
          exact ⟨restBody_noLT n, restBody_no_pipe n⟩
        · exact absurd h2 (List.not_mem_nil b)
  have hstored : storedParams (serBodies e) = e.params := by
    unfold serBodies storedParams
    rw [List.filterMap_append]
    rw [show List.filterMap storedOf (e.params.map serializeParamSeg) =
      e.params from storedParams_serialize e.params hpp hinv.params_notrest]
    cases hra : e.restAfter with
    | none => simp
    | some n =>
      rw [show List.filterMap storedOf [restBody n] = [] from by
        simp [List.filterMap_cons, storedOf_restBody n]]
      simp
  have hrest : (serBodies e).foldl restStep none = e.restAfter := by
    unfold serBodies
    rw [List.foldl_append]
    rw [foldl_restStep_serialize e.params hpp hinv.params_notrest none]
    cases hra : e.restAfter with
    | none => rfl
    | some n => exact restStep_restBody none n
  obtain ⟨t, hmt, hpt⟩ := lineRest_split e.name (serBodies e) hinv.name_trim
    hinv.name_pipe hinv.name_lt hbody
  have hlm := lineMatch_serialize e.state (e.name ++
    ((serBodies e).map (fun b => ' ' :: '|' :: ' ' :: b)).flatten) t hmt
  rw [serializeExercise_eq e]
  unfold parseExercise
  rw [hlm]
  dsimp only
  rw [hpt]
  simp only [List.headD_cons, List.tail_cons]
  rw [foldl_exFold_jsTrim]
  have hparams : ((serBodies e).foldl exFoldStep {}).params = e.params := by
    rw [(exFold_factor (serBodies e) {}).1, hstored]
    exact List.nil_append e.params
  have hdur : (((serBodies e).foldl exFoldStep {}).targetDuration,
      ((serBodies e).foldl exFoldStep {}).recordedDuration) =
      (e.targetDuration, e.recordedDuration) := by
    rw [(exFold_factor (serBodies e) {}).2, hstored]
    exact hinv.dur_eq.symm
  have htar : ((serBodies e).foldl exFoldStep {}).targetDuration =
      e.targetDuration := congrArg Prod.fst hdur
  have hrec : ((serBodies e).foldl exFoldStep {}).recordedDuration =
      e.recordedDuration := congrArg Prod.snd hdur
  have hra2 : ((serBodies e).foldl exFoldStep {}).restAfter = e.restAfter := by
    rw [exFold_restAfter (serBodies e) {}]
    exact hrest
  rw [hparams, htar, hrec, hra2, stateOfChar_getStateChar]

/-- C6 counterexample: for the line `- [ ] A | Reps: [()5]` the parsed
exercise keeps an empty progression formula that serialization drops, and
for `- [ ] A | Reps: {,}[5]` the locked value `[5]` re-parses as an
editable `5`; in both cases reparsing the serialization of the parse
differs from the parse. -/
theorem parseExercise_roundtrip_counterexample :
    (parseExercise ("- [ ] A | Reps: [()5]".toList) 0).bind
        (fun e => parseExercise (serializeExercise e) 0) ≠
      parseExercise ("- [ ] A | Reps: [()5]".toList) 0 ∧
    (parseExercise ("- [ ] A | Reps: {,}[5]".toList) 0).bind
        (fun e => parseExercise (serializeExercise e) 0) ≠
      parseExercise ("- [ ] A | Reps: {,}[5]".toList) 0 := by
  exact ⟨by decide, by decide⟩

/-- **C6** (amended): `parseExercise` is total by construction (the
embedding returns an `Option`), and the serialize/reparse round trip
holds for every parsed exercise whose stored parameters (a) have their
formatted progression value parse back to exactly their codec fields and
(b), when locked, do not render a value that mimics an editable bracket:
reparsing the serialization at the same index returns the structurally
equal exercise (same state, name, params, durations and restAfter). -/
theorem parseExercise_roundtrip (l : List Char) (i : Nat) (e : Exercise)
    (hp : parseExercise l i = some e)
    (hcodec : ∀ p ∈ e.params, parseProgressionValue (fvOf p) =
      PVParts.mk p.value p.progressionFormula p.initialValue p.maxValue)
    (hbrack : ∀ p ∈ e.params, p.editable = false →
      (fvOf p).head? = some '[' →
        ']' ∉ fvOf p ∧ ∀ u, p.unit = some u → ']' ∉ u) :
    parseExercise (serializeExercise e) i = some e := by
  have hinv := parseExercise_inv l i e hp
  have hpp : ∀ p ∈ e.params, parseParam (serializeParamSeg p) = some p :=
    fun p hpm => parseParam_serialize p (hinv.params_inv p hpm)
      (hcodec p hpm) (hbrack p hpm)
  have hidx : e.lineIndex = i := by
    unfold parseExercise at hp
    cases hlm : lineMatch l with
    | none => rw [hlm] at hp; cases hp
    | some cr =>
      obtain ⟨c, rest⟩ := cr
      rw [hlm] at hp
      dsimp only at hp
      injection hp with hp
      rw [← hp]
  rw [← hidx]
  exact serializeExercise_reparse e hinv hpp

/-- Witness for the C6 round trip at the line
`- [x] Squat | Reps: [(r+1){8,12}8] kg | Rest: [90s]`. -/
theorem parseExercise_roundtrip_witness :
    parseExercise (serializeExercise ex6) 3 = some ex6 :=
  parseExercise_roundtrip
    ("- [x] Squat | Reps: [(r+1){8,12}8] kg | Rest: [90s]".toList) 3 ex6
    (by decide) (by decide)
    (fun p hpm hed _ => by
      have h : p = ExerciseParam.mk ("Reps".toList) ['8'] true
          (some ("kg".toList)) (some ("r+1".toList)) (some ['8'])
          (some ("12".toList)) none :=
        List.mem_singleton.mp hpm
      rw [h] at hed
      exact absurd hed (by decide))

end WorkoutLog
